import Mathlib

/-!
# Verification of the Birkhoff–von Neumann decomposition package

This file shallowly embeds the two source modules of the repository,
`birkhoff.py` (the decomposition driver and its matrix helpers) and
`birkhoff/matching.py` (the Hopcroft–Karp maximum bipartite matching engine),
and proves the specified properties about them.

Modelling conventions:

* NumPy float64 arrays are embedded as matrices over `ℚ` (exact arithmetic);
  machine epsilon `2 ^ (-52)` enters only through the source's fixed
  `TOLERANCE` constant, which is kept exactly as the code computes it
  (`np.finfo(np.float).eps * 10`).  All arithmetic performed by the code
  (subtraction, scalar multiplication, comparison against the tolerance,
  exact comparison with 0) is represented exactly.
* A NumPy array is a structure `NMat` carrying its shape and a total entry
  function; entries outside the shape are never read by the embedded code.
* Python dictionaries with absent keys are embedded as total functions into
  `Option`; the source only ever reads keys it has written, so the default
  value is irrelevant (we use `none` / `Dist.inf`).
* Python `while` loops are embedded with an explicit fuel argument; running
  out of fuel yields `none` (respectively an error value).  We prove that the
  fuel supplied by the top-level wrappers is always sufficient, which is
  exactly the source's termination argument.
* `float('inf')` distances are embedded by the two-constructor type `Dist`.
* Iteration order of Python dicts/sets (`G[v]`, `for v in left`) is fixed to
  increasing vertex order, matching `networkx.from_numpy_matrix` insertion
  order on CPython 3.7+.
-/

set_option maxRecDepth 10000

namespace Birkhoff

/-! ## Matrices -/

/-- A NumPy 2-D array over exact rationals: a shape together with a total
entry function.  Entries outside the shape default to `0` and are never read
by the embedded code. -/
structure NMat where
  rows : ℕ
  cols : ℕ
  entry : ℕ → ℕ → ℚ

/-- `TOLERANCE = np.finfo(np.float).eps * 10`, i.e. `10 * 2 ^ (-52)`:
any number smaller than this is rounded down to 0 by the driver's clamping
step (`birkhoff.py`, line 48). -/
def TOLERANCE : ℚ := 10 / 2 ^ 52

/-- `zeros(m, n)` (`birkhoff.py`, line 73). -/
def zeros (m n : ℕ) : NMat := ⟨m, n, fun _ _ => 0⟩

/-- `hstack(left, right)` (`birkhoff.py`, line 78). -/
def hstack (l r : NMat) : NMat :=
  ⟨l.rows, l.cols + r.cols, fun i j =>
    if j < l.cols then l.entry i j else r.entry i (j - l.cols)⟩

/-- `vstack(top, bottom)` (`birkhoff.py`, line 83). -/
def vstack (t b : NMat) : NMat :=
  ⟨t.rows + b.rows, t.cols, fun i j =>
    if i < t.rows then t.entry i j else b.entry (i - t.rows) j⟩

/-- `four_blocks(topleft, topright, bottomleft, bottomright)`
(`birkhoff.py`, line 88). -/
def four_blocks (tl tr bl br : NMat) : NMat :=
  vstack (hstack tl tr) (hstack bl br)

/-- NumPy transpose `A.T`. -/
def transpose (A : NMat) : NMat := ⟨A.cols, A.rows, fun i j => A.entry j i⟩

/-- `to_bipartite_matrix(A)` (`birkhoff.py`, line 101): the adjacency matrix
`[[0, A], [A.T, 0]]` of the bipartite graph with biadjacency matrix `A`. -/
def to_bipartite_matrix (A : NMat) : NMat :=
  four_blocks (zeros A.rows A.rows) A (transpose A) (zeros A.cols A.cols)

/-- `to_pattern_matrix(D)` (`birkhoff.py`, line 115): the 0/1 matrix with a
1 exactly at the nonzero entries of `D`. -/
def to_pattern_matrix (D : NMat) : NMat :=
  ⟨D.rows, D.cols, fun i j =>
    if i < D.rows ∧ j < D.cols ∧ D.entry i j ≠ 0 then 1 else 0⟩

/-- `to_permutation_matrix(dimension, matches)` (`birkhoff.py`, line 51):
the square 0/1 matrix with a 1 at `(u, v)` exactly when `matches[u] == v`.
The dictionary `matches` is embedded as a total function into `Option ℕ`. -/
def to_permutation_matrix (dimension : ℕ) (mtch : ℕ → Option ℕ) : NMat :=
  ⟨dimension, dimension, fun u v => if mtch u = some v then 1 else 0⟩

/-! ## Bipartite graphs and the embedded Hopcroft–Karp engine -/

/-- An undirected bipartite graph with an explicit left/right vertex
partition, as consumed by `hopcroft_karp_matching` (`matching.py`).  The
partition is the one computed by the external collaborator
`networkx.algorithms.bipartite.sets`; the spec (§4.3) treats the partition
as given explicitly with the graph.  `adj v` lists the neighbors of `v` in
iteration order. -/
structure BipGraph (V : Type) where
  left : List V
  right : List V
  adj : V → List V

/-- A BFS layering distance: either the `float('inf')` sentinel or a finite
natural number (`matching.py`, line 28). -/
inductive Dist
  | inf : Dist
  | fin : ℕ → Dist
deriving DecidableEq

/-- `d + 1` on distances; `inf + 1 = inf`, as for IEEE infinities. -/
def Dist.succ : Dist → Dist
  | inf => inf
  | fin k => fin (k + 1)

/-- Strict comparison of distances (`distances[v] < distances[None]`,
`matching.py`, line 78). -/
def Dist.blt : Dist → Dist → Bool
  | inf, _ => false
  | fin _, inf => true
  | fin a, fin b => decide (a < b)

/-- Pointwise update of a dictionary embedded as a total function. -/
def updf {α β : Type} [DecidableEq α] (f : α → β) (a : α) (b : β) : α → β :=
  fun x => if x = a then b else f x

/-- The mutable search state shared by the BFS and DFS phases of
`hopcroft_karp_matching`: `leftmatches`, `rightmatches`, `distances` and the
BFS `queue` (`matching.py`, lines 97–102). -/
structure HKSt (V : Type) where
  lm : V → Option V
  rm : V → Option V
  dist : Option V → Dist
  queue : List (Option V)

/-- The initial search state: every vertex unmatched, no distances assigned
(an unassigned key of the Python `distances` dict is never read, so the
default `inf` is irrelevant), empty queue. -/
def initSt (V : Type) : HKSt V := ⟨fun _ => none, fun _ => none, fun _ => .inf, []⟩

variable {V : Type} [DecidableEq V]

/-- One left vertex of the initialization loop of `breadth_first_search`
(`matching.py`, lines 69–74): an unmatched left vertex gets distance 0 and
is enqueued, a matched one gets distance `inf`. -/
def bfsStartStep (s : HKSt V) (v : V) : HKSt V :=
  if s.lm v = none then
    { s with dist := updf s.dist (some v) (.fin 0), queue := s.queue ++ [some v] }
  else
    { s with dist := updf s.dist (some v) .inf }

/-- The initialization part of `breadth_first_search` (`matching.py`,
lines 69–75): process every left vertex, then `distances[None] = INFINITY`. -/
def bfsStart (G : BipGraph V) (σ : HKSt V) : HKSt V :=
  let σ₁ := G.left.foldl bfsStartStep σ
  { σ₁ with dist := updf σ₁.dist none .inf }

/-- One neighbor `u` of the dequeued vertex `v` (`matching.py`,
lines 79–82): if the current match of `u` has no assigned distance, assign
it `distances[v] + 1` and enqueue it. -/
def bfsScanStep (v : V) (s : HKSt V) (u : V) : HKSt V :=
  if s.dist (s.rm u) = .inf then
    { s with dist := updf s.dist (s.rm u) ((s.dist (some v)).succ),
             queue := s.queue ++ [s.rm u] }
  else s

/-- The body executed for a dequeued vertex `v` with
`distances[v] < distances[None]` (`matching.py`, lines 79–82). -/
def bfsScan (G : BipGraph V) (v : V) (σ : HKSt V) : HKSt V :=
  (G.adj v).foldl (bfsScanStep v) σ

/-- The queue-processing loop of `breadth_first_search` (`matching.py`,
lines 76–82), with explicit fuel.  The `none` arm for a dequeued `None`
vertex passing the guard is unreachable, since
`distances[None] < distances[None]` is false. -/
def bfsLoop (G : BipGraph V) : ℕ → HKSt V → Option (HKSt V)
  | 0, _ => none
  | f + 1, σ =>
      match σ.queue with
      | [] => some σ
      | w :: rest =>
          let σ' : HKSt V := { σ with queue := rest }
          if (σ'.dist w).blt (σ'.dist none) then
            match w with
            | some v => bfsLoop G f (bfsScan G v σ')
            | none => none
          else bfsLoop G f σ'

/-- `breadth_first_search()` (`matching.py`, lines 68–83): initialize
distances and the queue, process the queue, and report whether the sentinel
`None` vertex was reached. -/
def bfs (G : BipGraph V) (σ : HKSt V) : Option (Bool × HKSt V) :=
  match bfsLoop G (2 * G.left.length + 2) (bfsStart G σ) with
  | none => none
  | some σ' => some (decide (σ'.dist none ≠ .inf), σ')

/-- The neighbor loop of `depth_first_search(v)` (`matching.py`,
lines 87–94), parameterized by the recursive call `rec` at the next fuel
level: follow any edge `u` whose matched endpoint lies one BFS layer deeper;
on recursive success, flip the edge `(v, u)` into the matching; if every
neighbor fails, set `distances[v] = INFINITY` and fail. -/
def dfsScan (rec : HKSt V → Option V → Option (Bool × HKSt V)) (v : V) :
    HKSt V → List V → Option (Bool × HKSt V)
  | σ, [] => some (false, { σ with dist := updf σ.dist (some v) .inf })
  | σ, u :: us =>
      if σ.dist (σ.rm u) = (σ.dist (some v)).succ then
        match rec σ (σ.rm u) with
        | none => none
        | some (true, σ') =>
            some (true, { σ' with rm := updf σ'.rm u (some v),
                                  lm := updf σ'.lm v (some u) })
        | some (false, σ') => dfsScan rec v σ' us
      else dfsScan rec v σ us

/-- `depth_first_search(v)` (`matching.py`, lines 85–95), with explicit
fuel: `v = None` means an unmatched right endpoint was reached and the
augmenting path is complete. -/
def dfs (G : BipGraph V) : ℕ → HKSt V → Option V → Option (Bool × HKSt V)
  | 0, _, _ => none
  | _ + 1, σ, none => some (true, σ)
  | f + 1, σ, some v => dfsScan (dfs G f) v σ (G.adj v)

/-- One augmentation sweep (`matching.py`, lines 108–111): run
`depth_first_search` from every left vertex that is still unmatched.  The
`num_matched_pairs` counter incremented by the source is unused by the
computation and is not modelled. -/
def sweep (G : BipGraph V) (df : ℕ) : HKSt V → List V → Option (HKSt V)
  | σ, [] => some σ
  | σ, v :: vs =>
      if σ.lm v = none then
        match dfs G df σ (some v) with
        | none => none
        | some (_, σ') => sweep G df σ' vs
      else sweep G df σ vs

/-- The phase loop `while breadth_first_search(): ...` (`matching.py`,
lines 107–111), with explicit fuel. -/
def hkLoop (G : BipGraph V) (df : ℕ) : ℕ → HKSt V → Option (HKSt V)
  | 0, _ => none
  | f + 1, σ =>
      match bfs G σ with
      | none => none
      | some (false, σ') => some σ'
      | some (true, σ') =>
          match sweep G df σ' G.left with
          | none => none
          | some σ'' => hkLoop G df f σ''

/-- Run the full Hopcroft–Karp search from the initial state.  The fuel
amounts (`left.length + 2` for each DFS, `2 * left.length + 2` for each BFS
queue, `left.length + 1` phases) are proved sufficient below; the source
relies on the same bounds for termination. -/
def hk_run (G : BipGraph V) : Option (HKSt V) :=
  hkLoop G (G.left.length + 2) (G.left.length + 1) (initSt V)

/-- The final stripping and combination step (`matching.py`, lines 113–123):
keys matched to `None` are dropped and the left and right match dictionaries
are merged (their key sets are disjoint). -/
def stripCombine (G : BipGraph V) (σ : HKSt V) : V → Option V :=
  fun x => if x ∈ G.left then σ.lm x else if x ∈ G.right then σ.rm x else none

/-- `hopcroft_karp_matching(G)` (`matching.py`, line 31): the combined
matching dictionary, or `none` if the fuel bounds were insufficient (proved
impossible for well-formed bipartite graphs). -/
def hopcroft_karp_matching (G : BipGraph V) : Option (V → Option V) :=
  (hk_run G).map (stripCombine G)

/-! ## The decomposition driver -/

/-- Failures of the embedded driver: `shape` is the `ValueError` raised for
a non-square input (`birkhoff.py`, line 153); `emptyMin` is the `ValueError`
Python's `min` raises on an empty generator (`birkhoff.py`, line 188);
`fuelOut` marks fuel exhaustion of an embedded loop (proved unreachable,
mirroring the source's termination argument). -/
inductive Err
  | shape
  | emptyMin
  | fuelOut
deriving DecidableEq

/-- Modelled from the spec: `networkx.algorithms.bipartite.sets` is an
external collaborator (its code is not part of this repository).  Per spec
§4.3 the bipartite graph comes with an explicit left/right partition: left
vertices `0..n-1` and right vertices `n..2n-1` (spec §3, "vertex set = left
block {0..n-1} ∪ right block {n..2n-1}"). -/
def bipartite_sets (n : ℕ) : List ℕ × List ℕ :=
  (List.range n, (List.range n).map (n + ·))

/-- Modelled from the spec: `networkx.from_numpy_matrix` is an external
collaborator.  Per spec §3 the graph on vertices `0..2n-1` has an edge
exactly where the adjacency matrix is nonzero; neighbor lists are in
increasing order (insertion order of `from_numpy_matrix`). -/
def adjOfMatrix (X : NMat) : ℕ → List ℕ :=
  fun a => (List.range X.cols).filter (fun b => X.entry a b ≠ 0)

/-- Lines 161–169 of `birkhoff.py`: build the pattern matrix of `S`, its
bipartite block matrix, and the corresponding NetworkX graph. -/
def graphOf (S : NMat) : BipGraph ℕ :=
  ⟨(bipartite_sets S.rows).1, (bipartite_sets S.rows).2,
    adjOfMatrix (to_bipartite_matrix (to_pattern_matrix S))⟩

/-- `itertools.product(range(m), range(n))` (`birkhoff.py`, line 154). -/
def indices (m n : ℕ) : List (ℕ × ℕ) :=
  (List.range m).flatMap (fun i => (List.range n).map (fun j => (i, j)))

/-- Python's `min` on a list of values: `none` on an empty list
(a `ValueError` in Python). -/
def listMin : List ℚ → Option ℚ
  | [] => none
  | x :: xs => some (xs.foldl min x)

/-- `S -= q * P` (`birkhoff.py`, line 194), elementwise on the working
copy. -/
def subtract_scaled (S : NMat) (q : ℚ) (P : NMat) : NMat :=
  ⟨S.rows, S.cols, fun i j => S.entry i j - q * P.entry i j⟩

/-- `S[np.abs(S) < TOLERANCE] = 0.0` (`birkhoff.py`, line 198). -/
def clamp (S : NMat) : NMat :=
  ⟨S.rows, S.cols, fun i j =>
    if |S.entry i j| < TOLERANCE then 0 else S.entry i j⟩

/-- `np.all(S == 0)` (`birkhoff.py`, line 160). -/
def isZero (S : NMat) : Bool :=
  decide (∀ i < S.rows, ∀ j < S.cols, S.entry i j = 0)

/-- One iteration of the peeling loop (`birkhoff.py`, lines 160–198):
pattern graph, matching, re-indexing of the matching (`birkhoff.py`,
line 183), permutation matrix, minimal covered entry `q`, subtraction and
clamping.  Returns the appended pair and the next working matrix. -/
def decompStep (n : ℕ) (S : NMat) : Except Err (ℚ × NMat × NMat) :=
  match hopcroft_karp_matching (graphOf S) with
  | none => .error .fuelOut
  | some mm =>
      let M : ℕ → Option ℕ := fun u => if u < n then (mm u).map (fun v => v % n) else none
      let P := to_permutation_matrix n M
      match listMin ((indices n n).filter (fun p => P.entry p.1 p.2 = 1)
          |>.map (fun p => S.entry p.1 p.2)) with
      | none => .error .emptyMin
      | some q => .ok (q, P, clamp (subtract_scaled S q P))

/-- The driver's state: the caller's input `D` and the private working copy
`S` created by `S = D.copy()` (`birkhoff.py`, line 158).  Every loop
iteration rewrites only the `S` field. -/
structure DriverState where
  D : NMat
  S : NMat

/-- The peeling loop `while not np.all(S == 0)` (`birkhoff.py`,
lines 160–198), with explicit fuel, threading the driver state.  The result
list is built in generation order.  Only the `S` field of the state is ever
replaced. -/
def decompLoop (n : ℕ) : ℕ → DriverState → Except Err (List (ℚ × NMat)) × DriverState
  | 0, st => (.error .fuelOut, st)
  | f + 1, st =>
      if isZero st.S then (.ok [], st)
      else
        match decompStep n st.S with
        | .error e => (.error e, st)
        | .ok (q, P, S') =>
            match decompLoop n f { st with S := S' } with
            | (.ok l, st') => (.ok ((q, P) :: l), st')
            | r => r

/-- `birkhoff_von_neumann_decomposition(D)` (`birkhoff.py`, line 131):
raise the invalid-shape error for non-square input before any iteration;
otherwise run the peeling loop on a private copy of `D` with fuel
`n² + 1` (sufficient by the termination argument proved below). -/
def birkhoff_von_neumann_decomposition (D : NMat) : Except Err (List (ℚ × NMat)) :=
  if D.rows = D.cols then
    (decompLoop D.rows (D.rows * D.rows + 1) ⟨D, D⟩).1
  else
    .error .shape

/-! ## Specification predicates -/

/-- The sum of row `i` of `A`. -/
def rowSum (A : NMat) (i : ℕ) : ℚ := ((List.range A.cols).map (A.entry i ·)).sum

/-- The sum of column `j` of `A`. -/
def colSum (A : NMat) (j : ℕ) : ℚ := ((List.range A.rows).map (A.entry · j)).sum

/-- A doubly stochastic matrix: square, nonnegative entries, all row and
column sums equal to 1. -/
def DoublyStochastic (D : NMat) : Prop :=
  D.rows = D.cols ∧ (∀ i < D.rows, ∀ j < D.cols, 0 ≤ D.entry i j) ∧
    (∀ i < D.rows, rowSum D i = 1) ∧ (∀ j < D.cols, colSum D j = 1)

/-- The weighted sum `sum(coefficient * permutation)` of a decomposition at
entry `(i, j)`. -/
def reconSum (l : List (ℚ × NMat)) (i j : ℕ) : ℚ :=
  (l.map (fun p => p.1 * p.2.entry i j)).sum

/-- The sum of the coefficients of a decomposition. -/
def coeffSum (l : List (ℚ × NMat)) : ℚ := (l.map Prod.fst).sum

/-- The number of nonzero in-range entries of a matrix: the driver's
termination measure. -/
def nonzeroCount (S : NMat) : ℕ :=
  ((indices S.rows S.cols).filter (fun p => S.entry p.1 p.2 ≠ 0)).length

/-- `P` is a valid `n × n` permutation matrix: every row and every column
contains exactly one entry equal to 1 and all other entries 0. -/
def IsPermMat (n : ℕ) (P : NMat) : Prop :=
  P.rows = n ∧ P.cols = n ∧
    (∀ i < n, ∃ j, j < n ∧ P.entry i j = 1 ∧ ∀ j' < n, j' ≠ j → P.entry i j' = 0) ∧
    (∀ j < n, ∃ i, i < n ∧ P.entry i j = 1 ∧ ∀ i' < n, i' ≠ i → P.entry i' j = 0)

/-- `P` is an `n × n` partial permutation matrix: every entry is 0 or 1 and
every row and every column contains at most one 1. -/
def IsSubPermMat (n : ℕ) (P : NMat) : Prop :=
  P.rows = n ∧ P.cols = n ∧
    (∀ i < n, ∀ j < n, P.entry i j = 0 ∨ P.entry i j = 1) ∧
    (∀ i < n, ∀ j < n, ∀ j' < n, P.entry i j = 1 → P.entry i j' = 1 → j = j') ∧
    (∀ j < n, ∀ i < n, ∀ i' < n, P.entry i j = 1 → P.entry i' j = 1 → i = i')

/-- Well-formedness of a bipartite graph with explicit partition: the two
vertex lists are duplicate-free and disjoint, adjacency crosses the
partition and is symmetric. -/
structure Wf (G : BipGraph V) : Prop where
  leftNodup : G.left.Nodup
  rightNodup : G.right.Nodup
  disj : ∀ v ∈ G.left, v ∉ G.right
  adjLeft : ∀ v ∈ G.left, ∀ u ∈ G.adj v, u ∈ G.right
  adjRight : ∀ u ∈ G.right, ∀ v ∈ G.adj u, v ∈ G.left
  adjSymmL : ∀ v ∈ G.left, ∀ u ∈ G.adj v, v ∈ G.adj u
  adjSymmR : ∀ u ∈ G.right, ∀ v ∈ G.adj u, u ∈ G.adj v

/-- The matching invariant of the search state, with one possibly dangling
right key `e`: `leftmatches` and `rightmatches` are mutually inverse
(except that `e`, when present, may still point to a left vertex that has
already been given a new partner by an in-flight augmentation), and every
match lies along an edge of `G`. -/
def InvExc (G : BipGraph V) (σ : HKSt V) (e : Option V) : Prop :=
  (∀ v u, σ.lm v = some u → σ.rm u = some v) ∧
  (∀ u v, σ.rm u = some v → e ≠ some u → σ.lm v = some u) ∧
  (∀ v u, σ.lm v = some u → v ∈ G.left ∧ u ∈ G.right ∧ u ∈ G.adj v) ∧
  (∀ u v, σ.rm u = some v → u ∈ G.right ∧ v ∈ G.left ∧ u ∈ G.adj v)

/-- The matching invariant proper (no dangling key). -/
def Inv (G : BipGraph V) (σ : HKSt V) : Prop := InvExc G σ none

/-- Every queue element is the `None` sentinel or a left vertex. -/
def QueueInv (G : BipGraph V) (σ : HKSt V) : Prop :=
  ∀ w ∈ σ.queue, w = none ∨ ∃ v, v ∈ G.left ∧ w = some v

/-- Only the `None` sentinel and left vertices ever carry a finite
distance. -/
def DistKeys (G : BipGraph V) (σ : HKSt V) : Prop :=
  ∀ x, σ.dist x ≠ .inf → x = none ∨ ∃ v, v ∈ G.left ∧ x = some v

/-- A live vertex of the layered graph: from `w` (a left vertex, or the
`None` sentinel standing for a completed augmenting path) an alternating
path following the BFS layering reaches an unmatched right vertex.  This is
exactly the structure `depth_first_search` traverses. -/
inductive CanAug (G : BipGraph V) (σ : HKSt V) : Option V → Prop
  | free : CanAug G σ none
  | step (v u : V) : u ∈ G.adj v → σ.dist (some v) ≠ .inf →
      σ.dist (σ.rm u) = (σ.dist (some v)).succ →
      CanAug G σ (σ.rm u) → CanAug G σ (some v)

/-- An augmenting walk for the matching map `m`, starting at `v`: an
alternating sequence of non-matching and matching edges ending in an
unmatched right vertex.  An augmenting path in the usual sense yields such a
walk, so the absence of walks certifies the absence of augmenting paths. -/
inductive AugWalk (G : BipGraph V) (m : V → Option V) : V → Prop
  | done (v u : V) : u ∈ G.adj v → m u = none → AugWalk G m v
  | step (v u v' : V) : u ∈ G.adj v → m u = some v' → AugWalk G m v' → AugWalk G m v

/-- An arbitrary matching of `G`, given as a finite set of (left, right)
pairs: every pair is an edge and no vertex occurs in two pairs. -/
def IsMatchingFinset (G : BipGraph V) (M : Finset (V × V)) : Prop :=
  (∀ p ∈ M, p.1 ∈ G.left ∧ p.2 ∈ G.right ∧ p.2 ∈ G.adj p.1) ∧
  (∀ p ∈ M, ∀ q ∈ M, p.1 = q.1 → p = q) ∧
  (∀ p ∈ M, ∀ q ∈ M, p.2 = q.2 → p = q)

/-- The number of matched pairs held by a search state. -/
def matchedCard (G : BipGraph V) (σ : HKSt V) : ℕ :=
  (G.left.filter (fun v => σ.lm v ≠ none)).length

/-- The keys of the `distances` dictionary that the search ever populates:
the `None` sentinel and the left vertices. -/
def keyList (G : BipGraph V) : List (Option V) := none :: G.left.map some

/-- The number of distance keys still unassigned (`INFINITY`): the BFS
termination measure, together with the queue length. -/
def countInf (G : BipGraph V) (σ : HKSt V) : ℕ :=
  (keyList G).countP (fun x => σ.dist x = .inf)

/-- `v` has been fully processed by the BFS: the match of each of its
neighbors has an assigned distance. -/
def Scanned (G : BipGraph V) (σ : HKSt V) (v : V) : Prop :=
  ∀ u ∈ G.adj v, σ.dist (σ.rm u) ≠ .inf

/-- Provenance of assigned distances after (any prefix of) a BFS phase:
a key with a finite distance is either an unmatched left vertex at layer 0,
or was reached as the match of a neighbor of a strictly shallower assigned
left vertex. -/
def Prov (G : BipGraph V) (σ : HKSt V) : Prop :=
  ∀ x, σ.dist x ≠ .inf →
    (∃ v, x = some v ∧ v ∈ G.left ∧ σ.lm v = none ∧ σ.dist x = .fin 0) ∨
    (∃ v' u, v' ∈ G.left ∧ σ.dist (some v') ≠ .inf ∧ u ∈ G.adj v' ∧
      σ.rm u = x ∧ σ.dist x = (σ.dist (some v')).succ)

/-- What a failed `depth_first_search(v)` call does to the state: the
matching and the queue are untouched, and the only distance changes set
some keys to `INFINITY` — namely `v` itself together with matched left
vertices lying strictly deeper than `v` in the layering. -/
def DfsFailSpec (σ σ' : HKSt V) (w : Option V) : Prop :=
  σ'.lm = σ.lm ∧ σ'.rm = σ.rm ∧ σ'.queue = σ.queue ∧ σ'.dist none = σ.dist none ∧
  ∀ x, σ'.dist (some x) = σ.dist (some x) ∨
    (σ'.dist (some x) = .inf ∧
      (Dist.blt (σ.dist w) (σ.dist (some x)) = true ∨ some x = w) ∧
      (σ.lm x ≠ none ∨ some x = w))

/-- What a successful `depth_first_search(w)` call does to the state: it
rewires the alternating path hanging below `w`, so the matching invariant
holds except that the old partner of `w` may dangle; `w` gains a (new)
partner; every vertex strictly shallower than `w` keeps its match pointers;
matched vertices stay matched; distance changes only mark matched vertices
strictly deeper than `w`. -/
def DfsSuccSpec (G : BipGraph V) (σ σ' : HKSt V) (w : Option V) : Prop :=
  (w = none → σ' = σ) ∧
  σ'.queue = σ.queue ∧ σ'.dist none = σ.dist none ∧
  (∀ x, σ'.dist (some x) = σ.dist (some x) ∨
    (σ'.dist (some x) = .inf ∧ Dist.blt (σ.dist w) (σ.dist (some x)) = true ∧
      σ.lm x ≠ none)) ∧
  (∀ x, σ.lm x ≠ none → σ'.lm x ≠ none) ∧
  (∀ x, σ'.lm x ≠ σ.lm x → some x = w ∨ σ.lm x ≠ none) ∧
  (∀ x, Dist.blt (σ.dist (some x)) (σ.dist w) = true → σ'.lm x = σ.lm x) ∧
  (∀ u, ¬ Dist.blt (σ.dist w) (σ.dist (σ.rm u)) = true → σ'.rm u = σ.rm u) ∧
  (∀ w', w = some w' →
    InvExc G σ' (σ.lm w') ∧ σ'.lm w' ≠ none ∧
      ∀ u, σ.rm u = some w' → σ'.lm w' ≠ some u)

/-- The entry condition of a `depth_first_search` call: the argument is the
`None` sentinel or a left vertex with an assigned (finite) distance. -/
def DfsEntry (G : BipGraph V) (σ : HKSt V) (w : Option V) : Prop :=
  w = none ∨ ∃ v, v ∈ G.left ∧ w = some v ∧ σ.dist (some v) ≠ .inf

/-- The number of distance keys lying strictly deeper than `w` in the
layering (and still assigned): the termination measure of
`depth_first_search`. -/
def countAbove (G : BipGraph V) (σ : HKSt V) (w : Option V) : ℕ :=
  (keyList G).countP (fun x => decide (Dist.blt (σ.dist w) (σ.dist x) = true ∧ σ.dist x ≠ Dist.inf))

/-- The accumulated effect, relative to the entry state `σ` of
`depth_first_search(v)`, of the failed probes made so far while scanning
the neighbor list of `v`. -/
def ScanAcc (σ σc : HKSt V) (v : V) : Prop :=
  σc.lm = σ.lm ∧ σc.rm = σ.rm ∧ σc.queue = σ.queue ∧ σc.dist none = σ.dist none ∧
  (∀ x, σc.dist (some x) = σ.dist (some x) ∨
    (σc.dist (some x) = .inf ∧
      Dist.blt (σ.dist (some v)) (σ.dist (some x)) = true ∧ σ.lm x ≠ none)) ∧
  σc.dist (some v) = σ.dist (some v)

/-- The cardinality of the combined matching dictionary, measured on the
left vertex set (each matched pair has exactly one left endpoint). -/
def mCard (G : BipGraph V) (m : V → Option V) : ℕ :=
  (G.left.filter (fun v => m v ≠ none)).length

/-- The left half of the König vertex cover read off the final search
state: left vertices never assigned a distance in the last phase. -/
def coverL (G : BipGraph V) (σ : HKSt V) : Finset V :=
  (G.left.filter (fun v => σ.dist (some v) = .inf)).toFinset

/-- The right half of the König vertex cover: right vertices whose matched
partner (possibly the `None` sentinel) carries an assigned distance. -/
def coverR (G : BipGraph V) (σ : HKSt V) : Finset V :=
  (G.right.filter (fun u => σ.dist (σ.rm u) ≠ .inf)).toFinset

/-- The matching held by a search state, as a finite set of (left, right)
pairs. -/
def matchedPairs (G : BipGraph V) (σ : HKSt V) : Finset (V × V) :=
  ((G.left.filter (fun v => σ.lm v ≠ none)).map
    (fun v => (v, (σ.lm v).getD v))).toFinset

/-- C4 counterexample input: a 4 x 4 doubly stochastic matrix built from the
unit w = 1/2^51 (so TOLERANCE = 5 * w).  Every branch of the peeling loop on
this matrix clamps a full row of the working matrix to zero while the matrix
is still nonzero, so a later iteration emits a non-permutation matrix. -/
def C4mat : NMat :=
  NMat.mk 4 4 (fun i j =>
    if i = 0 then (if j = 0 then 1 - 9/2^51 else if j = 1 then 9/2^51 else 0)
    else if i = 1 then
      (if j = 2 then 1 - 3/2^51 else if j = 3 then 3/2^51 else 0)
    else if i = 2 then
      (if j = 0 then 6/2^51 else if j = 3 then 1 - 6/2^51 else 0)
    else if i = 3 then
      (if j = 0 then 3/2^51 else if j = 1 then 1 - 9/2^51 else
        if j = 2 then 3/2^51 else if j = 3 then 3/2^51 else 0)
    else 0)

/-- C5 counterexample input: a 3 x 3 doubly stochastic matrix built from the
unit w = 1/2^51 (TOLERANCE = 5 * w).  Whatever matching the engine picks at
each iteration, the clamping step discards between 6w and 8w of mass from
every row, so the coefficient sum misses 1 by at least TOLERANCE even though
every returned matrix is a full permutation matrix and the dimension is
positive. -/
def C5mat : NMat :=
  NMat.mk 3 3 (fun i j =>
    if i = 0 then
      (if j = 0 then 1 - 6/2^51 else if j = 1 then 2/2^51 else
        if j = 2 then 4/2^51 else 0)
    else if i = 1 then
      (if j = 0 then 2/2^51 else if j = 1 then 1 - 6/2^51 else
        if j = 2 then 4/2^51 else 0)
    else if i = 2 then
      (if j = 0 then 4/2^51 else if j = 1 then 4/2^51 else
        if j = 2 then 1 - 8/2^51 else 0)
    else 0)

/-! # Theorems

Helper lemmas come first; the numbered claim theorems and their witnesses
are at the end of the file. -/

/-! ## Basic lemmas about dictionary update -/

theorem updf_same {α β : Type} [DecidableEq α] (f : α → β) (a : α) (b : β) :
    updf f a b a = b := by simp [updf]

theorem updf_other {α β : Type} [DecidableEq α] (f : α → β) (a : α) (b : β)
    {x : α} (h : x ≠ a) : updf f a b x = f x := by simp [updf, h]

/-! ## Distances -/

theorem Dist.blt_irrefl (d : Dist) : Dist.blt d d = false := by
  cases d with
  | inf => rfl
  | fin k => simp [Dist.blt]

theorem Dist.blt_inf_left (d : Dist) : Dist.blt .inf d = false := rfl

theorem Dist.blt_to_inf {d : Dist} (h : d ≠ .inf) : Dist.blt d .inf = true := by
  cases d with
  | inf => exact absurd rfl h
  | fin k => rfl

theorem Dist.ne_inf_of_blt {a b : Dist} (h : Dist.blt a b = true) : a ≠ .inf := by
  cases a with
  | inf => simp [Dist.blt] at h
  | fin k => exact fun hk => Dist.noConfusion hk

theorem Dist.blt_trans {a b c : Dist} (h1 : Dist.blt a b = true)
    (h2 : Dist.blt b c = true) : Dist.blt a c = true := by
  cases a <;> cases b <;> cases c <;> simp_all [Dist.blt] <;> omega

theorem Dist.succ_ne_inf {d : Dist} (h : d ≠ .inf) : d.succ ≠ .inf := by
  cases d with
  | inf => exact absurd rfl h
  | fin k => exact fun hk => Dist.noConfusion hk

theorem Dist.blt_succ_self {d : Dist} (h : d ≠ .inf) : Dist.blt d d.succ = true := by
  cases d with
  | inf => exact absurd rfl h
  | fin k => simp [Dist.blt, Dist.succ]

theorem Dist.ne_of_blt {a b : Dist} (h : Dist.blt a b = true) : a ≠ b := by
  intro he; rw [he] at h; rw [Dist.blt_irrefl] at h; exact Bool.noConfusion h

theorem Dist.ne_succ_self {d : Dist} (h : d ≠ .inf) : d ≠ d.succ :=
  Dist.ne_of_blt (Dist.blt_succ_self h)

theorem Dist.blt_of_succ_blt {a b : Dist} (ha : a ≠ .inf)
    (h : Dist.blt a.succ b = true) : Dist.blt a b = true :=
  Dist.blt_trans (Dist.blt_succ_self ha) h

theorem Dist.not_blt_succ_self (d : Dist) : Dist.blt d.succ d = false := by
  cases d with
  | inf => rfl
  | fin k => simp [Dist.blt, Dist.succ]

theorem InvExc_transport (G : BipGraph V) {σ σc : HKSt V} {e : Option V}
    (h1 : σc.lm = σ.lm) (h2 : σc.rm = σ.rm) (h : InvExc G σ e) : InvExc G σc e := by
  unfold InvExc at h ⊢
  rw [h1, h2]
  exact h

theorem ScanAcc_refl (σ : HKSt V) (v : V) : ScanAcc σ σ v :=
  ⟨rfl, rfl, rfl, rfl, fun _ => Or.inl rfl, rfl⟩

/-! ## Counting lemmas -/

theorem countP_lt_of {α : Type} (l : List α) (hnd : l.Nodup) (a : α)
    (ha : a ∈ l) (p q : α → Bool) (hpa : p a = false) (hqa : q a = true)
    (himp : ∀ x ∈ l, p x = true → q x = true) :
    l.countP p < l.countP q := by
  induction l with
  | nil => cases ha
  | cons b l ih =>
      rw [List.countP_cons, List.countP_cons]
      rcases List.mem_cons.mp ha with rfl | hal
      · rw [hpa, hqa]
        have : l.countP p ≤ l.countP q := by
          apply List.countP_mono_left
          intro x hx hpx
          exact himp x (List.mem_cons_of_mem _ hx) hpx
        simp only [Bool.false_eq_true, if_false, if_true]
        omega
      · have hbl : b ∉ l := (List.nodup_cons.mp hnd).1
        have hnd' : l.Nodup := (List.nodup_cons.mp hnd).2
        have hlt : l.countP p < l.countP q :=
          ih hnd' hal (fun x hx => himp x (List.mem_cons_of_mem _ hx))
        have : (if p b then 1 else 0) ≤ (if q b then 1 else 0) := by
          by_cases hb : p b = true
          · rw [hb, himp b (List.mem_cons_self _ _) hb]
          · simp only [Bool.not_eq_true] at hb
            rw [hb]; simp
        omega

theorem countP_le_of {α : Type} (l : List α) (p q : α → Bool)
    (himp : ∀ x ∈ l, p x = true → q x = true) :
    l.countP p ≤ l.countP q :=
  List.countP_mono_left himp

/-! ## BFS lemmas -/

theorem keyList_nodup (G : BipGraph V) (h : G.left.Nodup) : (keyList G).Nodup := by
  refine List.nodup_cons.mpr ⟨?_, ?_⟩
  · simp [List.mem_map]
  · exact h.map (fun _ _ => by simp)

/-- Every `rightmatches` value is `None` or a left vertex (a consequence of
the matching invariant used by the BFS measure argument). -/
def RmKeys (G : BipGraph V) (σ : HKSt V) : Prop :=
  ∀ u, σ.rm u = none ∨ ∃ x, x ∈ G.left ∧ σ.rm u = some x

theorem bfsScanStep_lm (v : V) (s : HKSt V) (u : V) :
    (bfsScanStep v s u).lm = s.lm := by
  unfold bfsScanStep; split <;> rfl

theorem bfsScanStep_rm (v : V) (s : HKSt V) (u : V) :
    (bfsScanStep v s u).rm = s.rm := by
  unfold bfsScanStep; split <;> rfl

theorem bfsScanStep_stable (v : V) (s : HKSt V) (u : V) {x : Option V}
    (h : s.dist x ≠ .inf) : (bfsScanStep v s u).dist x = s.dist x := by
  unfold bfsScanStep
  split
  · next hg =>
      show updf s.dist (s.rm u) ((s.dist (some v)).succ) x = s.dist x
      rcases eq_or_ne x (s.rm u) with rfl | hx
      · exact absurd hg h
      · exact updf_other _ _ _ hx
  · rfl

theorem bfsScanStep_queue_sub (v : V) (s : HKSt V) (u : V) {w : Option V}
    (h : w ∈ s.queue) : w ∈ (bfsScanStep v s u).queue := by
  unfold bfsScanStep
  split
  · exact List.mem_append_left _ h
  · exact h

theorem bfsScanFold_lm (v : V) :
    ∀ (l : List V) (σ : HKSt V), (l.foldl (bfsScanStep v) σ).lm = σ.lm := by
  intro l
  induction l with
  | nil => intro σ; rfl
  | cons u us ih =>
      intro σ
      rw [List.foldl_cons, ih, bfsScanStep_lm]

theorem bfsScanFold_rm (v : V) :
    ∀ (l : List V) (σ : HKSt V), (l.foldl (bfsScanStep v) σ).rm = σ.rm := by
  intro l
  induction l with
  | nil => intro σ; rfl
  | cons u us ih =>
      intro σ
      rw [List.foldl_cons, ih, bfsScanStep_rm]

theorem bfsScanFold_stable (v : V) :
    ∀ (l : List V) (σ : HKSt V) {x : Option V}, σ.dist x ≠ .inf →
      (l.foldl (bfsScanStep v) σ).dist x = σ.dist x := by
  intro l
  induction l with
  | nil => intro σ x h; rfl
  | cons u us ih =>
      intro σ x h
      rw [List.foldl_cons]
      rw [ih _ (by rw [bfsScanStep_stable v σ u h]; exact h),
        bfsScanStep_stable v σ u h]

theorem bfsScanFold_queue_sub (v : V) :
    ∀ (l : List V) (σ : HKSt V) {w : Option V}, w ∈ σ.queue →
      w ∈ (l.foldl (bfsScanStep v) σ).queue := by
  intro l
  induction l with
  | nil => intro σ w h; exact h
  | cons u us ih =>
      intro σ w h
      rw [List.foldl_cons]
      exact ih _ (bfsScanStep_queue_sub v σ u h)

theorem bfsScanFold_queue_origin (v : V) :
    ∀ (l : List V) (σ : HKSt V) (w : Option V),
      w ∈ (l.foldl (bfsScanStep v) σ).queue →
      w ∈ σ.queue ∨ ∃ u ∈ l, w = σ.rm u := by
  intro l
  induction l with
  | nil => intro σ w h; exact Or.inl h
  | cons u us ih =>
      intro σ w h
      rw [List.foldl_cons] at h
      rcases ih _ _ h with h1 | ⟨u', hu', rfl⟩
      · unfold bfsScanStep at h1
        by_cases hg : σ.dist (σ.rm u) = .inf
        · rw [if_pos hg] at h1
          rcases List.mem_append.mp h1 with h2 | h2
          · exact Or.inl h2
          · rcases List.mem_singleton.mp h2 with rfl
            exact Or.inr ⟨u, List.mem_cons_self _ _, rfl⟩
        · rw [if_neg hg] at h1
          exact Or.inl h1
      · rw [bfsScanStep_rm]
        exact Or.inr ⟨u', List.mem_cons_of_mem _ hu', rfl⟩

theorem bfsScanFold_new_enqueued (v : V) :
    ∀ (l : List V) (σ : HKSt V) (x : Option V),
      (l.foldl (bfsScanStep v) σ).dist x ≠ .inf → σ.dist x = .inf →
      x ∈ (l.foldl (bfsScanStep v) σ).queue := by
  intro l
  induction l with
  | nil => intro σ x h1 h2; exact absurd h2 h1
  | cons u us ih =>
      intro σ x h1 h2
      rw [List.foldl_cons] at h1 ⊢
      by_cases hs : (bfsScanStep v σ u).dist x = .inf
      · exact ih _ _ h1 hs
      · -- the step itself assigned x, which also enqueued it
        have hq : x ∈ (bfsScanStep v σ u).queue := by
          unfold bfsScanStep at hs ⊢
          by_cases hg : σ.dist (σ.rm u) = .inf
          · rw [if_pos hg] at hs ⊢
            rcases eq_or_ne x (σ.rm u) with rfl | hx
            · show σ.rm u ∈ σ.queue ++ [σ.rm u]
              exact List.mem_append_right _ (List.mem_singleton.mpr rfl)
            · have : updf σ.dist (σ.rm u) ((σ.dist (some v)).succ) x = σ.dist x :=
                updf_other _ _ _ hx
              exact absurd (this.trans h2) hs
          · rw [if_neg hg] at hs
            exact absurd h2 hs
        exact bfsScanFold_queue_sub v us _ hq

theorem bfsScanFold_scanned (v : V) :
    ∀ (l : List V) (σ : HKSt V), σ.dist (some v) ≠ .inf →
      ∀ u ∈ l, (l.foldl (bfsScanStep v) σ).dist ((l.foldl (bfsScanStep v) σ).rm u) ≠ .inf := by
  intro l
  induction l with
  | nil => intro σ _ u hu; cases hu
  | cons u0 us ih =>
      intro σ hdv u hu
      rw [List.foldl_cons]
      have hdv1 : (bfsScanStep v σ u0).dist (some v) = σ.dist (some v) :=
        bfsScanStep_stable v σ u0 hdv
      rcases List.mem_cons.mp hu with rfl | hu'
      · -- after its own step, `u`'s match has a finite distance, which persists
        have hfin : (bfsScanStep v σ u).dist (σ.rm u) ≠ .inf := by
          unfold bfsScanStep
          by_cases hg : σ.dist (σ.rm u) = .inf
          · rw [if_pos hg]
            show updf σ.dist (σ.rm u) ((σ.dist (some v)).succ) (σ.rm u) ≠ .inf
            rw [updf_same]
            exact Dist.succ_ne_inf hdv
          · rw [if_neg hg]
            exact hg
        rw [bfsScanFold_rm, bfsScanStep_rm, bfsScanFold_stable v us _ hfin]
        exact hfin
      · exact ih _ (by rw [hdv1]; exact hdv) u hu'

theorem bfsScanFold_measure (G : BipGraph V) (v : V) (hnd : (keyList G).Nodup) :
    ∀ (l : List V) (σ : HKSt V), σ.dist (some v) ≠ .inf → RmKeys G σ →
      (l.foldl (bfsScanStep v) σ).queue.length + countInf G (l.foldl (bfsScanStep v) σ) ≤
        σ.queue.length + countInf G σ := by
  intro l
  induction l with
  | nil => intro σ _ _; exact le_refl _
  | cons u us ih =>
      intro σ hdv hrk
      rw [List.foldl_cons]
      have step_le : (bfsScanStep v σ u).queue.length + countInf G (bfsScanStep v σ u) ≤
          σ.queue.length + countInf G σ := by
        by_cases hg : σ.dist (σ.rm u) = .inf
        · have hq : (bfsScanStep v σ u).queue = σ.queue ++ [σ.rm u] := by
            unfold bfsScanStep; rw [if_pos hg]
          have hd : (bfsScanStep v σ u).dist =
              updf σ.dist (σ.rm u) ((σ.dist (some v)).succ) := by
            unfold bfsScanStep; rw [if_pos hg]
          have hkey : σ.rm u ∈ keyList G := by
            rcases hrk u with h0 | ⟨x, hx, h0⟩
            · rw [h0]; exact List.mem_cons_self _ _
            · rw [h0]
              exact List.mem_cons_of_mem _ (List.mem_map.mpr ⟨x, hx, rfl⟩)
          have hlt : countInf G (bfsScanStep v σ u) < countInf G σ := by
            unfold countInf
            rw [hd]
            apply countP_lt_of _ hnd (σ.rm u) hkey
            · show decide (updf σ.dist (σ.rm u) ((σ.dist (some v)).succ) (σ.rm u) = .inf) = false
              rw [updf_same]
              simp [Dist.succ_ne_inf hdv]
            · simp [hg]
            · intro x _ hx
              simp only [decide_eq_true_eq] at hx ⊢
              rcases eq_or_ne x (σ.rm u) with rfl | hxne
              · rw [updf_same] at hx
                exact absurd hx (Dist.succ_ne_inf hdv)
              · rw [updf_other _ _ _ hxne] at hx
                exact hx
          rw [hq]
          simp only [List.length_append, List.length_singleton]
          omega
        · have heq : bfsScanStep v σ u = σ := by
            unfold bfsScanStep; rw [if_neg hg]
          rw [heq]
      have hdv1 : (bfsScanStep v σ u).dist (some v) ≠ .inf := by
        rw [bfsScanStep_stable v σ u hdv]; exact hdv
      have hrk1 : RmKeys G (bfsScanStep v σ u) := by
        intro u'
        rw [bfsScanStep_rm]
        exact hrk u'
      exact le_trans (ih _ hdv1 hrk1) step_le

theorem bfsScanFold_prov (G : BipGraph V) (v : V) (hvl : v ∈ G.left) :
    ∀ (l : List V) (σ : HKSt V), (∀ u ∈ l, u ∈ G.adj v) →
      σ.dist (some v) ≠ .inf → Prov G σ → Prov G (l.foldl (bfsScanStep v) σ) := by
  intro l
  induction l with
  | nil => intro σ _ _ hp; exact hp
  | cons u us ih =>
      intro σ hsub hdv hp
      rw [List.foldl_cons]
      have hstep : Prov G (bfsScanStep v σ u) := by
        by_cases hg : σ.dist (σ.rm u) = .inf
        · have hd : (bfsScanStep v σ u).dist =
              updf σ.dist (σ.rm u) ((σ.dist (some v)).succ) := by
            unfold bfsScanStep; rw [if_pos hg]
          have hlm : (bfsScanStep v σ u).lm = σ.lm := bfsScanStep_lm v σ u
          have hrm : (bfsScanStep v σ u).rm = σ.rm := bfsScanStep_rm v σ u
          have hvkey : some v ≠ σ.rm u := fun h => hdv (by rw [h]; exact hg)
          intro x hx
          rw [hd] at hx
          rw [hd, hlm, hrm] at *
          rcases eq_or_ne x (σ.rm u) with rfl | hxne
          · right
            refine ⟨v, u, hvl, ?_, hsub u (List.mem_cons_self _ _), rfl, ?_⟩
            · rw [updf_other _ _ _ hvkey]
              exact hdv
            · rw [updf_same, updf_other _ _ _ hvkey]
          · have hx' : σ.dist x ≠ .inf := by
              rw [updf_other _ _ _ hxne] at hx
              exact hx
            rcases hp x hx' with ⟨v1, hxv, h1, h2, h3⟩ | ⟨v1, u1, h1, h2, h3, h4, h5⟩
            · left
              refine ⟨v1, hxv, h1, h2, ?_⟩
              rw [updf_other _ _ _ hxne]
              exact h3
            · right
              have hv1key : some v1 ≠ σ.rm u := fun h => h2 (by rw [h]; exact hg)
              refine ⟨v1, u1, h1, ?_, h3, h4, ?_⟩
              · rw [updf_other _ _ _ hv1key]
                exact h2
              · rw [updf_other _ _ _ hv1key, updf_other _ _ _ hxne]
                exact h5
        · have heq : bfsScanStep v σ u = σ := by
            unfold bfsScanStep; rw [if_neg hg]
          rw [heq]
          exact hp
      have hdv1 : (bfsScanStep v σ u).dist (some v) ≠ .inf := by
        rw [bfsScanStep_stable v σ u hdv]; exact hdv
      exact ih _ (fun u' hu' => hsub u' (List.mem_cons_of_mem _ hu')) hdv1 hstep

theorem Scanned_mono {G : BipGraph V} {σ σ' : HKSt V} {x : V}
    (hs : Scanned G σ x) (hrm : σ'.rm = σ.rm)
    (hst : ∀ y, σ.dist y ≠ .inf → σ'.dist y = σ.dist y) : Scanned G σ' x := by
  intro u hu
  rw [hrm, hst _ (hs u hu)]
  exact hs u hu

theorem bfsStartStep_lm (s : HKSt V) (v : V) : (bfsStartStep s v).lm = s.lm := by
  unfold bfsStartStep; split <;> rfl

theorem bfsStartStep_rm (s : HKSt V) (v : V) : (bfsStartStep s v).rm = s.rm := by
  unfold bfsStartStep; split <;> rfl

theorem bfsStartStep_dist_other (s : HKSt V) (v : V) {x : Option V}
    (h : x ≠ some v) : (bfsStartStep s v).dist x = s.dist x := by
  unfold bfsStartStep
  split
  · exact updf_other _ _ _ h
  · exact updf_other _ _ _ h

theorem bfsStartFold_lm : ∀ (l : List V) (σ : HKSt V),
    (l.foldl bfsStartStep σ).lm = σ.lm := by
  intro l
  induction l with
  | nil => intro σ; rfl
  | cons v vs ih => intro σ; rw [List.foldl_cons, ih, bfsStartStep_lm]

theorem bfsStartFold_rm : ∀ (l : List V) (σ : HKSt V),
    (l.foldl bfsStartStep σ).rm = σ.rm := by
  intro l
  induction l with
  | nil => intro σ; rfl
  | cons v vs ih => intro σ; rw [List.foldl_cons, ih, bfsStartStep_rm]

theorem bfsStartFold_dist_other : ∀ (l : List V) (σ : HKSt V) (x : Option V),
    (∀ v ∈ l, x ≠ some v) → (l.foldl bfsStartStep σ).dist x = σ.dist x := by
  intro l
  induction l with
  | nil => intro σ x _; rfl
  | cons v vs ih =>
      intro σ x hx
      rw [List.foldl_cons, ih _ _ (fun v' hv' => hx v' (List.mem_cons_of_mem _ hv')),
        bfsStartStep_dist_other _ _ (hx v (List.mem_cons_self _ _))]

theorem bfsStartFold_dist_mem : ∀ (l : List V) (σ : HKSt V), l.Nodup →
    ∀ v ∈ l, (l.foldl bfsStartStep σ).dist (some v) =
      (if σ.lm v = none then Dist.fin 0 else Dist.inf) := by
  intro l
  induction l with
  | nil => intro σ _ v hv; cases hv
  | cons v0 vs ih =>
      intro σ hnd v hv
      rw [List.foldl_cons]
      rcases List.mem_cons.mp hv with rfl | hv'
      · have hnot : ∀ v' ∈ vs, (some v : Option V) ≠ some v' := by
          intro v' hv' he
          exact (List.nodup_cons.mp hnd).1 (by rw [Option.some_inj.mp he]; exact hv')
        rw [bfsStartFold_dist_other vs _ _ hnot]
        unfold bfsStartStep
        split
        · next h => exact updf_same _ _ _
        · next h => exact updf_same _ _ _
      · rw [ih _ (List.nodup_cons.mp hnd).2 v hv', bfsStartStep_lm]

theorem bfsStartFold_queue : ∀ (l : List V) (σ : HKSt V),
    (l.foldl bfsStartStep σ).queue =
      σ.queue ++ (l.filter (fun v => σ.lm v = none)).map some := by
  intro l
  induction l with
  | nil => intro σ; simp
  | cons v vs ih =>
      intro σ
      rw [List.foldl_cons, ih, bfsStartStep_lm]
      unfold bfsStartStep
      by_cases h : σ.lm v = none
      · rw [if_pos h]
        show (σ.queue ++ [some v]) ++ _ = _
        rw [List.filter_cons_of_pos (by simp [h]), List.map_cons, List.append_assoc]
        rfl
      · rw [if_neg h]
        show σ.queue ++ _ = _
        rw [List.filter_cons_of_neg (by simp [h])]

theorem bfsStart_lm (G : BipGraph V) (σ : HKSt V) : (bfsStart G σ).lm = σ.lm :=
  bfsStartFold_lm G.left σ

theorem bfsStart_rm (G : BipGraph V) (σ : HKSt V) : (bfsStart G σ).rm = σ.rm :=
  bfsStartFold_rm G.left σ

theorem bfsStart_queue (G : BipGraph V) (σ : HKSt V) :
    (bfsStart G σ).queue = σ.queue ++ (G.left.filter (fun v => σ.lm v = none)).map some :=
  bfsStartFold_queue G.left σ

theorem bfsStart_dist_none (G : BipGraph V) (σ : HKSt V) :
    (bfsStart G σ).dist none = .inf := by
  show updf (G.left.foldl bfsStartStep σ).dist none .inf none = .inf
  exact updf_same _ _ _

theorem bfsStart_dist_left (G : BipGraph V) (σ : HKSt V) (hnd : G.left.Nodup)
    {v : V} (hv : v ∈ G.left) :
    (bfsStart G σ).dist (some v) = (if σ.lm v = none then Dist.fin 0 else Dist.inf) := by
  show updf (G.left.foldl bfsStartStep σ).dist none .inf (some v) = _
  rw [updf_other _ _ _ (by simp)]
  exact bfsStartFold_dist_mem G.left σ hnd v hv

theorem bfsStart_dist_nonkey (G : BipGraph V) (σ : HKSt V) {x : Option V}
    (hx : x ≠ none) (hxl : ∀ v ∈ G.left, x ≠ some v) :
    (bfsStart G σ).dist x = σ.dist x := by
  show updf (G.left.foldl bfsStartStep σ).dist none .inf x = _
  rw [updf_other _ _ _ hx]
  exact bfsStartFold_dist_other G.left σ x hxl

/-- The queue-processing loop of the BFS: provided enough fuel it succeeds,
does not touch the matching, never unassigns a distance, empties the queue,
preserves provenance, and — when the `None` sentinel was never reached —
leaves every vertex with an assigned distance fully scanned. -/
theorem bfsLoop_main (G : BipGraph V) (hnd : (keyList G).Nodup) :
    ∀ (f : ℕ) (σ σ' : HKSt V), bfsLoop G f σ = some σ' →
      QueueInv G σ → RmKeys G σ →
      σ'.lm = σ.lm ∧ σ'.rm = σ.rm ∧ σ'.queue = [] ∧
      (∀ x, σ.dist x ≠ .inf → σ'.dist x = σ.dist x) ∧
      (Prov G σ → Prov G σ') ∧
      ((∀ x, σ.dist (some x) ≠ .inf → Scanned G σ x ∨ some x ∈ σ.queue) →
        σ'.dist none = .inf →
        ∀ x, σ'.dist (some x) ≠ .inf → Scanned G σ' x) := by
  intro f
  induction f with
  | zero => intro σ σ' h; exact absurd h (by simp [bfsLoop])
  | succ f ih =>
      intro σ σ' h hqi hrk
      rw [bfsLoop] at h
      rcases hq : σ.queue with _ | ⟨w, rest⟩
      · rw [hq] at h
        simp only [Option.some_inj] at h
        subst h
        refine ⟨rfl, rfl, hq, fun x _ => rfl, fun hp => hp, fun hs _ x hx => ?_⟩
        rcases hs x hx with h1 | h1
        · exact h1
        · exact absurd h1 (by simp)
      · rw [hq] at h
        simp only at h
        by_cases hguard : (Dist.blt (σ.dist w) (σ.dist none)) = true
        · rw [if_pos hguard] at h
          rcases hw : w with _ | v
          · rw [hw] at hguard
            rw [Dist.blt_irrefl] at hguard
            exact absurd hguard (by simp)
          · rw [hw] at h hguard hq
            -- the popped vertex is a left vertex with a finite distance
            have hvl : v ∈ G.left := by
              rcases hqi (some v) (by rw [hq]; exact List.mem_cons_self _ _) with h1 | ⟨v', hv', h1⟩
              · cases h1
              · rw [Option.some_inj.mp h1]; exact hv'
            have hdv : σ.dist (some v) ≠ .inf := Dist.ne_inf_of_blt hguard
            set σ₁ : HKSt V := { σ with queue := rest } with hσ₁
            have hdv₁ : σ₁.dist (some v) ≠ .inf := hdv
            set σ₂ := bfsScan G v σ₁ with hσ₂
            have h2lm : σ₂.lm = σ.lm := bfsScanFold_lm v _ σ₁
            have h2rm : σ₂.rm = σ.rm := bfsScanFold_rm v _ σ₁
            have h2st : ∀ x, σ.dist x ≠ .inf → σ₂.dist x = σ.dist x := by
              intro x hx
              exact bfsScanFold_stable v _ σ₁ hx
            have hqi₂ : QueueInv G σ₂ := by
              intro w' hw'
              rcases bfsScanFold_queue_origin v _ σ₁ w' hw' with h1 | ⟨u, _, rfl⟩
              · exact hqi w' (by rw [hq]; exact List.mem_cons_of_mem _ h1)
              · rcases hrk u with h2 | ⟨x, hx, h2⟩
                · exact Or.inl h2
                · exact Or.inr ⟨x, hx, h2⟩
            have hrk₂ : RmKeys G σ₂ := by
              intro u; rw [h2rm]; exact hrk u
            obtain ⟨i1, i2, i3, i4, i5, i6⟩ := ih σ₂ σ' h hqi₂ hrk₂
            refine ⟨by rw [i1, h2lm], by rw [i2, h2rm], i3, ?_, ?_, ?_⟩
            · intro x hx
              rw [i4 x (by rw [h2st x hx]; exact hx), h2st x hx]
            · intro hp
              exact i5 (bfsScanFold_prov G v hvl _ σ₁ (fun u hu => hu) hdv₁ hp)
            · intro hs hnone x hx
              apply i6 _ hnone x hx
              intro y hy
              by_cases hyold : σ.dist (some y) = .inf
              · -- newly assigned during this scan, hence enqueued
                exact Or.inr (bfsScanFold_new_enqueued v _ σ₁ (some y) hy hyold)
              · rcases hs y hyold with h1 | h1
                · exact Or.inl (Scanned_mono h1 h2rm h2st)
                · rcases List.mem_cons.mp h1 with h2 | h2
                  · -- `y` is the vertex just scanned
                    rcases Option.some_inj.mp h2
                    exact Or.inl (fun u hu => bfsScanFold_scanned v _ σ₁ hdv₁ u hu)
                  · exact Or.inr (bfsScanFold_queue_sub v _ σ₁ h2)
        · rw [if_neg hguard] at h
          set σ₁ : HKSt V := { σ with queue := rest } with hσ₁
          have hqi₁ : QueueInv G σ₁ := by
            intro w' hw'
            exact hqi w' (by rw [hq]; exact List.mem_cons_of_mem _ hw')
          obtain ⟨i1, i2, i3, i4, i5, i6⟩ := ih σ₁ σ' h hqi₁ hrk
          refine ⟨i1, i2, i3, i4, i5, ?_⟩
          intro hs hnone x hx
          apply i6 _ hnone x hx
          intro y hy
          rcases hs y hy with h1 | h1
          · exact Or.inl h1
          · rcases List.mem_cons.mp h1 with h2 | h2
            · -- the popped element failed the guard, so the sentinel is
              -- already reached; but then it stays reached, contradicting
              -- the hypothesis that it finally is not
              exfalso
              subst h2
              have : σ'.dist none = σ.dist none := by
                apply i4
                intro hcon
                rw [hcon, Dist.blt_to_inf hy] at hguard
                exact hguard rfl
              rw [this] at hnone
              rw [hnone, Dist.blt_to_inf hy] at hguard
              exact hguard rfl
            · exact Or.inr h2

theorem countP_le_length {α : Type} (l : List α) (p : α → Bool) :
    l.countP p ≤ l.length :=
  List.countP_le_length p

/-- `breadth_first_search`: from a state with an empty queue and sane
distance keys, it succeeds and establishes the phase postconditions. -/
theorem bfs_main (G : BipGraph V) (HWf : Wf G) (σ : HKSt V)
    (hq : σ.queue = []) (hdk : DistKeys G σ) (hrk : RmKeys G σ) :
    ∃ b σ', bfs G σ = some (b, σ') ∧
      σ'.lm = σ.lm ∧ σ'.rm = σ.rm ∧ σ'.queue = [] ∧ Prov G σ' ∧
      (b = true ↔ σ'.dist none ≠ .inf) ∧
      (∀ v ∈ G.left, σ.lm v = none → σ'.dist (some v) = .fin 0) ∧
      (b = false → ∀ x, σ'.dist (some x) ≠ .inf → Scanned G σ' x) := by
  have hnd := keyList_nodup G HWf.leftNodup
  set σs := bfsStart G σ with hσs
  have hs_lm : σs.lm = σ.lm := bfsStart_lm G σ
  have hs_rm : σs.rm = σ.rm := bfsStart_rm G σ
  have hs_queue : σs.queue = (G.left.filter (fun v => σ.lm v = none)).map some := by
    rw [hσs, bfsStart_queue, hq]; rfl
  have hqi : QueueInv G σs := by
    intro w hw
    rw [hs_queue] at hw
    rcases List.mem_map.mp hw with ⟨v, hv, rfl⟩
    exact Or.inr ⟨v, (List.mem_filter.mp hv).1, rfl⟩
  have hrks : RmKeys G σs := by
    intro u; rw [hs_rm]; exact hrk u
  -- fuel sufficiency
  have hfuel : ∃ σ', bfsLoop G (2 * G.left.length + 2) σs = some σ' := by
    have hmeas : ∀ (f : ℕ) (τ : HKSt V), QueueInv G τ → RmKeys G τ →
        τ.queue.length + countInf G τ < f → ∃ τ', bfsLoop G f τ = some τ' := by
      intro f
      induction f with
      | zero => intro τ _ _ h; omega
      | succ f ihf =>
          intro τ hqiτ hrkτ hm
          rw [bfsLoop]
          rcases hqτ : τ.queue with _ | ⟨w, rest⟩
          · exact ⟨τ, rfl⟩
          · simp only
            by_cases hg : (Dist.blt (τ.dist w) (τ.dist none)) = true
            · rw [if_pos hg]
              rcases hw : w with _ | v
              · rw [hw] at hg
                rw [Dist.blt_irrefl] at hg
                exact absurd hg (by simp)
              · set τ₁ : HKSt V := { τ with queue := rest } with hτ₁
                have hdv : τ₁.dist (some v) ≠ .inf := by
                  rw [hw] at hg
                  exact Dist.ne_inf_of_blt hg
                have hceq : countInf G τ₁ = countInf G τ := rfl
                have hlen1 : τ₁.queue.length = rest.length := rfl
                have hlen : τ.queue.length = rest.length + 1 := by rw [hqτ]; rfl
                have hscan : (bfsScan G v τ₁).queue.length + countInf G (bfsScan G v τ₁) ≤
                    τ₁.queue.length + countInf G τ₁ :=
                  bfsScanFold_measure G v hnd (G.adj v) τ₁ hdv (fun u => hrkτ u)
                apply ihf (bfsScan G v τ₁)
                · intro w' hw'
                  rcases bfsScanFold_queue_origin v (G.adj v) τ₁ w' hw' with h1 | ⟨u, _, rfl⟩
                  · exact hqiτ w' (by rw [hqτ]; exact List.mem_cons_of_mem _ h1)
                  · exact hrkτ u
                · intro u
                  have hrm2 : (bfsScan G v τ₁).rm u = τ.rm u :=
                    congrFun (bfsScanFold_rm v (G.adj v) τ₁) u
                  rw [hrm2]
                  exact hrkτ u
                · omega
            · rw [if_neg hg]
              have hceq : countInf G ({ τ with queue := rest } : HKSt V) = countInf G τ := rfl
              have hlen1 : ({ τ with queue := rest } : HKSt V).queue.length = rest.length := rfl
              have hlen : τ.queue.length = rest.length + 1 := by rw [hqτ]; rfl
              apply ihf { τ with queue := rest }
              · intro w' hw'
                exact hqiτ w' (by rw [hqτ]; exact List.mem_cons_of_mem _ hw')
              · exact hrkτ
              · omega
    apply hmeas
    · exact hqi
    · exact hrks
    · have h1 : σs.queue.length ≤ G.left.length := by
        rw [hs_queue, List.length_map]
        exact List.length_filter_le _ _
      have h2 : countInf G σs ≤ G.left.length + 1 := by
        have h := countP_le_length (keyList G) (fun x => decide (σs.dist x = .inf))
        have hkl : (keyList G).length = G.left.length + 1 := by
          simp [keyList]
        rw [hkl] at h
        exact h
      omega
  obtain ⟨σ', hloop⟩ := hfuel
  obtain ⟨i1, i2, i3, i4, i5, i6⟩ := bfsLoop_main G hnd _ σs σ' hloop hqi hrks
  have hdl : ∀ v ∈ G.left, σs.dist (some v) =
      (if σ.lm v = none then Dist.fin 0 else Dist.inf) :=
    fun v hv => bfsStart_dist_left G σ HWf.leftNodup hv
  have hdn : σs.dist none = Dist.inf := bfsStart_dist_none G σ
  have hnonkey : ∀ v : V, v ∉ G.left → σs.dist (some v) = σ.dist (some v) := by
    intro v hvl
    apply bfsStart_dist_nonkey
    · simp
    · intro v' hv' he
      exact hvl (by rw [Option.some_inj.mp he]; exact hv')
  have hprov : Prov G σ' := by
    apply i5
    -- provenance after initialization
    intro x hx
    rcases hxn : x with _ | v
    · rw [hxn] at hx
      exact absurd hdn hx
    · rw [hxn] at hx
      by_cases hvl : v ∈ G.left
      · rw [hdl v hvl] at hx
        by_cases hm : σ.lm v = none
        · left
          refine ⟨v, rfl, hvl, ?_, ?_⟩
          · rw [hs_lm]; exact hm
          · rw [hdl v hvl, if_pos hm]
        · rw [if_neg hm] at hx
          exact absurd rfl hx
      · exfalso
        rw [hnonkey v hvl] at hx
        rcases hdk _ hx with h1 | ⟨v', hv', h1⟩
        · cases h1
        · exact hvl (by rw [Option.some_inj.mp h1]; exact hv')
  refine ⟨decide (σ'.dist none ≠ .inf), σ', ?_, by rw [i1, hs_lm], by rw [i2, hs_rm],
    i3, hprov, by simp, ?_, ?_⟩
  · unfold bfs
    rw [hloop]
  · intro v hv hm
    have h0 : σs.dist (some v) = .fin 0 := by
      rw [hdl v hv, if_pos hm]
    rw [i4 _ (by rw [h0]; exact fun hc => Dist.noConfusion hc), h0]
  · intro hb
    have hnone : σ'.dist none = .inf := by
      by_contra hcon
      simp [hcon] at hb
    apply i6 _ hnone
    -- after initialization, every assigned vertex is enqueued
    intro x hx
    right
    rw [hs_queue]
    by_cases hvl : x ∈ G.left
    · rw [hdl x hvl] at hx
      by_cases hm : σ.lm x = none
      · exact List.mem_map.mpr ⟨x, List.mem_filter.mpr ⟨hvl, by simp [hm]⟩, rfl⟩
      · rw [if_neg hm] at hx
        exact absurd rfl hx
    · exfalso
      rw [hnonkey x hvl] at hx
      rcases hdk _ hx with h1 | ⟨v', hv', h1⟩
      · cases h1
      · exact hvl (by rw [Option.some_inj.mp h1]; exact hv')

/-! ## DFS lemmas -/

/-- The neighbor scan of `depth_first_search(v)`: relative to the entry
state `σ` of the call, a failed scan satisfies the failure spec and a
successful scan the success spec.  `hrec` is the induction hypothesis for
the recursive `depth_first_search` calls at the next fuel level. -/
theorem dfsScan_spec (G : BipGraph V) (HWf : Wf G) (f : ℕ)
    (hrec : ∀ (τ : HKSt V) (w : Option V) (r : Bool) (τ' : HKSt V),
      dfs G f τ w = some (r, τ') → Inv G τ → DfsEntry G τ w →
      (r = false → DfsFailSpec τ τ' w) ∧ (r = true → DfsSuccSpec G τ τ' w))
    (v : V) (hvl : v ∈ G.left) (σ : HKSt V) (hInv : Inv G σ)
    (hdv : σ.dist (some v) ≠ .inf) :
    ∀ (us : List V) (σc : HKSt V), (∀ u ∈ us, u ∈ G.adj v) → ScanAcc σ σc v →
      ∀ (r : Bool) (σ' : HKSt V), dfsScan (dfs G f) v σc us = some (r, σ') →
      (r = false → DfsFailSpec σ σ' (some v)) ∧
        (r = true → DfsSuccSpec G σ σ' (some v)) := by
  obtain ⟨g1, g2, g3, g4⟩ := hInv
  intro us
  induction us with
  | nil =>
      intro σc hsub hacc r σ' h
      obtain ⟨a1, a2, a3, a4, a5, a6⟩ := hacc
      simp only [dfsScan, Option.some_inj] at h
      cases h
      refine ⟨fun _ => ?_, fun hco => nomatch hco⟩
      refine ⟨a1, a2, a3, ?_, ?_⟩
      · show updf σc.dist (some v) .inf none = σ.dist none
        rw [updf_other _ _ _ (by simp)]
        exact a4
      · intro x
        rcases eq_or_ne v x with rfl | hvx
        · right
          refine ⟨?_, Or.inr rfl, Or.inr rfl⟩
          show updf σc.dist (some v) .inf (some v) = .inf
          rw [updf_same]
        · have hux : updf σc.dist (some v) .inf (some x) = σc.dist (some x) :=
            updf_other _ _ _ (by simp [Ne.symm hvx])
          -- the dist of x is unchanged by the final marking of v
          show updf σc.dist (some v) .inf (some x) = σ.dist (some x) ∨
            (updf σc.dist (some v) .inf (some x) = .inf ∧
              (Dist.blt (σ.dist (some v)) (σ.dist (some x)) = true ∨ some x = some v) ∧
              (σ.lm x ≠ none ∨ some x = some v))
          rw [hux]
          rcases a5 x with hL | ⟨m1, m2, m3⟩
          · exact Or.inl hL
          · exact Or.inr ⟨m1, Or.inl m2, Or.inl m3⟩
  | cons u us ih =>
      intro σc hsub hacc r σ' h
      obtain ⟨a1, a2, a3, a4, a5, a6⟩ := hacc
      have hu_adj : u ∈ G.adj v := hsub u (List.mem_cons_self _ _)
      have hInvC : Inv G σc := InvExc_transport G a1 a2 ⟨g1, g2, g3, g4⟩
      simp only [dfsScan] at h
      by_cases hg : σc.dist (σc.rm u) = (σc.dist (some v)).succ
      · rw [if_pos hg] at h
        -- the guard passed: a recursive call was made
        have hdvc : σc.dist (some v) ≠ .inf := by rw [a6]; exact hdv
        have hsucc_ne : σc.dist (σc.rm u) ≠ .inf := by
          rw [hg]; exact Dist.succ_ne_inf hdvc
        have hentry : DfsEntry G σc (σc.rm u) := by
          rcases hru : σc.rm u with _ | x
          · exact Or.inl rfl
          · right
            refine ⟨x, ?_, rfl, ?_⟩
            · have : σ.rm u = some x := ((congrFun a2 u).symm).trans hru
              exact (g4 u x this).2.1
            · rw [← hru]; exact hsucc_ne
        -- composition of layer bounds
        have hbltX : ∀ x, Dist.blt (σc.dist (σc.rm u)) (σc.dist (some x)) = true →
            Dist.blt (σ.dist (some v)) (σ.dist (some x)) = true := by
          intro x hx
          rcases a5 x with hL | ⟨_, hb, _⟩
          · rw [hg, a6, hL] at hx
            exact Dist.blt_of_succ_blt hdv hx
          · exact hb
        have hmatchedX : ∀ x, some x = σc.rm u → σ.lm x ≠ none := by
          intro x hx
          have : σ.rm u = some x := ((congrFun a2 u).symm).trans hx.symm
          rw [g2 u x this (by simp)]
          simp
        rcases hcall : dfs G f σc (σc.rm u) with _ | ⟨rb, σs⟩
        · rw [hcall] at h
          cases h
        · rw [hcall] at h
          obtain ⟨hfail, hsucc⟩ := hrec σc (σc.rm u) rb σs hcall hInvC hentry
          cases rb with
          | false =>
              -- failed probe: accumulate and continue scanning
              obtain ⟨f1, f2, f3, f4, f5⟩ := hfail rfl
              have hacc' : ScanAcc σ σs v := by
                refine ⟨f1.trans a1, f2.trans a2, f3.trans a3, f4.trans a4, ?_, ?_⟩
                · intro x
                  rcases f5 x with hL | ⟨m1, m2, m3⟩
                  · rw [hL]; exact a5 x
                  · right
                    refine ⟨m1, ?_, ?_⟩
                    · rcases m2 with hb | hxw
                      · exact hbltX x hb
                      · -- x is the probed vertex itself, one layer deeper
                        have hdx : σc.dist (some x) = (σ.dist (some v)).succ := by
                          rw [hxw, hg, a6]
                        rcases a5 x with hL2 | ⟨hL2, _, _⟩
                        · rw [hL2] at hdx
                          rw [hdx]
                          exact Dist.blt_succ_self hdv
                        · rw [hL2] at hdx
                          exact absurd hdx.symm (Dist.succ_ne_inf hdv)
                    · rcases m3 with hb | hxw
                      · rw [a1] at hb; exact hb
                      · exact hmatchedX x hxw
                · rcases f5 v with hL | ⟨m1, m2, m3⟩
                  · rw [hL]; exact a6
                  · exfalso
                    rcases m2 with hb | hvw
                    · rw [hg] at hb
                      rw [Dist.not_blt_succ_self] at hb
                      exact Bool.noConfusion hb
                    · rw [← hvw] at hg
                      exact (Dist.ne_succ_self hdvc) hg
              exact ih σs (fun u' hu' => hsub u' (List.mem_cons_of_mem _ hu')) hacc' r σ' h
          | true =>
              -- successful probe: flip the edge (v, u) and return
              obtain ⟨s1, s2, s3, s4, s5, s6, s7, s8, s9⟩ := hsucc rfl
              cases h
              refine ⟨(fun hco => nomatch hco), fun _ => ?_⟩
              have hur : u ∈ G.right := HWf.adjLeft v hvl u hu_adj
              rcases hru : σc.rm u with _ | w'
              · -- the probed right vertex was free: σs = σc
                rw [hru] at s1
                have hσs : σs = σc := s1 rfl
                subst hσs
                have hrmuσ : σ.rm u = none := ((congrFun a2 u).symm).trans hru
                have hdnoneσ : σ.dist none = (σ.dist (some v)).succ := by
                  rw [← a4, ← a6]
                  rw [hru] at hg
                  exact hg
                have hlmv : ∀ x, x ≠ v → updf σs.lm v (some u) x = σ.lm x := by
                  intro x hxv
                  rw [updf_other _ _ _ hxv, a1]
                have hrmk : ∀ k, k ≠ u → updf σs.rm u (some v) k = σ.rm k := by
                  intro k hku
                  rw [updf_other _ _ _ hku, a2]
                refine ⟨(fun hco => nomatch hco), a3, a4, a5, ?_, ?_, ?_, ?_, ?_⟩
                · -- matched vertices stay matched
                  intro x hx
                  show updf σs.lm v (some u) x ≠ none
                  rcases eq_or_ne v x with rfl | hvx
                  · rw [updf_same]
                    simp
                  · rw [hlmv x (Ne.symm hvx)]
                    exact hx
                · -- only v gains a partner
                  intro x hx
                  rcases eq_or_ne v x with rfl | hvx
                  · exact Or.inl rfl
                  · exfalso
                    apply hx
                    show updf σs.lm v (some u) x = σ.lm x
                    exact hlmv x (Ne.symm hvx)
                · -- shallower left vertices keep their match
                  intro x hx
                  rcases eq_or_ne v x with rfl | hvx
                  · rw [Dist.blt_irrefl] at hx
                    exact absurd hx (by simp)
                  · show updf σs.lm v (some u) x = σ.lm x
                    exact hlmv x (Ne.symm hvx)
                · -- right vertices not deeper than v keep their match
                  intro k hk
                  rcases eq_or_ne u k with rfl | huk
                  · exfalso
                    apply hk
                    rw [hrmuσ, hdnoneσ]
                    exact Dist.blt_succ_self hdv
                  · show updf σs.rm u (some v) k = σ.rm k
                    exact hrmk k (Ne.symm huk)
                · -- the rewired invariant
                  intro w₀ he
                  cases Option.some_inj.mp he
                  refine ⟨⟨?_, ?_, ?_, ?_⟩, ?_, ?_⟩
                  · -- g1
                    intro x y hxy
                    have hxy2 : updf σs.lm v (some u) x = some y := hxy
                    rcases eq_or_ne v x with rfl | hvx
                    · rw [updf_same] at hxy2
                      cases Option.some_inj.mp hxy2
                      show updf σs.rm u (some v) u = some v
                      exact updf_same _ _ _
                    · rw [hlmv x (Ne.symm hvx)] at hxy2
                      have hy : σ.rm y = some x := g1 x y hxy2
                      have hyu : y ≠ u := by
                        intro hc
                        rw [hc, hrmuσ] at hy
                        exact Option.noConfusion hy
                      show updf σs.rm u (some v) y = some x
                      rw [hrmk y hyu]
                      exact hy
                  · -- g2
                    intro k x hkx hex
                    have hkx2 : updf σs.rm u (some v) k = some x := hkx
                    rcases eq_or_ne u k with rfl | huk
                    · rw [updf_same] at hkx2
                      cases Option.some_inj.mp hkx2
                      show updf σs.lm v (some u) v = some u
                      exact updf_same _ _ _
                    · rw [hrmk k (Ne.symm huk)] at hkx2
                      have hx : σ.lm x = some k := g2 k x hkx2 (by simp)
                      have hxv : x ≠ v := by
                        intro hc
                        rw [hc] at hx
                        exact hex hx
                      show updf σs.lm v (some u) x = some k
                      rw [hlmv x hxv]
                      exact hx
                  · -- g3
                    intro x y hxy
                    have hxy2 : updf σs.lm v (some u) x = some y := hxy
                    rcases eq_or_ne v x with rfl | hvx
                    · rw [updf_same] at hxy2
                      cases Option.some_inj.mp hxy2
                      exact ⟨hvl, hur, hu_adj⟩
                    · rw [hlmv x (Ne.symm hvx)] at hxy2
                      exact g3 x y hxy2
                  · -- g4
                    intro k x hkx
                    have hkx2 : updf σs.rm u (some v) k = some x := hkx
                    rcases eq_or_ne u k with rfl | huk
                    · rw [updf_same] at hkx2
                      cases Option.some_inj.mp hkx2
                      exact ⟨hur, hvl, hu_adj⟩
                    · rw [hrmk k (Ne.symm huk)] at hkx2
                      exact g4 k x hkx2
                  · -- v is now matched
                    show updf σs.lm v (some u) v ≠ none
                    rw [updf_same]
                    simp
                  · -- v's new partner differs from any old one
                    intro k hk
                    show updf σs.lm v (some u) v ≠ some k
                    rw [updf_same]
                    intro hc
                    cases Option.some_inj.mp hc
                    rw [hrmuσ] at hk
                    exact Option.noConfusion hk
              · -- the probed right vertex was matched to w'
                have hrmuσ : σ.rm u = some w' := ((congrFun a2 u).symm).trans hru
                have hlmw' : σ.lm w' = some u := g2 u w' hrmuσ (by simp)
                have e1 : σc.lm w' = some u := (congrFun a1 w').trans hlmw'
                have hdw'c : σc.dist (some w') = (σc.dist (some v)).succ := by
                  rw [← hru]
                  exact hg
                have hdw'σ : σ.dist (some w') = (σ.dist (some v)).succ := by
                  rcases a5 w' with hL | ⟨hL, _, _⟩
                  · rw [← hL, hdw'c, a6]
                  · rw [hL] at hdw'c
                    exact absurd hdw'c.symm (Dist.succ_ne_inf hdvc)
                have hvnew' : v ≠ w' := by
                  intro he
                  rw [← he] at hdw'σ
                  exact (Dist.ne_succ_self hdv) hdw'σ
                have Hlmv : σs.lm v = σ.lm v := by
                  have h7 := s7 v (by rw [hg]; exact Dist.blt_succ_self hdvc)
                  rw [h7, a1]
                have Hrmu : σs.rm u = some w' := by
                  have h8 := s8 u (by rw [Dist.blt_irrefl]; simp)
                  rw [h8, hru]
                obtain ⟨SInv, Hw'm, Hs6⟩ := s9 w' hru
                rw [e1] at SInv
                obtain ⟨t1, t2, t3, t4⟩ := SInv
                have Hs6u : σs.lm w' ≠ some u := Hs6 u hru
                have hlmv : ∀ x, x ≠ v → updf σs.lm v (some u) x = σs.lm x := by
                  intro x hxv
                  rw [updf_other _ _ _ hxv]
                have hrmk : ∀ k, k ≠ u → updf σs.rm u (some v) k = σs.rm k := by
                  intro k hku
                  rw [updf_other _ _ _ hku]
                refine ⟨(fun hco => nomatch hco), s2.trans a3, s3.trans a4, ?_, ?_, ?_, ?_, ?_, ?_⟩
                · -- distance marks compose
                  intro x
                  show σs.dist (some x) = σ.dist (some x) ∨
                    (σs.dist (some x) = .inf ∧
                      Dist.blt (σ.dist (some v)) (σ.dist (some x)) = true ∧ σ.lm x ≠ none)
                  rcases s4 x with hL | ⟨m1, m2, m3⟩
                  · rw [hL]
                    exact a5 x
                  · right
                    refine ⟨m1, hbltX x m2, ?_⟩
                    rw [a1] at m3
                    exact m3
                · -- matched vertices stay matched
                  intro x hx
                  show updf σs.lm v (some u) x ≠ none
                  rcases eq_or_ne v x with rfl | hvx
                  · rw [updf_same]
                    simp
                  · rw [hlmv x (Ne.symm hvx)]
                    apply s5
                    rw [a1]
                    exact hx
                · -- only v gains a partner among unmatched vertices
                  intro x hx
                  rcases eq_or_ne v x with rfl | hvx
                  · exact Or.inl rfl
                  · right
                    have hx2 : updf σs.lm v (some u) x ≠ σ.lm x := hx
                    rw [hlmv x (Ne.symm hvx)] at hx2
                    have hx3 : σs.lm x ≠ σc.lm x := by
                      rw [a1]
                      exact hx2
                    rcases s6 x hx3 with hxw | hxm
                    · rw [hru] at hxw
                      cases Option.some_inj.mp hxw
                      rw [hlmw']
                      simp
                    · rw [a1] at hxm
                      exact hxm
                · -- shallower left vertices keep their match
                  intro x hx
                  rcases eq_or_ne v x with rfl | hvx
                  · rw [Dist.blt_irrefl] at hx
                    exact absurd hx (by simp)
                  · show updf σs.lm v (some u) x = σ.lm x
                    rw [hlmv x (Ne.symm hvx)]
                    rcases a5 x with hL | ⟨_, hb, _⟩
                    · have h7 := s7 x (by
                        rw [hL, hg, a6]
                        exact Dist.blt_trans hx (Dist.blt_succ_self hdv))
                      rw [h7, a1]
                    · exfalso
                      have hco := Dist.blt_trans hb hx
                      rw [Dist.blt_irrefl] at hco
                      exact Bool.noConfusion hco
                · -- right vertices not deeper than v keep their match
                  intro k hk
                  rcases eq_or_ne u k with rfl | huk
                  · exfalso
                    apply hk
                    rw [hrmuσ, hdw'σ]
                    exact Dist.blt_succ_self hdv
                  · show updf σs.rm u (some v) k = σ.rm k
                    rw [hrmk k (Ne.symm huk)]
                    have h8 := s8 k (by
                      intro hc
                      apply hk
                      rw [hg, a6, congrFun a2 k] at hc
                      rcases hrk2 : σ.rm k with _ | x
                      · rw [hrk2, a4] at hc
                        exact Dist.blt_of_succ_blt hdv hc
                      · rw [hrk2] at hc
                        rcases a5 x with hL | ⟨_, hb, _⟩
                        · rw [hL] at hc
                          exact Dist.blt_of_succ_blt hdv hc
                        · exact hb)
                    rw [h8, a2]
                · -- the rewired invariant
                  intro w₀ he
                  cases Option.some_inj.mp he
                  refine ⟨⟨?_, ?_, ?_, ?_⟩, ?_, ?_⟩
                  · -- g1
                    intro x y hxy
                    have hxy2 : updf σs.lm v (some u) x = some y := hxy
                    rcases eq_or_ne v x with rfl | hvx
                    · rw [updf_same] at hxy2
                      cases Option.some_inj.mp hxy2
                      show updf σs.rm u (some v) u = some v
                      exact updf_same _ _ _
                    · rw [hlmv x (Ne.symm hvx)] at hxy2
                      have hy : σs.rm y = some x := t1 x y hxy2
                      have hyu : y ≠ u := by
                        intro hc
                        rw [hc] at hy
                        have hxw : w' = x := Option.some_inj.mp (Hrmu.symm.trans hy)
                        rw [← hxw] at hxy2
                        rw [hc] at hxy2
                        exact Hs6u hxy2
                      show updf σs.rm u (some v) y = some x
                      rw [hrmk y hyu]
                      exact hy
                  · -- g2
                    intro k x hkx hex
                    have hkx2 : updf σs.rm u (some v) k = some x := hkx
                    rcases eq_or_ne u k with rfl | huk
                    · rw [updf_same] at hkx2
                      cases Option.some_inj.mp hkx2
                      show updf σs.lm v (some u) v = some u
                      exact updf_same _ _ _
                    · rw [hrmk k (Ne.symm huk)] at hkx2
                      have hx : σs.lm x = some k := t2 k x hkx2 (by
                        intro hc
                        exact huk (Option.some_inj.mp hc))
                      have hxv : x ≠ v := by
                        intro hc
                        rw [hc, Hlmv] at hx
                        exact hex hx
                      show updf σs.lm v (some u) x = some k
                      rw [hlmv x hxv]
                      exact hx
                  · -- g3
                    intro x y hxy
                    have hxy2 : updf σs.lm v (some u) x = some y := hxy
                    rcases eq_or_ne v x with rfl | hvx
                    · rw [updf_same] at hxy2
                      cases Option.some_inj.mp hxy2
                      exact ⟨hvl, hur, hu_adj⟩
                    · rw [hlmv x (Ne.symm hvx)] at hxy2
                      exact t3 x y hxy2
                  · -- g4
                    intro k x hkx
                    have hkx2 : updf σs.rm u (some v) k = some x := hkx
                    rcases eq_or_ne u k with rfl | huk
                    · rw [updf_same] at hkx2
                      cases Option.some_inj.mp hkx2
                      exact ⟨hur, hvl, hu_adj⟩
                    · rw [hrmk k (Ne.symm huk)] at hkx2
                      exact t4 k x hkx2
                  · -- v is now matched
                    show updf σs.lm v (some u) v ≠ none
                    rw [updf_same]
                    simp
                  · -- v's new partner differs from any old one
                    intro k hk
                    show updf σs.lm v (some u) v ≠ some k
                    rw [updf_same]
                    intro hc
                    cases Option.some_inj.mp hc
                    rw [hrmuσ] at hk
                    exact hvnew' (Option.some_inj.mp hk).symm
      · rw [if_neg hg] at h
        exact ih σc (fun u' hu' => hsub u' (List.mem_cons_of_mem _ hu')) ⟨a1, a2, a3, a4, a5, a6⟩ r σ' h

/-- `depth_first_search` itself: state effects of a completed call. -/
theorem dfs_spec (G : BipGraph V) (HWf : Wf G) :
    ∀ (f : ℕ) (σ : HKSt V) (w : Option V) (r : Bool) (σ' : HKSt V),
      dfs G f σ w = some (r, σ') → Inv G σ → DfsEntry G σ w →
      (r = false → DfsFailSpec σ σ' w) ∧ (r = true → DfsSuccSpec G σ σ' w) := by
  intro f
  induction f with
  | zero => intro σ w r σ' h; exact absurd h (by simp [dfs])
  | succ f ihf =>
      intro σ w r σ' h hInv hentry
      rcases w with _ | v
      · simp only [dfs, Option.some_inj] at h
        cases h
        refine ⟨(fun hco => nomatch hco), fun _ => ?_⟩
        exact ⟨fun _ => rfl, rfl, rfl, fun x => Or.inl rfl, fun x hx => hx,
          fun x hx => absurd rfl hx, fun x _ => rfl, fun u _ => rfl,
          fun w' hco => nomatch hco⟩
      · rcases hentry with hco | ⟨v', hv'l, heq, hdist⟩
        · cases hco
        · cases Option.some_inj.mp heq
          simp only [dfs] at h
          exact dfsScan_spec G HWf f ihf v hv'l σ hInv hdist (G.adj v) σ
            (fun u hu => hu) (ScanAcc_refl σ v) r σ' h

/-- Marking distances to `inf` (and otherwise leaving the state alone) can
only destroy live alternating paths, never create them. -/
theorem CanAug_down (G : BipGraph V) {σ σ' : HKSt V}
    (hrm : σ'.rm = σ.rm)
    (hmk : ∀ x, σ'.dist (some x) = σ.dist (some x) ∨ σ'.dist (some x) = .inf)
    (hnone : σ'.dist none = σ.dist none) :
    ∀ z, CanAug G σ' z → CanAug G σ z := by
  have hdist : ∀ x, σ'.dist x ≠ .inf → σ'.dist x = σ.dist x := by
    intro x hx
    rcases x with _ | y
    · exact hnone
    · rcases hmk y with h1 | h1
      · exact h1
      · exact absurd h1 hx
  intro z hz
  induction hz with
  | free => exact CanAug.free
  | step v u hadj hne hguard hsub ihz =>
      have hv : σ'.dist (some v) = σ.dist (some v) := hdist _ hne
      have hru : σ'.dist (σ'.rm u) = σ.dist (σ.rm u) := by
        rw [← hrm]
        apply hdist
        rw [hguard, hv]
        exact Dist.succ_ne_inf (by rw [← hv]; exact hne)
      refine CanAug.step v u hadj (by rw [← hv]; exact hne) ?_ ?_
      · rw [← hru, hguard, hv]
      · rw [← hrm]
        exact ihz

/-- Marking a dead vertex preserves every live alternating path. -/
theorem CanAug_mark (G : BipGraph V) (σ : HKSt V) (y : V)
    (hdead : ¬ CanAug G σ (some y)) :
    ∀ z, CanAug G σ z →
      CanAug G { σ with dist := updf σ.dist (some y) .inf } z := by
  intro z hz
  induction hz with
  | free => exact CanAug.free
  | step v u hadj hne hguard hsub ihz =>
      have hvy : v ≠ y := by
        intro hc
        subst hc
        exact hdead (CanAug.step v u hadj hne hguard hsub)
      have hv : updf σ.dist (some y) .inf (some v) = σ.dist (some v) :=
        updf_other _ _ _ (by simp [hvy])
      have hruy : σ.rm u ≠ some y := by
        intro hc
        rw [hc] at hsub
        exact hdead hsub
      have hru : updf σ.dist (some y) .inf (σ.rm u) = σ.dist (σ.rm u) :=
        updf_other _ _ _ hruy
      refine CanAug.step v u hadj ?_ ?_ ?_
      · show updf σ.dist (some y) .inf (some v) ≠ .inf
        rw [hv]
        exact hne
      · show updf σ.dist (some y) .inf (σ.rm u) =
          (updf σ.dist (some y) .inf (some v)).succ
        rw [hv, hru]
        exact hguard
      · exact ihz

/-- Liveness analysis of the neighbor scan: if the scan fails, every live
path is preserved and `v` itself was dead at scan entry — provided that all
neighbors already skipped were dead. -/
theorem dfsScan_live (G : BipGraph V) (HWf : Wf G) (f : ℕ)
    (hrecL : ∀ (τ : HKSt V) (w : Option V) (τ' : HKSt V),
      dfs G f τ w = some (false, τ') → Inv G τ → DfsEntry G τ w →
      (∀ z, CanAug G τ z → CanAug G τ' z) ∧ ¬ CanAug G τ w)
    (v : V) (hvl : v ∈ G.left) (σ : HKSt V) (hInv : Inv G σ)
    (hdv : σ.dist (some v) ≠ .inf) :
    ∀ (us : List V) (σc : HKSt V), (∀ u ∈ us, u ∈ G.adj v) → ScanAcc σ σc v →
      (∀ u ∈ G.adj v, u ∉ us →
        σc.dist (σc.rm u) = (σc.dist (some v)).succ → ¬ CanAug G σc (σc.rm u)) →
      ∀ σ' : HKSt V, dfsScan (dfs G f) v σc us = some (false, σ') →
      (∀ z, CanAug G σc z → CanAug G σ' z) ∧ ¬ CanAug G σc (some v) := by
  obtain ⟨g1, g2, g3, g4⟩ := hInv
  intro us
  induction us with
  | nil =>
      intro σc hsub hacc hdead σ' h
      obtain ⟨a1, a2, a3, a4, a5, a6⟩ := hacc
      simp only [dfsScan, Option.some_inj] at h
      cases h
      have hdeadv : ¬ CanAug G σc (some v) := by
        intro hca
        cases hca with
        | step v u hadj hne hguard hsub2 =>
            exact hdead u hadj (List.not_mem_nil u) hguard hsub2
      exact ⟨fun z hz => CanAug_mark G σc v hdeadv z hz, hdeadv⟩
  | cons u us ih =>
      intro σc hsub hacc hdead σ' h
      obtain ⟨a1, a2, a3, a4, a5, a6⟩ := hacc
      have hu_adj : u ∈ G.adj v := hsub u (List.mem_cons_self _ _)
      have hInvC : Inv G σc := InvExc_transport G a1 a2 ⟨g1, g2, g3, g4⟩
      simp only [dfsScan] at h
      by_cases hg : σc.dist (σc.rm u) = (σc.dist (some v)).succ
      · rw [if_pos hg] at h
        have hdvc : σc.dist (some v) ≠ .inf := by rw [a6]; exact hdv
        have hsucc_ne : σc.dist (σc.rm u) ≠ .inf := by
          rw [hg]; exact Dist.succ_ne_inf hdvc
        have hentry : DfsEntry G σc (σc.rm u) := by
          rcases hru : σc.rm u with _ | x
          · exact Or.inl rfl
          · right
            refine ⟨x, ?_, rfl, ?_⟩
            · have hx : σ.rm u = some x := ((congrFun a2 u).symm).trans hru
              exact (g4 u x hx).2.1
            · rw [← hru]; exact hsucc_ne
        rcases hcall : dfs G f σc (σc.rm u) with _ | ⟨rb, σs⟩
        · rw [hcall] at h
          cases h
        · rw [hcall] at h
          cases rb with
          | true => cases h
          | false =>
              obtain ⟨hpres, hdeadu⟩ := hrecL σc (σc.rm u) σs hcall hInvC hentry
              obtain ⟨hfail, -⟩ := dfs_spec G HWf f σc (σc.rm u) false σs hcall hInvC hentry
              obtain ⟨f1, f2, f3, f4, f5⟩ := hfail rfl
              -- re-establish the accumulator (as in the state spec)
              have hvmark : σs.dist (some v) = σc.dist (some v) := by
                rcases f5 v with hL | ⟨m1, m2, m3⟩
                · exact hL
                · exfalso
                  rcases m2 with hb | hvw
                  · rw [hg] at hb
                    rw [Dist.not_blt_succ_self] at hb
                    exact Bool.noConfusion hb
                  · rw [← hvw] at hg
                    exact (Dist.ne_succ_self hdvc) hg
              have hacc' : ScanAcc σ σs v := by
                refine ⟨f1.trans a1, f2.trans a2, f3.trans a3, f4.trans a4, ?_, ?_⟩
                · intro x
                  rcases f5 x with hL | ⟨m1, m2, m3⟩
                  · rw [hL]; exact a5 x
                  · right
                    refine ⟨m1, ?_, ?_⟩
                    · rcases m2 with hb | hxw
                      · rcases a5 x with hL2 | ⟨hL2, hb2, _⟩
                        · rw [hg, a6, hL2] at hb
                          exact Dist.blt_of_succ_blt hdv hb
                        · exact hb2
                      · have hdx : σc.dist (some x) = (σ.dist (some v)).succ := by
                          rw [hxw, hg, a6]
                        rcases a5 x with hL2 | ⟨hL2, _, _⟩
                        · rw [hL2] at hdx
                          rw [hdx]
                          exact Dist.blt_succ_self hdv
                        · rw [hL2] at hdx
                          exact absurd hdx.symm (Dist.succ_ne_inf hdv)
                    · rcases m3 with hb | hxw
                      · rw [a1] at hb; exact hb
                      · have hx : σ.rm u = some x := ((congrFun a2 u).symm).trans hxw.symm
                        rw [g2 u x hx (by simp)]
                        simp
                · rw [hvmark]; exact a6
              -- the dead set re-established at σs
              have hdead' : ∀ u' ∈ G.adj v, u' ∉ us →
                  σs.dist (σs.rm u') = (σs.dist (some v)).succ → ¬ CanAug G σs (σs.rm u') := by
                intro u' hu' hnotin hguard' hca
                have hmk : ∀ x, σs.dist (some x) = σc.dist (some x) ∨ σs.dist (some x) = .inf := by
                  intro x
                  rcases f5 x with hL | ⟨m1, _, _⟩
                  · exact Or.inl hL
                  · exact Or.inr m1
                have hcac : CanAug G σc (σs.rm u') := by
                  have := CanAug_down G f2 hmk f4 (σs.rm u') hca
                  rw [f2] at this ⊢
                  exact this
                have hrmEq : σs.rm u' = σc.rm u' := congrFun f2 u'
                rcases eq_or_ne u' u with rfl | hne
                · rw [hrmEq] at hcac
                  exact hdeadu hcac
                · -- a neighbor skipped even earlier
                  have hdist_ne : σs.dist (σs.rm u') ≠ .inf := by
                    rw [hguard', hvmark]
                    exact Dist.succ_ne_inf hdvc
                  have hsd : σs.dist (σs.rm u') = σc.dist (σc.rm u') := by
                    rw [hrmEq]
                    rcases hrx : σc.rm u' with _ | x
                    · exact f4
                    · rcases f5 x with hL | ⟨m1, _, _⟩
                      · exact hL
                      · rw [hrmEq, hrx] at hdist_ne
                        exact absurd m1 hdist_ne
                  have hguardc : σc.dist (σc.rm u') = (σc.dist (some v)).succ := by
                    rw [← hsd, hguard', hvmark]
                  have := hdead u' hu' (by
                    intro hmem
                    rcases List.mem_cons.mp hmem with h1 | h1
                    · exact hne h1
                    · exact hnotin h1) hguardc
                  rw [hrmEq] at hcac
                  exact this hcac
              obtain ⟨ipres, ideadv⟩ := ih σs
                (fun u' hu' => hsub u' (List.mem_cons_of_mem _ hu')) hacc' hdead' σ' h
              refine ⟨fun z hz => ipres z (hpres z hz), fun hca => ideadv (hpres _ hca)⟩
      · rw [if_neg hg] at h
        have hdead' : ∀ u' ∈ G.adj v, u' ∉ us →
            σc.dist (σc.rm u') = (σc.dist (some v)).succ → ¬ CanAug G σc (σc.rm u') := by
          intro u' hu' hnotin hguard'
          rcases eq_or_ne u' u with rfl | hne
          · exact absurd hguard' hg
          · exact hdead u' hu' (by
              intro hmem
              rcases List.mem_cons.mp hmem with h1 | h1
              · exact hne h1
              · exact hnotin h1) hguard'
        exact ih σc (fun u' hu' => hsub u' (List.mem_cons_of_mem _ hu'))
          ⟨a1, a2, a3, a4, a5, a6⟩ hdead' σ' h

/-- `depth_first_search` liveness: a failed call preserves every live
alternating path and certifies that its argument was dead. -/
theorem dfs_live (G : BipGraph V) (HWf : Wf G) :
    ∀ (f : ℕ) (σ : HKSt V) (w : Option V) (σ' : HKSt V),
      dfs G f σ w = some (false, σ') → Inv G σ → DfsEntry G σ w →
      (∀ z, CanAug G σ z → CanAug G σ' z) ∧ ¬ CanAug G σ w := by
  intro f
  induction f with
  | zero => intro σ w σ' h; exact absurd h (by simp [dfs])
  | succ f ihf =>
      intro σ w σ' h hInv hentry
      rcases w with _ | v
      · simp only [dfs] at h
        cases h
      · rcases hentry with hco | ⟨v', hv'l, heq, hdist⟩
        · cases hco
        · cases Option.some_inj.mp heq
          simp only [dfs] at h
          exact dfsScan_live G HWf f ihf v hv'l σ hInv hdist (G.adj v) σ
            (fun u hu => hu) (ScanAcc_refl σ v)
            (fun u hu hnot _ => absurd hu hnot) σ' h

/-- The scan accumulator never increases the `depth_first_search`
termination measure. -/
theorem countAbove_le_scan (G : BipGraph V) {σ σc : HKSt V} {v : V}
    (hacc : ScanAcc σ σc v) :
    countAbove G σc (some v) ≤ countAbove G σ (some v) := by
  obtain ⟨a1, a2, a3, a4, a5, a6⟩ := hacc
  apply countP_le_of
  intro x hx hp
  rw [decide_eq_true_eq] at hp ⊢
  rcases x with _ | y
  · rw [a6, a4] at hp
    exact hp
  · rcases a5 y with hL | ⟨m1, _, _⟩
    · rw [a6, hL] at hp
      exact hp
    · rw [m1] at hp
      exact absurd rfl hp.2

/-- The recursive `depth_first_search` call made along an admissible edge
strictly decreases the termination measure. -/
theorem countAbove_rec_lt (G : BipGraph V) (HWf : Wf G) {σc : HKSt V} {v u : V}
    (hInvC : Inv G σc) (hdvc : σc.dist (some v) ≠ .inf)
    (hg : σc.dist (σc.rm u) = (σc.dist (some v)).succ) :
    countAbove G σc (σc.rm u) < countAbove G σc (some v) := by
  have hkey : σc.rm u ∈ keyList G := by
    rcases hru : σc.rm u with _ | x
    · exact List.mem_cons_self _ _
    · exact List.mem_cons_of_mem _
        (List.mem_map.mpr ⟨x, (hInvC.2.2.2 u x hru).2.1, rfl⟩)
  unfold countAbove
  refine countP_lt_of (keyList G) (keyList_nodup G HWf.leftNodup)
    (σc.rm u) hkey _ _ ?_ ?_ ?_
  · simp [Dist.blt_irrefl]
  · rw [decide_eq_true_eq]
    exact ⟨by rw [hg]; exact Dist.blt_succ_self hdvc,
      by rw [hg]; exact Dist.succ_ne_inf hdvc⟩
  · intro x hx hp
    rw [decide_eq_true_eq] at hp ⊢
    refine ⟨?_, hp.2⟩
    have h1 : Dist.blt (σc.dist (some v)) (σc.dist (σc.rm u)) = true := by
      rw [hg]; exact Dist.blt_succ_self hdvc
    exact Dist.blt_trans h1 hp.1

/-- A failed recursive probe re-establishes the scan accumulator. -/
theorem ScanAcc_after_fail (G : BipGraph V) {σ σc σs : HKSt V} {v u : V}
    (hInv : Inv G σ) (hdv : σ.dist (some v) ≠ .inf)
    (hacc : ScanAcc σ σc v)
    (hg : σc.dist (σc.rm u) = (σc.dist (some v)).succ)
    (hfail : DfsFailSpec σc σs (σc.rm u)) :
    ScanAcc σ σs v := by
  obtain ⟨g1, g2, g3, g4⟩ := hInv
  obtain ⟨a1, a2, a3, a4, a5, a6⟩ := hacc
  obtain ⟨f1, f2, f3, f4, f5⟩ := hfail
  have hdvc : σc.dist (some v) ≠ .inf := by rw [a6]; exact hdv
  have hvmark : σs.dist (some v) = σc.dist (some v) := by
    rcases f5 v with hL | ⟨m1, m2, m3⟩
    · exact hL
    · exfalso
      rcases m2 with hb | hvw
      · rw [hg] at hb
        rw [Dist.not_blt_succ_self] at hb
        exact Bool.noConfusion hb
      · rw [← hvw] at hg
        exact (Dist.ne_succ_self hdvc) hg
  refine ⟨f1.trans a1, f2.trans a2, f3.trans a3, f4.trans a4, ?_, ?_⟩
  · intro x
    rcases f5 x with hL | ⟨m1, m2, m3⟩
    · rw [hL]; exact a5 x
    · right
      refine ⟨m1, ?_, ?_⟩
      · rcases m2 with hb | hxw
        · rcases a5 x with hL2 | ⟨hL2, hb2, _⟩
          · rw [hg, a6, hL2] at hb
            exact Dist.blt_of_succ_blt hdv hb
          · exact hb2
        · have hdx : σc.dist (some x) = (σ.dist (some v)).succ := by
            rw [hxw, hg, a6]
          rcases a5 x with hL2 | ⟨hL2, _, _⟩
          · rw [hL2] at hdx
            rw [hdx]
            exact Dist.blt_succ_self hdv
          · rw [hL2] at hdx
            exact absurd hdx.symm (Dist.succ_ne_inf hdv)
      · rcases m3 with hb | hxw
        · rw [a1] at hb; exact hb
        · have hx : σ.rm u = some x := ((congrFun a2 u).symm).trans hxw.symm
          rw [g2 u x hx (by simp)]
          simp
  · rw [hvmark]; exact a6

/-- Fuel sufficiency for `depth_first_search`: the measure `countAbove`
bounds the recursion depth, so any fuel exceeding it prevents fuel
exhaustion. -/
theorem dfs_fuel (G : BipGraph V) (HWf : Wf G) :
    ∀ (f : ℕ) (σ : HKSt V) (w : Option V),
      Inv G σ → DfsEntry G σ w → countAbove G σ w < f →
      dfs G f σ w ≠ none := by
  intro f
  induction f with
  | zero => intro σ w _ _ hlt; omega
  | succ f ihf =>
      intro σ w hInv hentry hlt
      rcases w with _ | v
      · simp [dfs]
      · rcases hentry with hco | ⟨v', hv'l, heq, hdist⟩
        · cases hco
        · cases Option.some_inj.mp heq
          show dfsScan (dfs G f) v σ (G.adj v) ≠ none
          have hscan : ∀ (us : List V) (σc : HKSt V), ScanAcc σ σc v →
              dfsScan (dfs G f) v σc us ≠ none := by
            intro us
            induction us with
            | nil => intro σc _; simp [dfsScan]
            | cons u us ih =>
                intro σc hacc
                obtain ⟨a1, a2, a3, a4, a5, a6⟩ := hacc
                have hInvC : Inv G σc := InvExc_transport G a1 a2 hInv
                simp only [dfsScan]
                by_cases hg : σc.dist (σc.rm u) = (σc.dist (some v)).succ
                · rw [if_pos hg]
                  have hdvc : σc.dist (some v) ≠ .inf := by rw [a6]; exact hdist
                  have hltc : countAbove G σc (σc.rm u) < f := by
                    have h1 := countAbove_rec_lt G HWf hInvC hdvc hg
                    have h2 := countAbove_le_scan G ⟨a1, a2, a3, a4, a5, a6⟩
                    omega
                  have hentryC : DfsEntry G σc (σc.rm u) := by
                    rcases hru : σc.rm u with _ | x
                    · exact Or.inl rfl
                    · right
                      refine ⟨x, ?_, rfl, ?_⟩
                      · exact (hInvC.2.2.2 u x hru).2.1
                      · rw [← hru, hg]
                        exact Dist.succ_ne_inf hdvc
                  rcases hcall : dfs G f σc (σc.rm u) with _ | ⟨rb, σs⟩
                  · exact absurd hcall (ihf σc (σc.rm u) hInvC hentryC hltc)
                  · cases rb with
                    | true => simp
                    | false =>
                        obtain ⟨hfail, -⟩ := dfs_spec G HWf f σc (σc.rm u)
                          false σs hcall hInvC hentryC
                        exact ih σs (ScanAcc_after_fail G hInv hdist
                          ⟨a1, a2, a3, a4, a5, a6⟩ hg (hfail rfl))
                · rw [if_neg hg]
                  exact ih σc ⟨a1, a2, a3, a4, a5, a6⟩
          exact hscan (G.adj v) σ (ScanAcc_refl σ v)

/-- Matched pairs never disappear, so the matching size is monotone. -/
theorem matchedCard_mono (G : BipGraph V) {σ σ' : HKSt V}
    (h : ∀ x, σ.lm x ≠ none → σ'.lm x ≠ none) :
    matchedCard G σ ≤ matchedCard G σ' := by
  unfold matchedCard
  rw [← List.countP_eq_length_filter, ← List.countP_eq_length_filter]
  apply countP_le_of
  intro x hx hp
  rw [decide_eq_true_eq] at hp ⊢
  exact h x hp

/-- A newly matched left vertex strictly increases the matching size. -/
theorem matchedCard_lt (G : BipGraph V) (hnd : G.left.Nodup) {σ σ' : HKSt V}
    {t : V} (ht : t ∈ G.left) (h0 : σ.lm t = none) (h1 : σ'.lm t ≠ none)
    (h : ∀ x, σ.lm x ≠ none → σ'.lm x ≠ none) :
    matchedCard G σ < matchedCard G σ' := by
  unfold matchedCard
  rw [← List.countP_eq_length_filter, ← List.countP_eq_length_filter]
  refine countP_lt_of G.left hnd t ht _ _ ?_ ?_ ?_
  · simp [h0]
  · rw [decide_eq_true_eq]
    exact h1
  · intro x hx hp
    rw [decide_eq_true_eq] at hp ⊢
    exact h x hp

/-- The augmentation sweep (`matching.py`, lines 108–111): it completes,
preserves the matching invariant and monotonicity of the matching, and —
the crux of the phase-termination argument — strictly enlarges the
matching whenever some unmatched vertex of the sweep list is live. -/
theorem sweep_main (G : BipGraph V) (HWf : Wf G) :
    ∀ (vs : List V) (σ : HKSt V), vs.Nodup → (∀ v ∈ vs, v ∈ G.left) →
      Inv G σ →
      (∀ v ∈ vs, σ.lm v = none → σ.dist (some v) ≠ .inf) →
      ∃ σ', sweep G (G.left.length + 2) σ vs = some σ' ∧ Inv G σ' ∧
        σ'.queue = σ.queue ∧
        (∀ x, σ'.dist x ≠ .inf → σ'.dist x = σ.dist x) ∧
        (∀ x, σ.lm x ≠ none → σ'.lm x ≠ none) ∧
        matchedCard G σ ≤ matchedCard G σ' ∧
        ((∃ v ∈ vs, σ.lm v = none ∧ CanAug G σ (some v)) →
          matchedCard G σ < matchedCard G σ') := by
  intro vs
  induction vs with
  | nil =>
      intro σ _ _ hInv _
      exact ⟨σ, rfl, hInv, rfl, fun x _ => rfl, fun x hx => hx, le_refl _,
        by rintro ⟨v, hv, -⟩; cases hv⟩
  | cons t vs ih =>
      intro σ hnd hmem hInv hud
      have htl : t ∈ G.left := hmem t (List.mem_cons_self _ _)
      have hndT : vs.Nodup := (List.nodup_cons.mp hnd).2
      have htnotin : t ∉ vs := (List.nodup_cons.mp hnd).1
      have hmemT : ∀ v ∈ vs, v ∈ G.left :=
        fun v hv => hmem v (List.mem_cons_of_mem _ hv)
      by_cases hmt : σ.lm t = none
      · have hentry : DfsEntry G σ (some t) :=
          Or.inr ⟨t, htl, rfl, hud t (List.mem_cons_self _ _) hmt⟩
        have hfuel : countAbove G σ (some t) < G.left.length + 2 := by
          have h1 : countAbove G σ (some t) ≤ (keyList G).length :=
            countP_le_length _ _
          have h2 : (keyList G).length = G.left.length + 1 := by
            simp [keyList]
          omega
        rcases hcall : dfs G (G.left.length + 2) σ (some t) with _ | ⟨rb, σs⟩
        · exact absurd hcall (dfs_fuel G HWf _ σ (some t) hInv hentry hfuel)
        · cases rb with
          | false =>
              obtain ⟨hfail, -⟩ :=
                dfs_spec G HWf _ σ (some t) false σs hcall hInv hentry
              obtain ⟨f1, f2, f3, f4, f5⟩ := hfail rfl
              obtain ⟨hpres, hdeadt⟩ :=
                dfs_live G HWf _ σ (some t) σs hcall hInv hentry
              have hInvS : Inv G σs := InvExc_transport G f1 f2 hInv
              have hudS : ∀ v ∈ vs, σs.lm v = none → σs.dist (some v) ≠ .inf := by
                intro v hv hlm
                have hvt : v ≠ t := fun hc => htnotin (hc ▸ hv)
                have hlmv : σ.lm v = none := by
                  rw [← congrFun f1 v]; exact hlm
                rcases f5 v with hL | ⟨m1, m2, m3⟩
                · rw [hL]
                  exact hud v (List.mem_cons_of_mem _ hv) hlmv
                · rcases m3 with hb | hvw
                  · exact absurd hlmv hb
                  · exact absurd (Option.some_inj.mp hvw) hvt
              obtain ⟨σ', hsw, hI', hq', hd', hmono', hle', hcond'⟩ :=
                ih σs hndT hmemT hInvS hudS
              have hcardEq : matchedCard G σs = matchedCard G σ := by
                unfold matchedCard
                rw [f1]
              refine ⟨σ', ?_, hI', ?_, ?_, ?_, ?_, ?_⟩
              · show sweep G (G.left.length + 2) σ (t :: vs) = some σ'
                simp only [sweep]
                rw [if_pos hmt, hcall]
                exact hsw
              · rw [hq']
                exact f3
              · intro x hx
                have h1 : σ'.dist x = σs.dist x := hd' x hx
                rw [h1] at hx ⊢
                rcases x with _ | y
                · exact f4
                · rcases f5 y with hL | ⟨m1, _, _⟩
                  · exact hL
                  · exact absurd m1 hx
              · intro x hx
                exact hmono' x (by rw [congrFun f1 x]; exact hx)
              · rw [← hcardEq]
                exact hle'
              · rintro ⟨v, hv, hlm, hca⟩
                rcases List.mem_cons.mp hv with rfl | hv'
                · exact absurd hca hdeadt
                · rw [← hcardEq]
                  exact hcond' ⟨v, hv', by rw [congrFun f1 v]; exact hlm,
                    hpres _ hca⟩
          | true =>
              obtain ⟨-, hsucc⟩ :=
                dfs_spec G HWf _ σ (some t) true σs hcall hInv hentry
              obtain ⟨s0, s1, s2, s3, s4, s5, s6, s7, s8⟩ := hsucc rfl
              obtain ⟨hIexc, hlmt, -⟩ := s8 t rfl
              have hInvS : Inv G σs := by
                rw [hmt] at hIexc
                exact hIexc
              have hudS : ∀ v ∈ vs, σs.lm v = none → σs.dist (some v) ≠ .inf := by
                intro v hv hlm
                have hlmv : σ.lm v = none := by
                  by_contra hc
                  exact (s4 v hc) hlm
                rcases s3 v with hL | ⟨m1, m2, m3⟩
                · rw [hL]
                  exact hud v (List.mem_cons_of_mem _ hv) hlmv
                · exact absurd hlmv m3
              obtain ⟨σ', hsw, hI', hq', hd', hmono', hle', hcond'⟩ :=
                ih σs hndT hmemT hInvS hudS
              have hlt : matchedCard G σ < matchedCard G σs :=
                matchedCard_lt G HWf.leftNodup htl hmt hlmt s4
              refine ⟨σ', ?_, hI', ?_, ?_, ?_, ?_, ?_⟩
              · show sweep G (G.left.length + 2) σ (t :: vs) = some σ'
                simp only [sweep]
                rw [if_pos hmt, hcall]
                exact hsw
              · rw [hq']
                exact s1
              · intro x hx
                have h1 : σ'.dist x = σs.dist x := hd' x hx
                rw [h1] at hx ⊢
                rcases x with _ | y
                · exact s2
                · rcases s3 y with hL | ⟨m1, _, _⟩
                  · exact hL
                  · exact absurd m1 hx
              · intro x hx
                exact hmono' x (s4 x hx)
              · exact le_of_lt (lt_of_lt_of_le hlt hle')
              · intro _
                exact lt_of_lt_of_le hlt hle'
      · obtain ⟨σ', hsw, hI', hq', hd', hmono', hle', hcond'⟩ :=
          ih σ hndT hmemT hInv
            (fun v hv => hud v (List.mem_cons_of_mem _ hv))
        refine ⟨σ', ?_, hI', hq', hd', hmono', hle', ?_⟩
        · show sweep G (G.left.length + 2) σ (t :: vs) = some σ'
          simp only [sweep]
          rw [if_neg hmt]
          exact hsw
        · rintro ⟨v, hv, hlm, hca⟩
          rcases List.mem_cons.mp hv with rfl | hv'
          · exact absurd hlm hmt
          · exact hcond' ⟨v, hv', hlm, hca⟩

/-- Every `rightmatches` value of an invariant state is `None` or a left
vertex. -/
theorem RmKeys_of_Inv (G : BipGraph V) {σ : HKSt V} (hInv : Inv G σ) :
    RmKeys G σ := by
  intro u
  rcases h : σ.rm u with _ | v
  · exact Or.inl rfl
  · exact Or.inr ⟨v, (hInv.2.2.2 u v h).2.1, rfl⟩

/-- Provenance of distances plus the range of `rightmatches` pins the
finite-distance keys to the sentinel and the left vertices. -/
theorem DistKeys_of_Prov (G : BipGraph V) {σ : HKSt V} (hprov : Prov G σ)
    (hrk : RmKeys G σ) : DistKeys G σ := by
  intro x hx
  rcases hprov x hx with ⟨v, rfl, hvl, -, -⟩ | ⟨v', u, -, -, -, hrm, -⟩
  · exact Or.inr ⟨v, hvl, rfl⟩
  · rcases hrk u with h1 | ⟨y, hy, h1⟩
    · rw [hrm] at h1
      exact Or.inl h1
    · rw [hrm] at h1
      exact Or.inr ⟨y, hy, h1⟩

/-- Walking the BFS provenance backwards from any live assigned left vertex
reaches an unmatched (layer-0) live left vertex. -/
theorem Prov_chain (G : BipGraph V) {σ : HKSt V} (hprov : Prov G σ) :
    ∀ (k : ℕ) (v : V), σ.dist (some v) = .fin k → CanAug G σ (some v) →
      ∃ v₀ ∈ G.left, σ.lm v₀ = none ∧ CanAug G σ (some v₀) := by
  intro k
  induction k using Nat.strong_induction_on with
  | _ k ihk =>
      intro v hdv hca
      rcases hprov (some v) (by rw [hdv]; exact fun hco => nomatch hco) with
        ⟨v1, heq, hvl, hlm, hd0⟩ | ⟨v', u, hv'l, hdv', hadj, hrm, hsucc⟩
      · cases Option.some_inj.mp heq
        exact ⟨v, hvl, hlm, hca⟩
      · rcases hj : σ.dist (some v') with _ | j
        · exact absurd hj hdv'
        · have hjk : j + 1 = k := by
            rw [hsucc, hj] at hdv
            simpa [Dist.succ] using hdv
          have hca' : CanAug G σ (some v') := by
            refine CanAug.step v' u hadj hdv' ?_ ?_
            · rw [hrm]
              exact hsucc
            · rw [hrm]
              exact hca
          exact ihk j (by omega) v' hj hca'

/-- When `breadth_first_search` returns `True`, some unmatched left vertex
is live: the sweep that follows is guaranteed to augment the matching. -/
theorem bfs_true_live (G : BipGraph V) {σ' : HKSt V} (hprov : Prov G σ')
    (hb : σ'.dist none ≠ .inf) :
    ∃ v₀ ∈ G.left, σ'.lm v₀ = none ∧ CanAug G σ' (some v₀) := by
  rcases hprov none hb with ⟨v1, heq, -⟩ | ⟨v', u, hv'l, hdv', hadj, hrm, hsucc⟩
  · cases heq
  · have hca' : CanAug G σ' (some v') := by
      refine CanAug.step v' u hadj hdv' ?_ ?_
      · rw [hrm]
        exact hsucc
      · rw [hrm]
        exact CanAug.free
    rcases hj : σ'.dist (some v') with _ | j
    · exact absurd hj hdv'
    · exact Prov_chain G hprov j v' hj hca'

/-- The phase loop `while breadth_first_search(): ...`: it terminates
within the claimed fuel and its final state carries the full Hopcroft–Karp
postconditions — a valid matching whose layered graph admits no augmenting
path (the `None` sentinel was not reached, every assigned vertex was
scanned, and every unmatched left vertex sits at layer 0). -/
theorem hkLoop_main (G : BipGraph V) (HWf : Wf G) :
    ∀ (f : ℕ) (σ : HKSt V), Inv G σ → σ.queue = [] → DistKeys G σ →
      G.left.length - matchedCard G σ < f →
      ∃ σ', hkLoop G (G.left.length + 2) f σ = some σ' ∧ Inv G σ' ∧
        Prov G σ' ∧ σ'.dist none = .inf ∧
        (∀ v ∈ G.left, σ'.lm v = none → σ'.dist (some v) = .fin 0) ∧
        (∀ x, σ'.dist (some x) ≠ .inf → Scanned G σ' x) := by
  intro f
  induction f with
  | zero => intro σ _ _ _ hm; omega
  | succ f ihf =>
      intro σ hInv hq hdk hm
      have hrk : RmKeys G σ := RmKeys_of_Inv G hInv
      obtain ⟨b, σ₁, hbfs, hlm1, hrm1, hq1, hprov1, hbiff, hd01, hscan1⟩ :=
        bfs_main G HWf σ hq hdk hrk
      have hInv1 : Inv G σ₁ := InvExc_transport G hlm1 hrm1 hInv
      simp only [hkLoop]
      rw [hbfs]
      cases b with
      | false =>
          refine ⟨σ₁, rfl, hInv1, hprov1, ?_, ?_, hscan1 rfl⟩
          · by_contra hc
            exact Bool.noConfusion (hbiff.mpr hc)
          · intro v hv hlm
            exact hd01 v hv (by rw [← congrFun hlm1 v]; exact hlm)
      | true =>
          have hdn1 : σ₁.dist none ≠ .inf := hbiff.mp rfl
          obtain ⟨v₀, hv₀l, hv₀lm, hv₀ca⟩ := bfs_true_live G hprov1 hdn1
          have hud1 : ∀ v ∈ G.left, σ₁.lm v = none → σ₁.dist (some v) ≠ .inf := by
            intro v hv hlm
            rw [hd01 v hv (by rw [← congrFun hlm1 v]; exact hlm)]
            exact fun hco => nomatch hco
          obtain ⟨σ₂, hsw, hInv2, hq2, hd2, hmono2, hle2, hcond2⟩ :=
            sweep_main G HWf G.left σ₁ HWf.leftNodup (fun v hv => hv) hInv1 hud1
          have hlt : matchedCard G σ₁ < matchedCard G σ₂ :=
            hcond2 ⟨v₀, hv₀l, hv₀lm, hv₀ca⟩
          have hcard1 : matchedCard G σ₁ = matchedCard G σ := by
            unfold matchedCard
            rw [hlm1]
          have hcard2le : matchedCard G σ₂ ≤ G.left.length := by
            have h1 : matchedCard G σ₂ ≤ (G.left.filter
                (fun v => σ₂.lm v ≠ none)).length + 0 := le_of_eq (by rfl)
            calc matchedCard G σ₂ = (G.left.filter
                  (fun v => σ₂.lm v ≠ none)).length := rfl
              _ ≤ G.left.length := List.length_filter_le _ _
          have hdk2 : DistKeys G σ₂ := by
            intro x hx
            have h1 : σ₂.dist x = σ₁.dist x := hd2 x hx
            rw [h1] at hx
            exact DistKeys_of_Prov G hprov1 (RmKeys_of_Inv G hInv1) x hx
          obtain ⟨σ', hloop, hI', hP', hdn', hd0', hsc'⟩ :=
            ihf σ₂ hInv2 (hq2.trans hq1) hdk2 (by omega)
          refine ⟨σ', ?_, hI', hP', hdn', hd0', hsc'⟩
          show (match sweep G (G.left.length + 2) σ₁ G.left with
            | none => none
            | some σ'' => hkLoop G (G.left.length + 2) f σ'') = some σ'
          rw [hsw]
          exact hloop

/-- The full Hopcroft–Karp run from the initial state completes and
delivers the phase-loop postconditions. -/
theorem hk_run_spec (G : BipGraph V) (HWf : Wf G) :
    ∃ σ', hk_run G = some σ' ∧ Inv G σ' ∧ Prov G σ' ∧
      σ'.dist none = .inf ∧
      (∀ v ∈ G.left, σ'.lm v = none → σ'.dist (some v) = .fin 0) ∧
      (∀ x, σ'.dist (some x) ≠ .inf → Scanned G σ' x) := by
  have h0 : Inv G (initSt V) :=
    ⟨(fun v u h => nomatch h), (fun u v h _ => nomatch h),
      (fun v u h => nomatch h), (fun u v h => nomatch h)⟩
  have hdk : DistKeys G (initSt V) := fun x hx => absurd rfl hx
  exact hkLoop_main G HWf (G.left.length + 1) (initSt V) h0 rfl hdk
    (by omega)

/-! ## The combined matching dictionary -/

theorem stripCombine_left (G : BipGraph V) (σ : HKSt V) {v : V}
    (h : v ∈ G.left) : stripCombine G σ v = σ.lm v := by
  simp [stripCombine, h]

theorem stripCombine_right (G : BipGraph V) (σ : HKSt V) {v : V}
    (hl : v ∉ G.left) (hr : v ∈ G.right) : stripCombine G σ v = σ.rm v := by
  simp [stripCombine, hl, hr]

theorem stripCombine_out (G : BipGraph V) (σ : HKSt V) {v : V}
    (hl : v ∉ G.left) (hr : v ∉ G.right) : stripCombine G σ v = none := by
  simp [stripCombine, hl, hr]

/-- The combined dictionary of an invariant state is symmetric: the left
matches and right matches are inverses (`matching.py`, lines 117–123). -/
theorem stripCombine_symm (G : BipGraph V) (HWf : Wf G) {σ : HKSt V}
    (hInv : Inv G σ) {v w : V} (h : stripCombine G σ v = some w) :
    stripCombine G σ w = some v := by
  obtain ⟨g1, g2, g3, g4⟩ := hInv
  by_cases hvl : v ∈ G.left
  · rw [stripCombine_left G σ hvl] at h
    have hw := g3 v w h
    have hwl : w ∉ G.left := fun hc => HWf.disj w hc hw.2.1
    rw [stripCombine_right G σ hwl hw.2.1]
    exact g1 v w h
  · by_cases hvr : v ∈ G.right
    · rw [stripCombine_right G σ hvl hvr] at h
      have hw := g4 v w h
      rw [stripCombine_left G σ hw.2.1]
      exact g2 v w h (by simp)
    · rw [stripCombine_out G σ hvl hvr] at h
      cases h

/-- Every matched edge of the combined dictionary is an edge of `G`. -/
theorem stripCombine_edge (G : BipGraph V) (HWf : Wf G) {σ : HKSt V}
    (hInv : Inv G σ) {v w : V} (h : stripCombine G σ v = some w) :
    w ∈ G.adj v := by
  obtain ⟨g1, g2, g3, g4⟩ := hInv
  by_cases hvl : v ∈ G.left
  · rw [stripCombine_left G σ hvl] at h
    exact (g3 v w h).2.2
  · by_cases hvr : v ∈ G.right
    · rw [stripCombine_right G σ hvl hvr] at h
      have hw := g4 v w h
      exact HWf.adjSymmL w hw.2.1 v hw.2.2
    · rw [stripCombine_out G σ hvl hvr] at h
      cases h

/-! ## Maximality of the final matching (König argument) -/

/-- After the final (failed) phase, no augmenting walk starts at any left
vertex that was assigned a distance: walking it would reach the `None`
sentinel, which was never assigned. -/
theorem final_no_augwalk (G : BipGraph V) (HWf : Wf G) {σ : HKSt V}
    (hInv : Inv G σ) (hdn : σ.dist none = .inf)
    (hsc : ∀ x, σ.dist (some x) ≠ .inf → Scanned G σ x) :
    ∀ v, AugWalk G (stripCombine G σ) v → v ∈ G.left →
      σ.dist (some v) ≠ .inf → False := by
  intro v hw
  induction hw with
  | done v u hadj hmu =>
      intro hvl hdv
      have hur : u ∈ G.right := HWf.adjLeft v hvl u hadj
      have hul : u ∉ G.left := fun hc => HWf.disj u hc hur
      rw [stripCombine_right G σ hul hur] at hmu
      have hscv := hsc v hdv u hadj
      rw [hmu, hdn] at hscv
      exact hscv rfl
  | step v u v' hadj hmu hw ih =>
      intro hvl hdv
      have hur : u ∈ G.right := HWf.adjLeft v hvl u hadj
      have hul : u ∉ G.left := fun hc => HWf.disj u hc hur
      rw [stripCombine_right G σ hul hur] at hmu
      have hv'l : v' ∈ G.left := (hInv.2.2.2 u v' hmu).2.1
      have hdist := hsc v hdv u hadj
      rw [hmu] at hdist
      exact ih hv'l hdist

theorem mem_coverL {G : BipGraph V} {σ : HKSt V} {x : V} :
    x ∈ coverL G σ ↔ x ∈ G.left ∧ σ.dist (some x) = .inf := by
  simp [coverL, List.mem_filter]

theorem mem_coverR {G : BipGraph V} {σ : HKSt V} {x : V} :
    x ∈ coverR G σ ↔ x ∈ G.right ∧ σ.dist (σ.rm x) ≠ .inf := by
  simp [coverR, List.mem_filter]

/-- The two cover halves live on opposite sides, hence are disjoint. -/
theorem cover_disjoint (G : BipGraph V) (HWf : Wf G) (σ : HKSt V) :
    Disjoint (coverL G σ) (coverR G σ) := by
  rw [Finset.disjoint_left]
  intro a ha hb
  exact HWf.disj a (mem_coverL.mp ha).1 (mem_coverR.mp hb).1

/-- Every cover vertex is matched, via an injection into the matched left
vertices: the cover is no larger than the matching the search holds. -/
theorem cover_card_le_matched (G : BipGraph V) (HWf : Wf G) {σ : HKSt V}
    (hInv : Inv G σ) (hdn : σ.dist none = .inf)
    (hd0 : ∀ v ∈ G.left, σ.lm v = none → σ.dist (some v) = .fin 0) :
    (coverL G σ).card + (coverR G σ).card ≤ matchedCard G σ := by
  rw [← Finset.card_union_of_disjoint (cover_disjoint G HWf σ)]
  have hML : ((G.left.filter (fun v => σ.lm v ≠ none)).toFinset).card =
      matchedCard G σ := by
    rw [List.toFinset_card_of_nodup (HWf.leftNodup.filter _)]
    rfl
  rw [← hML]
  apply Finset.card_le_card_of_injOn
    (fun x => if x ∈ G.right then (σ.rm x).getD x else x)
  · intro a ha
    rcases Finset.mem_union.mp ha with haL | haR
    · obtain ⟨hal, had⟩ := mem_coverL.mp haL
      have har : a ∉ G.right := HWf.disj a hal
      simp only [if_neg har]
      rw [List.mem_toFinset, List.mem_filter]
      refine ⟨hal, ?_⟩
      rw [decide_eq_true_eq]
      intro hlm
      rw [hd0 a hal hlm] at had
      exact Dist.noConfusion had
    · obtain ⟨har, had⟩ := mem_coverR.mp haR
      rcases hrm : σ.rm a with _ | w
      · rw [hrm, hdn] at had
        exact absurd rfl had
      · simp only [if_pos har, hrm, Option.getD_some]
        have hw := hInv.2.2.2 a w hrm
        rw [List.mem_toFinset, List.mem_filter]
        refine ⟨hw.2.1, ?_⟩
        rw [decide_eq_true_eq, hInv.2.1 a w hrm (by simp)]
        simp
  · intro a ha b hb hab'
    have hab : (if a ∈ G.right then (σ.rm a).getD a else a) =
        (if b ∈ G.right then (σ.rm b).getD b else b) := hab'
    have ha' := Finset.mem_coe.mp ha
    have hb' := Finset.mem_coe.mp hb
    rcases Finset.mem_union.mp ha' with haL | haR <;>
      rcases Finset.mem_union.mp hb' with hbL | hbR
    · obtain ⟨hal, -⟩ := mem_coverL.mp haL
      obtain ⟨hbl, -⟩ := mem_coverL.mp hbL
      rw [if_neg (HWf.disj a hal), if_neg (HWf.disj b hbl)] at hab
      exact hab
    · obtain ⟨hal, had⟩ := mem_coverL.mp haL
      obtain ⟨hbr, hbd⟩ := mem_coverR.mp hbR
      rcases hrm : σ.rm b with _ | w
      · rw [hrm, hdn] at hbd
        exact absurd rfl hbd
      · rw [if_neg (HWf.disj a hal), if_pos hbr, hrm,
          Option.getD_some] at hab
        rw [hrm] at hbd
        rw [← hab] at hbd
        exact absurd had hbd
    · obtain ⟨hbl, hbd⟩ := mem_coverL.mp hbL
      obtain ⟨har, had⟩ := mem_coverR.mp haR
      rcases hrm : σ.rm a with _ | w
      · rw [hrm, hdn] at had
        exact absurd rfl had
      · rw [if_neg (HWf.disj b hbl), if_pos har, hrm,
          Option.getD_some] at hab
        rw [hrm] at had
        rw [hab] at had
        exact absurd hbd had
    · obtain ⟨har, had⟩ := mem_coverR.mp haR
      obtain ⟨hbr, hbd⟩ := mem_coverR.mp hbR
      rcases hrma : σ.rm a with _ | wa
      · rw [hrma, hdn] at had
        exact absurd rfl had
      · rcases hrmb : σ.rm b with _ | wb
        · rw [hrmb, hdn] at hbd
          exact absurd rfl hbd
        · rw [if_pos har, if_pos hbr, hrma, hrmb,
            Option.getD_some, Option.getD_some] at hab
          have hla := hInv.2.1 a wa hrma (by simp)
          have hlb := hInv.2.1 b wb hrmb (by simp)
          rw [hab] at hla
          rw [hla] at hlb
          exact Option.some_inj.mp hlb

/-- Weak duality: any matching of `G` injects into the cover, since the
final Scanned postcondition makes the cover touch every edge. -/
theorem matching_le_cover (G : BipGraph V) (HWf : Wf G) {σ : HKSt V}
    (hsc : ∀ x, σ.dist (some x) ≠ .inf → Scanned G σ x)
    (M : Finset (V × V)) (hM : IsMatchingFinset G M) :
    M.card ≤ (coverL G σ).card + (coverR G σ).card := by
  obtain ⟨h1, h2, h3⟩ := hM
  rw [← Finset.card_union_of_disjoint (cover_disjoint G HWf σ)]
  apply Finset.card_le_card_of_injOn
    (fun p => if σ.dist (some p.1) = .inf then p.1 else p.2)
  · intro p hp
    obtain ⟨hpl, hpr, hpadj⟩ := h1 p hp
    by_cases hd : σ.dist (some p.1) = .inf
    · rw [if_pos hd]
      exact Finset.mem_union_left _ (mem_coverL.mpr ⟨hpl, hd⟩)
    · rw [if_neg hd]
      exact Finset.mem_union_right _
        (mem_coverR.mpr ⟨hpr, hsc p.1 hd p.2 hpadj⟩)
  · intro p hp q hq hpq'
    have hpq : (if σ.dist (some p.1) = .inf then p.1 else p.2) =
        (if σ.dist (some q.1) = .inf then q.1 else q.2) := hpq'
    have hp' := Finset.mem_coe.mp hp
    have hq' := Finset.mem_coe.mp hq
    by_cases hdp : σ.dist (some p.1) = .inf <;>
      by_cases hdq : σ.dist (some q.1) = .inf
    · rw [if_pos hdp, if_pos hdq] at hpq
      exact h2 p hp' q hq' hpq
    · rw [if_pos hdp, if_neg hdq] at hpq
      have hq2 := (h1 q hq').2.1
      have hp1 := (h1 p hp').1
      rw [← hpq] at hq2
      exact absurd hq2 (HWf.disj p.1 hp1)
    · rw [if_neg hdp, if_pos hdq] at hpq
      have hp2 := (h1 p hp').2.1
      have hq1 := (h1 q hq').1
      rw [hpq] at hp2
      exact absurd hp2 (HWf.disj q.1 hq1)
    · rw [if_neg hdp, if_neg hdq] at hpq
      exact h3 p hp' q hq' hpq

theorem mem_matchedPairs {G : BipGraph V} {σ : HKSt V} {p : V × V} :
    p ∈ matchedPairs G σ ↔ p.1 ∈ G.left ∧ σ.lm p.1 = some p.2 := by
  simp only [matchedPairs, List.mem_toFinset, List.mem_map, List.mem_filter,
    decide_eq_true_eq]
  constructor
  · rintro ⟨v, ⟨hvl, hlm⟩, rfl⟩
    rcases h : σ.lm v with _ | u
    · exact absurd h hlm
    · exact ⟨hvl, by simp [h]⟩
  · rintro ⟨hl, hlm⟩
    refine ⟨p.1, ⟨hl, by rw [hlm]; simp⟩, ?_⟩
    rw [hlm]
    simp

/-- The matching held by an invariant state is a genuine matching whose
size is `matchedCard`. -/
theorem matchedPairs_spec (G : BipGraph V) (HWf : Wf G) {σ : HKSt V}
    (hInv : Inv G σ) :
    IsMatchingFinset G (matchedPairs G σ) ∧
      (matchedPairs G σ).card = matchedCard G σ := by
  obtain ⟨g1, g2, g3, g4⟩ := hInv
  constructor
  · refine ⟨?_, ?_, ?_⟩
    · intro p hp
      obtain ⟨hl, hlm⟩ := mem_matchedPairs.mp hp
      have := g3 p.1 p.2 hlm
      exact ⟨hl, this.2.1, this.2.2⟩
    · intro p hp q hq heq
      obtain ⟨-, hlmp⟩ := mem_matchedPairs.mp hp
      obtain ⟨-, hlmq⟩ := mem_matchedPairs.mp hq
      rw [heq] at hlmp
      rw [hlmp] at hlmq
      rcases p with ⟨p1, p2⟩
      rcases q with ⟨q1, q2⟩
      simp only at heq hlmq ⊢
      rw [heq, Option.some_inj.mp hlmq]
    · intro p hp q hq heq
      obtain ⟨-, hlmp⟩ := mem_matchedPairs.mp hp
      obtain ⟨-, hlmq⟩ := mem_matchedPairs.mp hq
      have hrp := g1 p.1 p.2 hlmp
      have hrq := g1 q.1 q.2 hlmq
      rw [heq] at hrp
      rw [hrp] at hrq
      rcases p with ⟨p1, p2⟩
      rcases q with ⟨q1, q2⟩
      simp only at heq hrq ⊢
      rw [heq, Option.some_inj.mp hrq]
  · have hinj : Function.Injective
        (fun v => (v, (σ.lm v).getD v) : V → V × V) :=
      fun a b hab => congrArg Prod.fst hab
    rw [matchedPairs,
      List.toFinset_card_of_nodup ((HWf.leftNodup.filter _).map hinj)]
    rw [List.length_map]
    rfl

/-- The combined dictionary and the final state agree on matched left
vertices, so the two size measures coincide. -/
theorem mCard_stripCombine (G : BipGraph V) (σ : HKSt V) :
    mCard G (stripCombine G σ) = matchedCard G σ := by
  unfold mCard matchedCard
  congr 1
  apply List.filter_congr
  intro v hv
  rw [stripCombine_left G σ hv]

theorem isZero_iff (S : NMat) :
    isZero S = true ↔ ∀ i < S.rows, ∀ j < S.cols, S.entry i j = 0 := by
  simp [isZero]

/-- The peeling loop never touches the `D` field of the driver state: every
assignment in the loop body targets the working copy `S`. -/
theorem decompLoop_preserves_D (n : ℕ) :
    ∀ (f : ℕ) (st : DriverState), ((decompLoop n f st).2).D = st.D := by
  intro f
  induction f with
  | zero => intro st; rfl
  | succ f ih =>
      intro st
      unfold decompLoop
      split
      · rfl
      · split
        · rfl
        · next q P S' heq2 =>
            split
            · next l st' heq =>
                have := ih { st with S := S' }
                rw [heq] at this
                exact this
            · next =>
                exact ih { st with S := S' }

/-! ## The pattern graph of the working matrix -/

theorem pattern_entry (S : NMat) (i j : ℕ) :
    (to_pattern_matrix S).entry i j =
      if i < S.rows ∧ j < S.cols ∧ S.entry i j ≠ 0 then 1 else 0 := rfl

/-- The block structure of the bipartite adjacency matrix
`[[0, W], [W.T, 0]]` built by `to_bipartite_matrix` (`birkhoff.py`,
line 101), read entrywise. -/
theorem bip_entry (S : NMat) (a b : ℕ) :
    (to_bipartite_matrix (to_pattern_matrix S)).entry a b =
      if a < S.rows then
        (if b < S.rows then 0 else (to_pattern_matrix S).entry a (b - S.rows))
      else
        (if b < S.rows then (to_pattern_matrix S).entry b (a - S.rows)
          else 0) := rfl

theorem adj_graphOf (S : NMat) (a b : ℕ) :
    b ∈ (graphOf S).adj a ↔ b < S.rows + S.cols ∧
      (to_bipartite_matrix (to_pattern_matrix S)).entry a b ≠ 0 := by
  show b ∈ (List.range (S.rows + S.cols)).filter
      (fun b => decide
        ((to_bipartite_matrix (to_pattern_matrix S)).entry a b ≠ 0)) ↔ _
  rw [List.mem_filter, List.mem_range, decide_eq_true_eq]

theorem mem_graphOf_left (S : NMat) (v : ℕ) :
    v ∈ (graphOf S).left ↔ v < S.rows := List.mem_range

theorem mem_graphOf_right (S : NMat) (u : ℕ) :
    u ∈ (graphOf S).right ↔ ∃ j < S.rows, u = S.rows + j := by
  show u ∈ (List.range S.rows).map (S.rows + ·) ↔ _
  rw [List.mem_map]
  constructor
  · rintro ⟨j, hj, rfl⟩
    exact ⟨j, List.mem_range.mp hj, rfl⟩
  · rintro ⟨j, hj, rfl⟩
    exact ⟨j, List.mem_range.mpr hj, rfl⟩

/-- The edges of the pattern graph between a left vertex `v` and a right
vertex `n + j` are exactly the nonzero in-range entries `S[v, j]`. -/
theorem adj_graphOf_edge (S : NMat) (hsq : S.cols = S.rows) {v j : ℕ}
    (hv : v < S.rows) (hj : j < S.rows) :
    (S.rows + j) ∈ (graphOf S).adj v ↔ S.entry v j ≠ 0 := by
  rw [adj_graphOf, bip_entry, if_pos hv,
    if_neg (by omega : ¬ S.rows + j < S.rows)]
  have hred : S.rows + j - S.rows = j := by omega
  rw [hred, pattern_entry]
  constructor
  · rintro ⟨-, hne⟩
    by_contra hz
    rw [if_neg (fun hc => hc.2.2 hz)] at hne
    exact hne rfl
  · intro hne
    refine ⟨by omega, ?_⟩
    rw [if_pos ⟨hv, by rw [hsq]; exact hj, hne⟩]
    exact one_ne_zero

/-- Every neighbor of a left vertex is a right vertex carrying a nonzero
entry of its row. -/
theorem adj_graphOf_of_left (S : NMat) (hsq : S.cols = S.rows) {v u : ℕ}
    (hv : v < S.rows) (hu : u ∈ (graphOf S).adj v) :
    ∃ j < S.rows, u = S.rows + j ∧ S.entry v j ≠ 0 := by
  rw [adj_graphOf, bip_entry, if_pos hv] at hu
  obtain ⟨hub, hne⟩ := hu
  by_cases hus : u < S.rows
  · rw [if_pos hus] at hne
    exact absurd rfl hne
  · rw [if_neg hus, pattern_entry] at hne
    refine ⟨u - S.rows, by omega, by omega, ?_⟩
    by_contra hz
    rw [if_neg (fun hc => hc.2.2 hz)] at hne
    exact hne rfl

/-- Every neighbor of a right vertex `n + j` is a left vertex carrying a
nonzero entry of column `j`. -/
theorem adj_graphOf_of_right (S : NMat) {j v : ℕ} (hj : j < S.rows)
    (hv : v ∈ (graphOf S).adj (S.rows + j)) :
    v < S.rows ∧ S.entry v j ≠ 0 := by
  rw [adj_graphOf, bip_entry,
    if_neg (by omega : ¬ S.rows + j < S.rows)] at hv
  obtain ⟨hvb, hne⟩ := hv
  by_cases hvs : v < S.rows
  · rw [if_pos hvs, pattern_entry] at hne
    have hred : S.rows + j - S.rows = j := by omega
    rw [hred] at hne
    refine ⟨hvs, ?_⟩
    by_contra hz
    rw [if_neg (fun hc => hc.2.2 hz)] at hne
    exact hne rfl
  · rw [if_neg hvs] at hne
    exact absurd rfl hne

/-- The pattern graph of any square working matrix is a well-formed
bipartite graph (partition per `bipartite_sets`, symmetry because
`to_bipartite_matrix` places both `W` and `W.T`). -/
theorem graphOf_wf (S : NMat) (hsq : S.cols = S.rows) : Wf (graphOf S) := by
  refine ⟨List.nodup_range _, ?_, ?_, ?_, ?_, ?_, ?_⟩
  · exact (List.nodup_range _).map (fun a b h => by omega)
  · intro v hv hvr
    rw [mem_graphOf_left] at hv
    rw [mem_graphOf_right] at hvr
    obtain ⟨j, hj, rfl⟩ := hvr
    omega
  · intro v hv u hu
    rw [mem_graphOf_left] at hv
    obtain ⟨j, hj, rfl, hne⟩ := adj_graphOf_of_left S hsq hv hu
    rw [mem_graphOf_right]
    exact ⟨j, hj, rfl⟩
  · intro u hu v hv
    rw [mem_graphOf_right] at hu
    obtain ⟨j, hj, rfl⟩ := hu
    rw [mem_graphOf_left]
    exact (adj_graphOf_of_right S hj hv).1
  · intro v hv u hu
    rw [mem_graphOf_left] at hv
    obtain ⟨j, hj, rfl, hne⟩ := adj_graphOf_of_left S hsq hv hu
    rw [adj_graphOf, bip_entry,
      if_neg (by omega : ¬ S.rows + j < S.rows), if_pos hv, pattern_entry]
    have hred : S.rows + j - S.rows = j := by omega
    rw [hred]
    refine ⟨by omega, ?_⟩
    rw [if_pos ⟨hv, by omega, hne⟩]
    exact one_ne_zero
  · intro u hu v hv
    rw [mem_graphOf_right] at hu
    obtain ⟨j, hj, rfl⟩ := hu
    obtain ⟨hvs, hne⟩ := adj_graphOf_of_right S hj hv
    rw [adj_graphOf, bip_entry, if_pos hvs,
      if_neg (by omega : ¬ S.rows + j < S.rows), pattern_entry]
    have hred : S.rows + j - S.rows = j := by omega
    rw [hred]
    refine ⟨by omega, ?_⟩
    rw [if_pos ⟨hvs, by omega, hne⟩]
    exact one_ne_zero

/-! ## Python min and the index list -/

theorem listMin_mem : ∀ (l : List ℚ) (q : ℚ), listMin l = some q → q ∈ l := by
  have hfold : ∀ (l : List ℚ) (x : ℚ), l.foldl min x = x ∨ l.foldl min x ∈ l := by
    intro l
    induction l with
    | nil => intro x; exact Or.inl rfl
    | cons a l ih =>
        intro x
        rcases ih (min x a) with h | h
        · rcases min_choice x a with hm | hm
          · exact Or.inl (by rw [List.foldl_cons, h, hm])
          · exact Or.inr (by rw [List.foldl_cons, h, hm]; exact List.mem_cons_self _ _)
        · exact Or.inr (List.mem_cons_of_mem _ h)
  intro l q h
  rcases l with _ | ⟨x, xs⟩
  · cases h
  · simp only [listMin, Option.some_inj] at h
    rcases hfold xs x with h1 | h1
    · rw [← h, h1]
      exact List.mem_cons_self _ _
    · rw [← h]
      exact List.mem_cons_of_mem _ h1

theorem listMin_le : ∀ (l : List ℚ) (q : ℚ), listMin l = some q →
    ∀ x ∈ l, q ≤ x := by
  have hfold : ∀ (l : List ℚ) (x : ℚ),
      l.foldl min x ≤ x ∧ ∀ y ∈ l, l.foldl min x ≤ y := by
    intro l
    induction l with
    | nil => intro x; exact ⟨le_refl x, fun y hy => absurd hy (List.not_mem_nil y)⟩
    | cons a l ih =>
        intro x
        obtain ⟨h1, h2⟩ := ih (min x a)
        refine ⟨le_trans h1 (min_le_left x a), ?_⟩
        intro y hy
        rcases List.mem_cons.mp hy with rfl | hy'
        · exact le_trans h1 (min_le_right x y)
        · exact h2 y hy'
  intro l q h x hx
  rcases l with _ | ⟨a, xs⟩
  · cases h
  · simp only [listMin, Option.some_inj] at h
    rcases List.mem_cons.mp hx with rfl | hx'
    · rw [← h]
      exact (hfold xs x).1
    · rw [← h]
      exact (hfold xs a).2 x hx'

theorem listMin_ne_nil {l : List ℚ} (h : l ≠ []) : ∃ q, listMin l = some q := by
  rcases l with _ | ⟨x, xs⟩
  · exact absurd rfl h
  · exact ⟨xs.foldl min x, rfl⟩

theorem mem_indices {m n : ℕ} {p : ℕ × ℕ} :
    p ∈ indices m n ↔ p.1 < m ∧ p.2 < n := by
  rcases p with ⟨i, j⟩
  simp [indices, List.mem_flatMap, List.mem_map, List.mem_range]

theorem indices_nodup (m n : ℕ) : (indices m n).Nodup := by
  unfold indices
  refine List.nodup_flatMap.mpr ⟨?_, ?_⟩
  · intro i _
    exact (List.nodup_range _).map (fun a b h => congrArg Prod.snd h)
  · refine (List.nodup_range _).imp ?_
    intro a b hne x h₁ h₂
    rcases List.mem_map.mp h₁ with ⟨j₁, -, rfl⟩
    rcases List.mem_map.mp h₂ with ⟨j₂, -, h⟩
    exact hne (congrArg Prod.fst h).symm

/-! ## One iteration of the peeling loop -/

theorem to_permutation_matrix_entry (d : ℕ) (m : ℕ → Option ℕ) (u v : ℕ) :
    (to_permutation_matrix d m).entry u v = if m u = some v then 1 else 0 := rfl

theorem TOLERANCE_pos : 0 < TOLERANCE := by norm_num [TOLERANCE]

theorem isZero_false {S : NMat} (h : isZero S = false) :
    ∃ i < S.rows, ∃ j < S.cols, S.entry i j ≠ 0 := by
  have h2 : ¬ (∀ i < S.rows, ∀ j < S.cols, S.entry i j = 0) := by
    rw [← isZero_iff, h]
    exact Bool.false_ne_true
  push_neg at h2
  exact h2

/-- The full Hopcroft–Karp run delivers a maximum-cardinality matching. -/
theorem hk_max (G : BipGraph V) (HWf : Wf G) :
    ∃ σ, hk_run G = some σ ∧ Inv G σ ∧
      ∀ M, IsMatchingFinset G M → M.card ≤ matchedCard G σ := by
  obtain ⟨σ', hrun, hInv, hprov, hdn, hd0, hsc⟩ := hk_run_spec G HWf
  refine ⟨σ', hrun, hInv, ?_⟩
  intro M hM
  have h1 := matching_le_cover G HWf hsc M hM
  have h2 := cover_card_le_matched G HWf hInv hdn hd0
  omega

/-- One iteration of the peeling loop on a square nonnegative nonzero
working matrix: the matching succeeds, the appended matrix is a partial
permutation matrix supported on nonzero entries of `S`, the coefficient is
the (positive) minimum over covered entries, and the new working matrix is
the clamped subtraction — nonnegative, entrywise no larger, with each entry
either exactly the subtraction or a discard of size below `TOLERANCE`,
zero entries preserved and the argmin entry newly zeroed. -/
theorem decompStep_spec (S : NMat) (hsq : S.cols = S.rows)
    (hnn : ∀ i < S.rows, ∀ j < S.rows, 0 ≤ S.entry i j)
    (hnz : isZero S = false) :
    ∃ q P S', decompStep S.rows S = .ok (q, P, S') ∧
      (∀ i j, P.entry i j = 0 ∨ P.entry i j = 1) ∧
      (∀ i j, P.entry i j = 1 → i < S.rows ∧ j < S.rows ∧ S.entry i j ≠ 0) ∧
      IsSubPermMat S.rows P ∧
      0 < q ∧
      (∀ i, i < S.rows → ∀ j, j < S.rows → P.entry i j = 1 → q ≤ S.entry i j) ∧
      (∃ i, i < S.rows ∧ ∃ j, j < S.rows ∧ P.entry i j = 1 ∧ S.entry i j = q) ∧
      S' = clamp (subtract_scaled S q P) ∧
      S'.rows = S.rows ∧ S'.cols = S.cols ∧
      (∀ i, i < S.rows → ∀ j, j < S.rows →
        S'.entry i j = S.entry i j - q * P.entry i j ∨
        (S'.entry i j = 0 ∧ 0 ≤ S.entry i j - q * P.entry i j ∧
          S.entry i j - q * P.entry i j < TOLERANCE)) ∧
      (∀ i, i < S.rows → ∀ j, j < S.rows → 0 ≤ S'.entry i j) ∧
      (∀ i, i < S.rows → ∀ j, j < S.rows → S'.entry i j ≤ S.entry i j) ∧
      (∀ i, i < S.rows → ∀ j, j < S.rows →
        S'.entry i j = 0 ∨ TOLERANCE ≤ S'.entry i j) ∧
      (∀ i, i < S.rows → ∀ j, j < S.rows →
        S.entry i j = 0 → S'.entry i j = 0) ∧
      (∃ i, i < S.rows ∧ ∃ j, j < S.rows ∧
        S.entry i j ≠ 0 ∧ S'.entry i j = 0) := by
  obtain ⟨σ, hrun, hInv, hmax⟩ := hk_max (graphOf S) (graphOf_wf S hsq)
  obtain ⟨g1, g2, g3, g4⟩ := hInv
  have hmm : hopcroft_karp_matching (graphOf S) =
      some (stripCombine (graphOf S) σ) := by
    unfold hopcroft_karp_matching
    rw [hrun]
    rfl
  set n := S.rows with hn
  set mm := stripCombine (graphOf S) σ with hmmdef
  set Mf : ℕ → Option ℕ :=
    fun u => if u < n then (mm u).map (fun v => v % n) else none with hMfdef
  set P := to_permutation_matrix n Mf with hPdef
  have hP01 : ∀ i j, P.entry i j = 0 ∨ P.entry i j = 1 := by
    intro i j
    rw [hPdef, to_permutation_matrix_entry]
    by_cases h : Mf i = some j
    · rw [if_pos h]
      exact Or.inr rfl
    · rw [if_neg h]
      exact Or.inl rfl
  have hchar : ∀ u v, u < n → v < n →
      (P.entry u v = 1 ↔ σ.lm u = some (n + v)) := by
    intro u v hu hv
    have hMu : Mf u = (σ.lm u).map (fun x => x % n) := by
      rw [hMfdef]
      simp only [if_pos hu]
      rw [hmmdef, stripCombine_left _ _ ((mem_graphOf_left S u).mpr hu)]
    rw [hPdef, to_permutation_matrix_entry]
    constructor
    · intro h1
      by_cases hcond : Mf u = some v
      · rw [hMu] at hcond
        rcases hlmu : σ.lm u with _ | w
        · rw [hlmu] at hcond
          cases hcond
        · rw [hlmu] at hcond
          obtain ⟨j, hj, hw⟩ := (mem_graphOf_right S w).mp (g3 u w hlmu).2.1
          have hv2 : w % n = v := Option.some_inj.mp hcond
          rw [hw, Nat.add_mod_left, Nat.mod_eq_of_lt hj] at hv2
          rw [hw, ← hv2]
      · rw [if_neg hcond] at h1
        exact absurd h1 (by norm_num)
    · intro h2
      have hcond : Mf u = some v := by
        rw [hMu, h2]
        show some ((n + v) % n) = some v
        rw [Nat.add_mod_left, Nat.mod_eq_of_lt hv]
      rw [if_pos hcond]
  have hcov : ∀ i j, P.entry i j = 1 → i < n ∧ j < n ∧ S.entry i j ≠ 0 := by
    intro u v h1
    rw [hPdef, to_permutation_matrix_entry] at h1
    by_cases hcond : Mf u = some v
    · have hu : u < n := by
        by_contra hc
        rw [hMfdef] at hcond
        simp only [if_neg hc] at hcond
        cases hcond
      have hMu : Mf u = (σ.lm u).map (fun x => x % n) := by
        rw [hMfdef]
        simp only [if_pos hu]
        rw [hmmdef, stripCombine_left _ _ ((mem_graphOf_left S u).mpr hu)]
      rw [hMu] at hcond
      rcases hlmu : σ.lm u with _ | w
      · rw [hlmu] at hcond
        cases hcond
      · rw [hlmu] at hcond
        obtain ⟨j, hj, hw⟩ := (mem_graphOf_right S w).mp (g3 u w hlmu).2.1
        have hv2 : w % n = v := Option.some_inj.mp hcond
        rw [hw, Nat.add_mod_left, Nat.mod_eq_of_lt hj] at hv2
        subst hv2
        refine ⟨hu, hj, ?_⟩
        have hadj := (g3 u w hlmu).2.2
        rw [hw] at hadj
        exact (adj_graphOf_edge S hsq hu hj).mp hadj
    · rw [if_neg hcond] at h1
      exact absurd h1 (by norm_num)
  have hsub : IsSubPermMat n P := by
    refine ⟨rfl, rfl, ?_, ?_, ?_⟩
    · intro i _ j _
      exact hP01 i j
    · intro i _ j hj j' hj' h1 h2
      rw [hPdef, to_permutation_matrix_entry] at h1 h2
      by_cases c1 : Mf i = some j
      · by_cases c2 : Mf i = some j'
        · exact Option.some_inj.mp (c1.symm.trans c2)
        · rw [if_neg c2] at h2
          exact absurd h2 (by norm_num)
      · rw [if_neg c1] at h1
        exact absurd h1 (by norm_num)
    · intro j hj i hi i' hi' h1 h2
      have e1 := (hchar i j hi hj).mp h1
      have e2 := (hchar i' j hi' hj).mp h2
      have r1 := g1 i (n + j) e1
      have r2 := g1 i' (n + j) e2
      rw [r1] at r2
      exact Option.some_inj.mp r2
  obtain ⟨i0, hi0, j0, hj0c, hne0⟩ := isZero_false hnz
  have hj0 : j0 < n := by rw [← hsq]; exact hj0c
  have hM1 : IsMatchingFinset (graphOf S) {(i0, n + j0)} := by
    refine ⟨?_, ?_, ?_⟩
    · intro p hp
      rw [Finset.mem_singleton] at hp
      subst hp
      exact ⟨(mem_graphOf_left S i0).mpr hi0,
        (mem_graphOf_right S _).mpr ⟨j0, hj0, rfl⟩,
        (adj_graphOf_edge S hsq hi0 hj0).mpr hne0⟩
    · intro p hp p' hp' _
      rw [Finset.mem_singleton] at hp hp'
      rw [hp, hp']
    · intro p hp p' hp' _
      rw [Finset.mem_singleton] at hp hp'
      rw [hp, hp']
  have hcard1 : (1 : ℕ) ≤ matchedCard (graphOf S) σ := by
    have := hmax {(i0, n + j0)} hM1
    simpa using this
  have hmatched : ∃ u ∈ (graphOf S).left, σ.lm u ≠ none := by
    unfold matchedCard at hcard1
    rcases hfl : (graphOf S).left.filter (fun v => σ.lm v ≠ none) with _ | ⟨u, rest⟩
    · rw [hfl] at hcard1
      simp at hcard1
    · have hu : u ∈ (graphOf S).left.filter (fun v => σ.lm v ≠ none) := by
        rw [hfl]
        exact List.mem_cons_self _ _
      have h2 := List.mem_filter.mp hu
      refine ⟨u, h2.1, ?_⟩
      have h3 := h2.2
      rwa [decide_eq_true_eq] at h3
  obtain ⟨u1, hu1l, hu1m⟩ := hmatched
  have hu1 : u1 < n := (mem_graphOf_left S u1).mp hu1l
  rcases hlmu1 : σ.lm u1 with _ | w1
  · exact absurd hlmu1 hu1m
  · obtain ⟨j1, hj1, hw1⟩ := (mem_graphOf_right S w1).mp (g3 u1 w1 hlmu1).2.1
    have hP1 : P.entry u1 j1 = 1 := by
      rw [hchar u1 j1 hu1 hj1, ← hw1]
      exact hlmu1
    have hmemL : (u1, j1) ∈ (indices n n).filter
        (fun p => decide (P.entry p.1 p.2 = 1)) := by
      rw [List.mem_filter]
      exact ⟨mem_indices.mpr ⟨hu1, hj1⟩, by rw [decide_eq_true_eq]; exact hP1⟩
    have hLne : ((indices n n).filter (fun p => decide (P.entry p.1 p.2 = 1))).map
        (fun p => S.entry p.1 p.2) ≠ [] :=
      List.ne_nil_of_mem (List.mem_map.mpr ⟨(u1, j1), hmemL, rfl⟩)
    obtain ⟨q, hq⟩ := listMin_ne_nil hLne
    have hq_le : ∀ i, i < n → ∀ j, j < n → P.entry i j = 1 → q ≤ S.entry i j := by
      intro i hi j hj hP
      refine listMin_le _ q hq _ ?_
      exact List.mem_map.mpr ⟨(i, j), List.mem_filter.mpr
        ⟨mem_indices.mpr ⟨hi, hj⟩, by rw [decide_eq_true_eq]; exact hP⟩, rfl⟩
    have hq_mem : ∃ i, i < n ∧ ∃ j, j < n ∧ P.entry i j = 1 ∧ S.entry i j = q := by
      have hm := listMin_mem _ q hq
      rcases List.mem_map.mp hm with ⟨p, hpf, hpe⟩
      rw [List.mem_filter] at hpf
      obtain ⟨hpi, hpP⟩ := hpf
      rw [decide_eq_true_eq] at hpP
      obtain ⟨h1, h2⟩ := mem_indices.mp hpi
      exact ⟨p.1, h1, p.2, h2, hpP, hpe⟩
    have hqpos : 0 < q := by
      obtain ⟨i, hi, j, hj, hP, hSq⟩ := hq_mem
      have hne := (hcov i j hP).2.2
      have hge := hnn i hi j hj
      rw [hSq] at hne hge
      exact lt_of_le_of_ne hge (Ne.symm hne)
    have hS'e : ∀ i j, (clamp (subtract_scaled S q P)).entry i j =
        if |S.entry i j - q * P.entry i j| < TOLERANCE then 0
        else S.entry i j - q * P.entry i j := fun i j => rfl
    have hvnn : ∀ i, i < n → ∀ j, j < n →
        0 ≤ S.entry i j - q * P.entry i j := by
      intro i hi j hj
      rcases hP01 i j with h0 | h1
      · rw [h0, mul_zero, sub_zero]
        exact hnn i hi j hj
      · rw [h1, mul_one, sub_nonneg]
        exact hq_le i hi j hj h1
    refine ⟨q, P, clamp (subtract_scaled S q P), ?_, hP01, hcov, hsub, hqpos,
      hq_le, hq_mem, rfl, rfl, rfl, ?_, ?_, ?_, ?_, ?_, ?_⟩
    · show decompStep n S = .ok (q, P, clamp (subtract_scaled S q P))
      unfold decompStep
      rw [hmm]
      show (match listMin (((indices n n).filter
            (fun p => decide (P.entry p.1 p.2 = 1))).map
            (fun p => S.entry p.1 p.2)) with
        | none => (.error .emptyMin : Except Err (ℚ × NMat × NMat))
        | some q => .ok (q, P, clamp (subtract_scaled S q P))) = _
      rw [hq]
    · intro i hi j hj
      rw [hS'e]
      by_cases habs : |S.entry i j - q * P.entry i j| < TOLERANCE
      · rw [if_pos habs]
        rw [abs_of_nonneg (hvnn i hi j hj)] at habs
        exact Or.inr ⟨rfl, hvnn i hi j hj, habs⟩
      · rw [if_neg habs]
        exact Or.inl rfl
    · intro i hi j hj
      rw [hS'e]
      by_cases habs : |S.entry i j - q * P.entry i j| < TOLERANCE
      · rw [if_pos habs]
      · rw [if_neg habs]
        exact hvnn i hi j hj
    · intro i hi j hj
      rw [hS'e]
      by_cases habs : |S.entry i j - q * P.entry i j| < TOLERANCE
      · rw [if_pos habs]
        exact hnn i hi j hj
      · rw [if_neg habs]
        refine sub_le_self _ ?_
        rcases hP01 i j with h0 | h1
        · rw [h0, mul_zero]
        · rw [h1, mul_one]
          exact le_of_lt hqpos
    · intro i hi j hj
      rw [hS'e]
      by_cases habs : |S.entry i j - q * P.entry i j| < TOLERANCE
      · rw [if_pos habs]
        exact Or.inl rfl
      · rw [if_neg habs]
        refine Or.inr ?_
        rw [abs_of_nonneg (hvnn i hi j hj)] at habs
        exact le_of_not_lt habs
    · intro i hi j hj hz
      have hP0 : P.entry i j = 0 := by
        rcases hP01 i j with h0 | h1
        · exact h0
        · exact absurd hz (hcov i j h1).2.2
      rw [hS'e, hz, hP0, mul_zero, sub_zero, abs_zero, if_pos TOLERANCE_pos]
    · obtain ⟨i, hi, j, hj, hP, hSq⟩ := hq_mem
      refine ⟨i, hi, j, hj, (hcov i j hP).2.2, ?_⟩
      rw [hS'e, hSq, hP, mul_one, sub_self, abs_zero, if_pos TOLERANCE_pos]

/-! ## The peeling loop -/

theorem reconSum_nil (i j : ℕ) : reconSum [] i j = 0 := rfl

theorem reconSum_cons (p : ℚ × NMat) (l : List (ℚ × NMat)) (i j : ℕ) :
    reconSum (p :: l) i j = p.1 * p.2.entry i j + reconSum l i j := by
  unfold reconSum
  rw [List.map_cons, List.sum_cons]

/-- The loop's termination measure: when zero entries are preserved and one
nonzero entry is newly zeroed, the nonzero count strictly drops. -/
theorem nonzeroCount_lt {n : ℕ} {S S' : NMat} (hr : S.rows = n) (hc : S.cols = n)
    (hr' : S'.rows = n) (hc' : S'.cols = n)
    (hzero : ∀ i, i < n → ∀ j, j < n → S.entry i j = 0 → S'.entry i j = 0)
    (hdec : ∃ i, i < n ∧ ∃ j, j < n ∧ S.entry i j ≠ 0 ∧ S'.entry i j = 0) :
    nonzeroCount S' < nonzeroCount S := by
  unfold nonzeroCount
  rw [hr, hc, hr', hc', ← List.countP_eq_length_filter,
    ← List.countP_eq_length_filter]
  obtain ⟨i, hi, j, hj, hne, hz⟩ := hdec
  refine countP_lt_of (indices n n) (indices_nodup _ _) (i, j)
    (mem_indices.mpr ⟨hi, hj⟩) _ _ ?_ ?_ ?_
  · simp [hz]
  · simp [hne]
  · intro p hp hpne
    rw [decide_eq_true_eq] at hpne ⊢
    obtain ⟨h1, h2⟩ := mem_indices.mp hp
    intro hcontra
    exact hpne (hzero p.1 h1 p.2 h2 hcontra)

theorem nonzeroCount_le (S : NMat) : nonzeroCount S ≤ S.rows * S.cols := by
  unfold nonzeroCount
  calc ((indices S.rows S.cols).filter _).length
      ≤ (indices S.rows S.cols).length := List.length_filter_le _ _
    _ = S.rows * S.cols := by
        unfold indices
        rw [List.length_flatMap]
        simp [List.map_map, Function.comp_def]

/-- The full behavior of the peeling loop on a square, nonnegative,
entrywise-bounded working matrix with sufficient fuel: it returns normally;
at most one pair per nonzero entry; every coefficient is in `(0, 1]` and
every matrix a partial permutation matrix; every entry is reconstructed to
within `TOLERANCE` (each entry is clamped at most once, just before it
reaches zero, and never touched again); entries that are zero are never
covered; on an already-clamped matrix every coefficient is at least
`TOLERANCE`, hence so is every coefficient after the first. -/
theorem decompLoop_spec (n : ℕ) : ∀ (f : ℕ) (st : DriverState),
    st.S.rows = n → st.S.cols = n →
    (∀ i, i < n → ∀ j, j < n → 0 ≤ st.S.entry i j) →
    (∀ i, i < n → ∀ j, j < n → st.S.entry i j ≤ 1) →
    nonzeroCount st.S < f →
    ∃ l st', decompLoop n f st = (.ok l, st') ∧
      l.length ≤ nonzeroCount st.S ∧
      (∀ p ∈ l, 0 < p.1 ∧ p.1 ≤ 1 ∧ IsSubPermMat n p.2) ∧
      (∀ i, i < n → ∀ j, j < n →
        |st.S.entry i j - reconSum l i j| < TOLERANCE) ∧
      (∀ i, i < n → ∀ j, j < n → st.S.entry i j = 0 → reconSum l i j = 0) ∧
      ((∀ i, i < n → ∀ j, j < n →
          st.S.entry i j = 0 ∨ TOLERANCE ≤ st.S.entry i j) →
        ∀ p ∈ l, TOLERANCE ≤ p.1) ∧
      (∀ p ∈ l.tail, TOLERANCE ≤ p.1) := by
  intro f
  induction f with
  | zero => intro st _ _ _ _ hm; omega
  | succ f ihf =>
      intro st hr hc hnn hle hm
      by_cases hz : isZero st.S = true
      · refine ⟨[], st, ?_, ?_, ?_, ?_, ?_, ?_, ?_⟩
        · unfold decompLoop
          rw [if_pos hz]
        · exact Nat.zero_le _
        · intro p hp
          cases hp
        · intro i hi j hj
          rw [reconSum_nil, (isZero_iff st.S).mp hz i (by omega) j (by omega),
            sub_zero, abs_zero]
          exact TOLERANCE_pos
        · intro i _ j _ _
          exact reconSum_nil i j
        · intro _ p hp
          cases hp
        · intro p hp
          cases hp
      · have hzf : isZero st.S = false := by
          rwa [Bool.not_eq_true] at hz
        have hnn' : ∀ i < st.S.rows, ∀ j < st.S.rows, 0 ≤ st.S.entry i j := by
          rw [hr]
          exact fun i hi j hj => hnn i hi j hj
        obtain ⟨q, P, S', hstep, hP01, hcov, hsub, hqpos, hqle, hqmem, hS'eq,
          hrS', hcS', hval, hnnS', hleS', hclS', hzS', hdecS'⟩ :=
          decompStep_spec st.S (by rw [hr, hc]) hnn' hzf
        rw [hr] at hstep hcov hsub hqle hqmem hval hnnS' hleS' hclS' hzS' hdecS'
        have hrows' : S'.rows = n := by rw [hrS', hr]
        have hcols' : S'.cols = n := by rw [hcS', hc]
        have hcount : nonzeroCount S' < nonzeroCount st.S :=
          nonzeroCount_lt hr hc hrows' hcols'
            (fun i hi j hj hz0 => hzS' i hi j hj hz0) hdecS'
        obtain ⟨l', st', hrec, hlen', hel', hrecon', hzrec', hcl', htl'⟩ :=
          ihf { st with S := S' } hrows' hcols'
            (fun i hi j hj => hnnS' i hi j hj)
            (fun i hi j hj => le_trans (hleS' i hi j hj) (hle i hi j hj))
            (by show nonzeroCount S' < f; omega)
        have hSproj : ({ st with S := S' } : DriverState).S = S' := rfl
        rw [hSproj] at hlen' hrecon' hzrec' hcl'
        have hloop : decompLoop n (f + 1) st = (.ok ((q, P) :: l'), st') := by
          unfold decompLoop
          rw [if_neg (by rw [hzf]; exact Bool.false_ne_true), hstep]
          show (match decompLoop n f { st with S := S' } with
            | (.ok l, st'') => (.ok ((q, P) :: l), st'')
            | r => r) = ((.ok ((q, P) :: l') : Except Err (List (ℚ × NMat))), st')
          rw [hrec]
        have hq1 : q ≤ 1 := by
          obtain ⟨i, hi, j, hj, hP1, hSq⟩ := hqmem
          rw [← hSq]
          exact hle i hi j hj
        refine ⟨(q, P) :: l', st', hloop, ?_, ?_, ?_, ?_, ?_, ?_⟩
        · rw [List.length_cons]
          omega
        · intro p hp
          rcases List.mem_cons.mp hp with rfl | hp'
          · exact ⟨hqpos, hq1, hsub⟩
          · exact hel' p hp'
        · intro i hi j hj
          rw [reconSum_cons]
          rcases hval i hi j hj with hL | ⟨hz0, hnn0, hlt0⟩
          · have heq : st.S.entry i j - (q * P.entry i j + reconSum l' i j) =
                S'.entry i j - reconSum l' i j := by
              rw [hL]
              ring
            rw [heq]
            exact hrecon' i hi j hj
          · have hzrec : reconSum l' i j = 0 := hzrec' i hi j hj hz0
            rw [hzrec, add_zero]
            rw [abs_of_nonneg hnn0]
            exact hlt0
        · intro i hi j hj hz0
          have hP0 : P.entry i j = 0 := by
            rcases hP01 i j with h0 | h1
            · exact h0
            · exact absurd hz0 (hcov i j h1).2.2
          rw [reconSum_cons, hP0, mul_zero, zero_add]
          exact hzrec' i hi j hj (hzS' i hi j hj hz0)
        · intro hclamp p hp
          rcases List.mem_cons.mp hp with rfl | hp'
          · obtain ⟨i, hi, j, hj, hP1, hSq⟩ := hqmem
            rcases hclamp i hi j hj with h0 | hT
            · exact absurd h0 (hcov i j hP1).2.2
            · rw [← hSq]
              exact hT
          · exact hcl' (fun i hi j hj => hclS' i hi j hj) p hp'
        · intro p hp
          exact hcl' (fun i hi j hj => hclS' i hi j hj) p hp

/-- Entries of a doubly stochastic matrix are at most 1 (each row is a
nonnegative list summing to 1). -/
theorem DS_entry_le_one {D : NMat} (hDS : DoublyStochastic D) :
    ∀ i, i < D.rows → ∀ j, j < D.cols → D.entry i j ≤ 1 := by
  obtain ⟨hsq, hnn, hrow, hcol⟩ := hDS
  intro i hi j hj
  have hmem : D.entry i j ∈ (List.range D.cols).map (D.entry i ·) :=
    List.mem_map.mpr ⟨j, List.mem_range.mpr hj, rfl⟩
  have hbound : D.entry i j ≤ ((List.range D.cols).map (D.entry i ·)).sum := by
    refine List.single_le_sum ?_ _ hmem
    intro x hx
    rcases List.mem_map.mp hx with ⟨j', hj', rfl⟩
    exact hnn i hi j' (List.mem_range.mp hj')
  calc D.entry i j ≤ rowSum D i := hbound
    _ = 1 := hrow i hi

theorem clamped_entry (S : NMat) (q : ℚ) (P : NMat) (i j : ℕ) :
    (clamp (subtract_scaled S q P)).entry i j =
      if |S.entry i j - q * P.entry i j| < TOLERANCE then 0
      else S.entry i j - q * P.entry i j := rfl

/-- One unfolding of the peeling loop on a nonzero working matrix. -/
theorem decompLoop_cons (n f : ℕ) (st : DriverState) (q : ℚ) (P S' : NMat)
    (hz : isZero st.S = false) (hstep : decompStep n st.S = .ok (q, P, S'))
    (l' : List (ℚ × NMat)) (st' : DriverState)
    (hrec : decompLoop n f { st with S := S' } = (.ok l', st')) :
    decompLoop n (f + 1) st = (.ok ((q, P) :: l'), st') := by
  unfold decompLoop
  rw [if_neg (by rw [hz]; exact Bool.false_ne_true), hstep]
  show (match decompLoop n f { st with S := S' } with
    | (Except.ok l, st'') =>
        ((Except.ok ((q, P) :: l) : Except Err (List (ℚ × NMat))), st'')
    | r => r) =
    ((Except.ok ((q, P) :: l') : Except Err (List (ℚ × NMat))), st')
  rw [hrec]

theorem sum_map_const (n : ℕ) (c : ℚ) :
    ((List.range n).map (fun _ => c)).sum = n * c := by
  induction n with
  | zero => simp
  | succ n ih =>
      rw [List.range_succ, List.map_append, List.sum_append, ih]
      push_cast
      simp
      ring

theorem list_range_sum (n : ℕ) (f : ℕ → ℚ) :
    ((List.range n).map f).sum = ∑ j ∈ Finset.range n, f j := by
  induction n with
  | zero => simp
  | succ n ih =>
      rw [List.range_succ, List.map_append, List.sum_append,
        Finset.sum_range_succ, ih]
      simp

theorem sum_map_single (n : ℕ) (f : ℕ → ℚ) (j0 : ℕ) (hj0 : j0 < n)
    (h1 : f j0 = 1) (h0 : ∀ j, j < n → j ≠ j0 → f j = 0) :
    ((List.range n).map f).sum = 1 := by
  rw [list_range_sum,
    Finset.sum_eq_single_of_mem j0 (Finset.mem_range.mpr hj0)
      (fun b hb hbne => h0 b (Finset.mem_range.mp hb) hbne)]
  exact h1

/-- Rows of a permutation matrix sum to 1. -/
theorem rowSum_perm {n : ℕ} {P : NMat} (h : IsPermMat n P) {i : ℕ}
    (hi : i < n) : rowSum P i = 1 := by
  obtain ⟨hr, hc, hrow, hcol⟩ := h
  obtain ⟨j0, hj0, h1, h0⟩ := hrow i hi
  unfold rowSum
  rw [hc]
  exact sum_map_single n _ j0 hj0 h1 (fun j hj hne => h0 j hj hne)

/-- Summing the reconstruction along row 0 gives the coefficient sum when
every matrix in the decomposition is a full permutation matrix. -/
theorem reconSum_row_total (n : ℕ) (hn : 0 < n) :
    ∀ (l : List (ℚ × NMat)), (∀ p ∈ l, IsPermMat n p.2) →
      ((List.range n).map (fun j => reconSum l 0 j)).sum = coeffSum l := by
  intro l
  induction l with
  | nil =>
      intro _
      rw [list_range_sum]
      simp [reconSum_nil, coeffSum]
  | cons p l ih =>
      intro hperm
      have hsplit : ((List.range n).map (fun j => reconSum (p :: l) 0 j)).sum =
          ((List.range n).map (fun j => p.1 * p.2.entry 0 j)).sum +
          ((List.range n).map (fun j => reconSum l 0 j)).sum := by
        rw [list_range_sum, list_range_sum, list_range_sum,
          ← Finset.sum_add_distrib]
        refine Finset.sum_congr rfl ?_
        intro j _
        rw [reconSum_cons]
      rw [hsplit, ih (fun p' hp' => hperm p' (List.mem_cons_of_mem _ hp'))]
      have hP := hperm p (List.mem_cons_self _ _)
      have hrow1 : ((List.range n).map (fun j => p.1 * p.2.entry 0 j)).sum =
          p.1 := by
        rw [list_range_sum, ← Finset.mul_sum, ← list_range_sum]
        have hrs : ((List.range n).map (fun j => p.2.entry 0 j)).sum =
            rowSum p.2 0 := by
          unfold rowSum
          rw [hP.2.1]
        rw [hrs, rowSum_perm hP hn, mul_one]
      rw [hrow1]
      show p.1 + coeffSum l = coeffSum (p :: l)
      unfold coeffSum
      rw [List.map_cons, List.sum_cons]

theorem abs_sum_lt (n : ℕ) (g : ℕ → ℚ) (ε : ℚ) (hn : 0 < n)
    (h : ∀ j, j < n → |g j| < ε) :
    |((List.range n).map g).sum| < n * ε := by
  rw [list_range_sum]
  calc |∑ j ∈ Finset.range n, g j| ≤ ∑ j ∈ Finset.range n, |g j| :=
        Finset.abs_sum_le_sum_abs _ _
    _ < ∑ _j ∈ Finset.range n, ε := by
        refine Finset.sum_lt_sum_of_nonempty ?_ ?_
        · exact Finset.nonempty_range_iff.mpr (Nat.pos_iff_ne_zero.mp hn)
        · intro j hj
          exact h j (Finset.mem_range.mp hj)
    _ = n * ε := by
        rw [Finset.sum_const, Finset.card_range, nsmul_eq_mul]

/-- A matrix whose row `i` holds no 1 inside the square is not a full
permutation matrix. -/
theorem not_isPermMat_row {n : ℕ} {P : NMat} {i : ℕ} (hi : i < n)
    (h : ∀ j, j < n → P.entry i j ≠ 1) : ¬ IsPermMat n P := by
  rintro ⟨-, -, hrow, -⟩
  obtain ⟨j, hj, h1, -⟩ := hrow i hi
  exact h j hj h1

/-- In a partial permutation matrix, a row with a 1 at `ji` is 0 at every
other column. -/
theorem subperm_row_zero {n : ℕ} {P : NMat}
    (hP01 : ∀ i j, P.entry i j = 0 ∨ P.entry i j = 1)
    (hrowu : ∀ i < n, ∀ j < n, ∀ j' < n,
      P.entry i j = 1 → P.entry i j' = 1 → j = j')
    {i ji : ℕ} (hi : i < n) (hji : ji < n) (hP1 : P.entry i ji = 1)
    {j : ℕ} (hj : j < n) (hne : j ≠ ji) : P.entry i j = 0 := by
  rcases hP01 i j with h0 | h1
  · exact h0
  · exact absurd (hrowu i hi j hj ji hji h1 hP1) hne

/-- C6: for every non-square input matrix, `birkhoff_von_neumann_decomposition`
raises the invalid-shape error before performing any iteration, returning no
partial result. -/
theorem C6_shape_error (D : NMat) (h : D.rows ≠ D.cols) :
    birkhoff_von_neumann_decomposition D = .error .shape := by
  simp [birkhoff_von_neumann_decomposition, h]

theorem C6_shape_error_witness :
    (NMat.mk 1 2 (fun _ _ => 1)).rows ≠ (NMat.mk 1 2 (fun _ _ => 1)).cols ∧
      birkhoff_von_neumann_decomposition (NMat.mk 1 2 (fun _ _ => 1)) = .error .shape :=
  ⟨by decide, C6_shape_error _ (by decide)⟩

/-- C7: the decomposition never mutates its input: the loop operates on the
private working copy `S` of the driver state, and after any number of
iterations, from any starting state, the `D` field — in particular every one
of its entries — is unchanged. -/
theorem C7_no_mutation (n f : ℕ) (st : DriverState) :
    ((decompLoop n f st).2).D = st.D ∧
      ∀ i j, ((decompLoop n f st).2).D.entry i j = st.D.entry i j := by
  refine ⟨decompLoop_preserves_D n f st, fun i j => ?_⟩
  rw [decompLoop_preserves_D n f st]

/-- C10: every all-zero square matrix (including the 0 × 0 matrix)
decomposes to the empty list without error: the loop guard is false on
entry, so no iteration (and in particular no matching computation) is ever
performed. -/
theorem C10_zero_matrix (D : NMat) (hsq : D.rows = D.cols)
    (hz : ∀ i < D.rows, ∀ j < D.cols, D.entry i j = 0) :
    birkhoff_von_neumann_decomposition D = .ok [] := by
  unfold birkhoff_von_neumann_decomposition
  rw [if_pos hsq]
  show (decompLoop D.rows (D.rows * D.rows + 1) ⟨D, D⟩).1 = .ok []
  unfold decompLoop
  rw [if_pos ((isZero_iff D).mpr hz)]

theorem C10_zero_matrix_witness :
    ((NMat.mk 0 0 (fun _ _ => 0)).rows = (NMat.mk 0 0 (fun _ _ => 0)).cols ∧
      (∀ i < (NMat.mk 0 0 (fun _ _ => 0)).rows,
        ∀ j < (NMat.mk 0 0 (fun _ _ => 0)).cols,
          (NMat.mk 0 0 (fun _ _ => 0)).entry i j = 0)) ∧
      birkhoff_von_neumann_decomposition (NMat.mk 0 0 (fun _ _ => 0)) = .ok [] :=
  ⟨⟨by decide, by decide⟩, C10_zero_matrix _ (by decide) (by decide)⟩

/-- C8: for every well-formed bipartite graph, `hopcroft_karp_matching`
returns (without error) a mapping that is symmetric (if `v ↦ w` then
`w ↦ v`), assigns each vertex at most one partner, matches only along
edges of the graph, gives no partner to any non-vertex, and on the empty
graph is the empty mapping. -/
theorem C8_output_contract (G : BipGraph V) (HWf : Wf G) :
    ∃ m, hopcroft_karp_matching G = some m ∧
      (∀ v w, m v = some w → m w = some v) ∧
      (∀ w v₁ v₂, m v₁ = some w → m v₂ = some w → v₁ = v₂) ∧
      (∀ v w, m v = some w → w ∈ G.adj v) ∧
      (∀ v, v ∉ G.left → v ∉ G.right → m v = none) ∧
      (G.left = [] → G.right = [] → m = fun _ => none) := by
  obtain ⟨σ', hrun, hInv, -, -, -, -⟩ := hk_run_spec G HWf
  refine ⟨stripCombine G σ', ?_, ?_, ?_, ?_, ?_, ?_⟩
  · unfold hopcroft_karp_matching
    rw [hrun]
    rfl
  · intro v w h
    exact stripCombine_symm G HWf hInv h
  · intro w v₁ v₂ h1 h2
    have hs1 := stripCombine_symm G HWf hInv h1
    have hs2 := stripCombine_symm G HWf hInv h2
    rw [hs1] at hs2
    exact Option.some_inj.mp hs2
  · intro v w h
    exact stripCombine_edge G HWf hInv h
  · intro v hl hr
    exact stripCombine_out G σ' hl hr
  · intro hle hre
    funext v
    exact stripCombine_out G σ' (by rw [hle]; exact List.not_mem_nil v)
      (by rw [hre]; exact List.not_mem_nil v)

theorem C8_output_contract_witness :
    ∃ m, hopcroft_karp_matching
        (⟨[0], [1], fun v => if v = 0 then [1] else
          if v = 1 then [0] else []⟩ : BipGraph ℕ) = some m ∧
      (∀ v w, m v = some w → m w = some v) ∧
      (∀ w v₁ v₂, m v₁ = some w → m v₂ = some w → v₁ = v₂) ∧
      (∀ v w, m v = some w →
        w ∈ (if v = 0 then [1] else if v = 1 then [0] else [])) ∧
      (∀ v, v ∉ [0] → v ∉ [1] → m v = none) ∧
      (([0] : List ℕ) = [] → ([1] : List ℕ) = [] → m = fun _ => none) :=
  C8_output_contract
    (⟨[0], [1], fun v => if v = 0 then [1] else if v = 1 then [0] else []⟩ :
      BipGraph ℕ)
    ⟨by decide, by decide, by decide, by decide, by decide, by decide,
      by decide⟩

/-- C3: for every well-formed bipartite graph, `hopcroft_karp_matching`
returns a maximum-cardinality matching: no augmenting walk starts at any
unmatched left vertex, the returned dictionary does hold a genuine matching
of its stated size, and no matching of the graph is larger. -/
theorem C3_maximum_matching (G : BipGraph V) (HWf : Wf G) :
    ∃ m, hopcroft_karp_matching G = some m ∧
      (∀ v ∈ G.left, m v = none → ¬ AugWalk G m v) ∧
      (∃ M₀, IsMatchingFinset G M₀ ∧ M₀.card = mCard G m) ∧
      ∀ M, IsMatchingFinset G M → M.card ≤ mCard G m := by
  obtain ⟨σ', hrun, hInv, hprov, hdn, hd0, hsc⟩ := hk_run_spec G HWf
  refine ⟨stripCombine G σ', ?_, ?_, ?_, ?_⟩
  · unfold hopcroft_karp_matching
    rw [hrun]
    rfl
  · intro v hvl hmv hW
    have hlm : σ'.lm v = none := by
      rw [← stripCombine_left G σ' hvl]
      exact hmv
    have hdv : σ'.dist (some v) ≠ .inf := by
      rw [hd0 v hvl hlm]
      exact fun hco => nomatch hco
    exact final_no_augwalk G HWf hInv hdn hsc v hW hvl hdv
  · refine ⟨matchedPairs G σ', (matchedPairs_spec G HWf hInv).1, ?_⟩
    rw [(matchedPairs_spec G HWf hInv).2, mCard_stripCombine]
  · intro M hM
    have h1 := matching_le_cover G HWf hsc M hM
    have h2 := cover_card_le_matched G HWf hInv hdn hd0
    rw [mCard_stripCombine]
    omega

theorem C3_maximum_matching_witness :
    ∃ m, hopcroft_karp_matching
        (⟨[0, 1], [2, 3], fun v =>
          if v = 0 then [2, 3] else if v = 1 then [2] else
          if v = 2 then [0, 1] else if v = 3 then [0] else []⟩ :
            BipGraph ℕ) = some m ∧
      (∀ v ∈ [0, 1], m v = none → ¬ AugWalk
        (⟨[0, 1], [2, 3], fun v =>
          if v = 0 then [2, 3] else if v = 1 then [2] else
          if v = 2 then [0, 1] else if v = 3 then [0] else []⟩ :
            BipGraph ℕ) m v) ∧
      (∃ M₀, IsMatchingFinset
        (⟨[0, 1], [2, 3], fun v =>
          if v = 0 then [2, 3] else if v = 1 then [2] else
          if v = 2 then [0, 1] else if v = 3 then [0] else []⟩ :
            BipGraph ℕ) M₀ ∧
        M₀.card = mCard
          (⟨[0, 1], [2, 3], fun v =>
            if v = 0 then [2, 3] else if v = 1 then [2] else
            if v = 2 then [0, 1] else if v = 3 then [0] else []⟩ :
              BipGraph ℕ) m) ∧
      ∀ M, IsMatchingFinset
        (⟨[0, 1], [2, 3], fun v =>
          if v = 0 then [2, 3] else if v = 1 then [2] else
          if v = 2 then [0, 1] else if v = 3 then [0] else []⟩ :
            BipGraph ℕ) M →
        M.card ≤ mCard
          (⟨[0, 1], [2, 3], fun v =>
            if v = 0 then [2, 3] else if v = 1 then [2] else
            if v = 2 then [0, 1] else if v = 3 then [0] else []⟩ :
              BipGraph ℕ) m :=
  C3_maximum_matching
    (⟨[0, 1], [2, 3], fun v =>
      if v = 0 then [2, 3] else if v = 1 then [2] else
      if v = 2 then [0, 1] else if v = 3 then [0] else []⟩ : BipGraph ℕ)
    ⟨by decide, by decide, by decide, by decide, by decide, by decide,
      by decide⟩

/-- C1: for every square doubly stochastic input matrix `D`, the
decomposition returns normally and the weighted sum of its permutation
matrices reconstructs every entry of `D` to within `TOLERANCE` (each entry
is clamped at most once in its lifetime — just before it reaches zero —
and the discarded amount is smaller than `TOLERANCE`). -/
theorem C1_reconstruction (D : NMat) (hDS : DoublyStochastic D) :
    ∃ l, birkhoff_von_neumann_decomposition D = .ok l ∧
      ∀ i, i < D.rows → ∀ j, j < D.cols →
        |D.entry i j - reconSum l i j| < TOLERANCE := by
  obtain ⟨hsq, hnn, hrow, hcol⟩ := hDS
  have hle := DS_entry_le_one ⟨hsq, hnn, hrow, hcol⟩
  have hfuel : nonzeroCount D < D.rows * D.rows + 1 := by
    have h1 := nonzeroCount_le D
    rw [← hsq] at h1
    omega
  obtain ⟨l, st', hloop, hlen, hel, hrecon, hzrec, hcl, htl⟩ :=
    decompLoop_spec D.rows (D.rows * D.rows + 1) ⟨D, D⟩ rfl hsq.symm
      (fun i hi j hj => hnn i hi j (by rw [← hsq]; exact hj))
      (fun i hi j hj => hle i hi j (by rw [← hsq]; exact hj))
      hfuel
  refine ⟨l, ?_, ?_⟩
  · unfold birkhoff_von_neumann_decomposition
    rw [if_pos hsq]
    rw [show decompLoop D.rows (D.rows * D.rows + 1) ⟨D, D⟩ =
      (.ok l, st') from hloop]
  · intro i hi j hj
    exact hrecon i hi j (by rw [hsq]; exact hj)

theorem C1_reconstruction_witness :
    ∃ l, birkhoff_von_neumann_decomposition
        (NMat.mk 2 2 (fun i j => if i = j then 1 else 0)) = .ok l ∧
      ∀ i, i < (NMat.mk 2 2 (fun i j => if i = j then 1 else 0)).rows →
        ∀ j, j < (NMat.mk 2 2 (fun i j => if i = j then 1 else 0)).cols →
          |(NMat.mk 2 2 (fun i j => if i = j then 1 else 0)).entry i j -
            reconSum l i j| < TOLERANCE :=
  C1_reconstruction (NMat.mk 2 2 (fun i j => if i = j then 1 else 0))
    ⟨rfl,
      by
        intro i hi j hj
        have hi2 : i < 2 := hi
        have hj2 : j < 2 := hj
        interval_cases i <;> interval_cases j <;> simp,
      by
        intro i hi
        have hi2 : i < 2 := hi
        interval_cases i <;> simp [rowSum, List.range_succ],
      by
        intro j hj
        have hj2 : j < 2 := hj
        interval_cases j <;> simp [colSum, List.range_succ]⟩

/-- C2: the peeling loop terminates on every square doubly stochastic
input: each iteration of the loop body (on a square, nonnegative, nonzero
working matrix) strictly decreases the number of nonzero entries and keeps
every entry nonnegative, so the whole decomposition returns normally with
at most `n²` pairs. -/
theorem C2_termination (D : NMat) (hDS : DoublyStochastic D) :
    (∀ S, S.rows = D.rows → S.cols = D.rows →
      (∀ i, i < D.rows → ∀ j, j < D.rows → 0 ≤ S.entry i j) →
      isZero S = false →
      ∃ q P S', decompStep D.rows S = .ok (q, P, S') ∧
        nonzeroCount S' < nonzeroCount S ∧
        (∀ i, i < D.rows → ∀ j, j < D.rows → 0 ≤ S'.entry i j)) ∧
    ∃ l, birkhoff_von_neumann_decomposition D = .ok l ∧
      l.length ≤ D.rows * D.rows := by
  obtain ⟨hsq, hnn, hrow, hcol⟩ := hDS
  have hle := DS_entry_le_one ⟨hsq, hnn, hrow, hcol⟩
  constructor
  · intro S h1 h2 h3 h4
    obtain ⟨q, P, S', hstep, hP01, hcov, hsub, hqpos, hqle, hqmem, hS'eq,
      hrS', hcS', hval, hnnS', hleS', hclS', hzS', hdecS'⟩ :=
      decompStep_spec S (h2.trans h1.symm)
        (by rw [h1]; exact h3) h4
    rw [h1] at hstep hzS' hdecS' hnnS'
    refine ⟨q, P, S', hstep, ?_, hnnS'⟩
    exact nonzeroCount_lt h1 h2 (by rw [hrS', h1]) (by rw [hcS', h2])
      hzS' hdecS'
  · have hfuel : nonzeroCount D < D.rows * D.rows + 1 := by
      have h1 := nonzeroCount_le D
      rw [← hsq] at h1
      omega
    obtain ⟨l, st', hloop, hlen, hel, hrecon, hzrec, hcl, htl⟩ :=
      decompLoop_spec D.rows (D.rows * D.rows + 1) ⟨D, D⟩ rfl hsq.symm
        (fun i hi j hj => hnn i hi j (by rw [← hsq]; exact hj))
        (fun i hi j hj => hle i hi j (by rw [← hsq]; exact hj))
        hfuel
    refine ⟨l, ?_, ?_⟩
    · unfold birkhoff_von_neumann_decomposition
      rw [if_pos hsq]
      rw [show decompLoop D.rows (D.rows * D.rows + 1) ⟨D, D⟩ =
        (.ok l, st') from hloop]
    · have h2 : nonzeroCount (DriverState.mk D D).S ≤ D.rows * D.rows := by
        show nonzeroCount D ≤ D.rows * D.rows
        have h1 := nonzeroCount_le D
        rw [← hsq] at h1
        exact h1
      omega

theorem C2_termination_witness :
    (∀ S, S.rows = (NMat.mk 2 2 (fun i j => if i = j then 1 else 0)).rows →
      S.cols = (NMat.mk 2 2 (fun i j => if i = j then 1 else 0)).rows →
      (∀ i, i < (NMat.mk 2 2 (fun i j => if i = j then 1 else 0)).rows →
        ∀ j, j < (NMat.mk 2 2 (fun i j => if i = j then 1 else 0)).rows →
          0 ≤ S.entry i j) →
      isZero S = false →
      ∃ q P S', decompStep
          (NMat.mk 2 2 (fun i j => if i = j then 1 else 0)).rows S =
            .ok (q, P, S') ∧
        nonzeroCount S' < nonzeroCount S ∧
        (∀ i, i < (NMat.mk 2 2 (fun i j => if i = j then 1 else 0)).rows →
          ∀ j, j < (NMat.mk 2 2 (fun i j => if i = j then 1 else 0)).rows →
            0 ≤ S'.entry i j)) ∧
    ∃ l, birkhoff_von_neumann_decomposition
        (NMat.mk 2 2 (fun i j => if i = j then 1 else 0)) = .ok l ∧
      l.length ≤ (NMat.mk 2 2 (fun i j => if i = j then 1 else 0)).rows *
        (NMat.mk 2 2 (fun i j => if i = j then 1 else 0)).rows :=
  C2_termination (NMat.mk 2 2 (fun i j => if i = j then 1 else 0))
    ⟨rfl,
      by
        intro i hi j hj
        have hi2 : i < 2 := hi
        have hj2 : j < 2 := hj
        interval_cases i <;> interval_cases j <;> simp,
      by
        intro i hi
        have hi2 : i < 2 := hi
        interval_cases i <;> simp [rowSum, List.range_succ],
      by
        intro j hj
        have hj2 : j < 2 := hj
        interval_cases j <;> simp [colSum, List.range_succ]⟩

/-- C9 (amended): after every clamping step each entry of the working
matrix is 0 or at least `TOLERANCE` in absolute value; consequently every
coefficient after the first is at least `TOLERANCE`, and every coefficient
(including the first) is strictly positive.  The first iteration runs on
the unclamped input, so its coefficient need not reach `TOLERANCE`. -/
theorem C9_invariant_after_clamp (D : NMat) (hDS : DoublyStochastic D) :
    (∀ X : NMat, ∀ i j,
      (clamp X).entry i j = 0 ∨ TOLERANCE ≤ |(clamp X).entry i j|) ∧
    ∃ l, birkhoff_von_neumann_decomposition D = .ok l ∧
      (∀ p ∈ l, 0 < p.1) ∧
      (∀ p ∈ l.tail, TOLERANCE ≤ p.1) := by
  constructor
  · intro X i j
    show (if |X.entry i j| < TOLERANCE then 0 else X.entry i j) = 0 ∨
      TOLERANCE ≤ |(if |X.entry i j| < TOLERANCE then 0 else X.entry i j)|
    by_cases h : |X.entry i j| < TOLERANCE
    · rw [if_pos h]
      exact Or.inl rfl
    · rw [if_neg h]
      exact Or.inr (le_of_not_lt h)
  · obtain ⟨hsq, hnn, hrow, hcol⟩ := hDS
    have hle := DS_entry_le_one ⟨hsq, hnn, hrow, hcol⟩
    have hfuel : nonzeroCount D < D.rows * D.rows + 1 := by
      have h1 := nonzeroCount_le D
      rw [← hsq] at h1
      omega
    obtain ⟨l, st', hloop, hlen, hel, hrecon, hzrec, hcl, htl⟩ :=
      decompLoop_spec D.rows (D.rows * D.rows + 1) ⟨D, D⟩ rfl hsq.symm
        (fun i hi j hj => hnn i hi j (by rw [← hsq]; exact hj))
        (fun i hi j hj => hle i hi j (by rw [← hsq]; exact hj))
        hfuel
    refine ⟨l, ?_, ?_, htl⟩
    · unfold birkhoff_von_neumann_decomposition
      rw [if_pos hsq]
      rw [show decompLoop D.rows (D.rows * D.rows + 1) ⟨D, D⟩ =
        (.ok l, st') from hloop]
    · intro p hp
      exact (hel p hp).1

theorem C9_invariant_after_clamp_witness :
    (∀ X : NMat, ∀ i j,
      (clamp X).entry i j = 0 ∨ TOLERANCE ≤ |(clamp X).entry i j|) ∧
    ∃ l, birkhoff_von_neumann_decomposition
        (NMat.mk 2 2 (fun i j => if i = j then 1 else 0)) = .ok l ∧
      (∀ p ∈ l, 0 < p.1) ∧
      (∀ p ∈ l.tail, TOLERANCE ≤ p.1) :=
  C9_invariant_after_clamp (NMat.mk 2 2 (fun i j => if i = j then 1 else 0))
    ⟨rfl,
      by
        intro i hi j hj
        have hi2 : i < 2 := hi
        have hj2 : j < 2 := hj
        interval_cases i <;> interval_cases j <;> simp,
      by
        intro i hi
        have hi2 : i < 2 := hi
        interval_cases i <;> simp [rowSum, List.range_succ],
      by
        intro j hj
        have hj2 : j < 2 := hj
        interval_cases j <;> simp [colSum, List.range_succ]⟩

/-- C9 (counterexample to the frozen claim): the working matrix at the
start of the FIRST iteration is the unclamped input, which may hold entries
strictly between 0 and `TOLERANCE`; on such an input the first appended
coefficient is itself strictly below `TOLERANCE`.  Witnessed by the
`2^53 × 2^53` doubly stochastic matrix all of whose entries are
`2^(-53) < TOLERANCE`. -/
theorem C9_counterexample :
    DoublyStochastic (NMat.mk (2 ^ 53) (2 ^ 53) (fun _ _ => 1 / 2 ^ 53)) ∧
    (∀ i j, 0 < (NMat.mk (2 ^ 53) (2 ^ 53)
        (fun _ _ => (1 : ℚ) / 2 ^ 53)).entry i j ∧
      (NMat.mk (2 ^ 53) (2 ^ 53)
        (fun _ _ => (1 : ℚ) / 2 ^ 53)).entry i j < TOLERANCE) ∧
    ∃ l, birkhoff_von_neumann_decomposition
        (NMat.mk (2 ^ 53) (2 ^ 53) (fun _ _ => 1 / 2 ^ 53)) = .ok l ∧
      ∃ p ∈ l, 0 < p.1 ∧ p.1 < TOLERANCE := by
  have hDS : DoublyStochastic
      (NMat.mk (2 ^ 53) (2 ^ 53) (fun _ _ => 1 / 2 ^ 53)) := by
    refine ⟨rfl, ?_, ?_, ?_⟩
    · intro i _ j _
      norm_num
    · intro i _
      show ((List.range (2 ^ 53)).map (fun _ => (1 : ℚ) / 2 ^ 53)).sum = 1
      rw [sum_map_const]
      norm_num
    · intro j _
      show ((List.range (2 ^ 53)).map (fun _ => (1 : ℚ) / 2 ^ 53)).sum = 1
      rw [sum_map_const]
      norm_num
  refine ⟨hDS, ?_, ?_⟩
  · intro i j
    constructor
    · norm_num
    · norm_num [TOLERANCE]
  · obtain ⟨hsq, hnn, hrow, hcol⟩ := hDS
    set D := NMat.mk (2 ^ 53) (2 ^ 53) (fun _ _ => (1 : ℚ) / 2 ^ 53) with hD
    have hz : isZero D = false := by
      cases hb : isZero D
      · rfl
      · exfalso
        have h0 := (isZero_iff D).mp hb 0 (by norm_num) 0 (by norm_num)
        have h0' : (1 : ℚ) / 2 ^ 53 = 0 := h0
        norm_num at h0'
    obtain ⟨q, P, S', hstep, hP01, hcov, hsub, hqpos, hqle, hqmem, hS'eq,
      hrS', hcS', hval, hnnS', hleS', hclS', hzS', hdecS'⟩ :=
      decompStep_spec D rfl (fun i _ j _ => by norm_num) hz
    obtain ⟨i, hi, j, hj, hP1, hSq⟩ := hqmem
    have hqval : q = 1 / 2 ^ 53 := by
      rw [← hSq]
    have hle : ∀ i, i < D.rows → ∀ j, j < D.rows → D.entry i j ≤ 1 :=
      fun i _ j _ => by norm_num
    have hcount : nonzeroCount S' < nonzeroCount D :=
      nonzeroCount_lt rfl rfl hrS' hcS' hzS' hdecS'
    have hcountD : nonzeroCount D ≤ D.rows * D.rows := by
      have h1 := nonzeroCount_le D
      exact h1
    obtain ⟨l', st', hrec, hlen', hel', hrecon', hzrec', hcl', htl'⟩ :=
      decompLoop_spec D.rows (D.rows * D.rows) ⟨D, S'⟩ hrS' hcS'
        (fun i2 hi2 j2 hj2 => hnnS' i2 hi2 j2 hj2)
        (fun i2 hi2 j2 hj2 =>
          le_trans (hleS' i2 hi2 j2 hj2) (hle i2 hi2 j2 hj2))
        (by show nonzeroCount S' < D.rows * D.rows; omega)
    have hloop : decompLoop D.rows (D.rows * D.rows + 1) ⟨D, D⟩ =
        (.ok ((q, P) :: l'), st') := by
      refine decompLoop_cons D.rows (D.rows * D.rows) ⟨D, D⟩ q P S' hz ?_ l' st' hrec
      exact hstep
    refine ⟨(q, P) :: l', ?_, (q, P), List.mem_cons_self _ _, hqpos, ?_⟩
    · unfold birkhoff_von_neumann_decomposition
      rw [if_pos rfl]
      rw [show decompLoop D.rows (D.rows * D.rows + 1) ⟨D, D⟩ =
        (.ok ((q, P) :: l'), st') from hloop]
    · rw [hqval]
      norm_num [TOLERANCE]

theorem filter_length_lt {α : Type} (p : α → Bool) :
    ∀ (l : List α) (x : α), x ∈ l → p x = false →
      (l.filter p).length < l.length := by
  intro l
  induction l with
  | nil =>
      intro x hx
      cases hx
  | cons a t ih =>
      intro x hx hpx
      rcases List.mem_cons.mp hx with rfl | hxt
      · rw [List.filter_cons, hpx]
        simp only [Bool.false_eq_true, if_false, List.length_cons]
        exact Nat.lt_succ_of_le (List.length_filter_le p t)
      · rw [List.filter_cons]
        by_cases hpa : p a = true
        · rw [if_pos hpa]
          simp only [List.length_cons]
          exact Nat.succ_lt_succ (ih x hxt hpx)
        · rw [if_neg hpa]
          simp only [List.length_cons]
          exact Nat.lt_succ_of_lt (ih x hxt hpx)

/-- The peeling loop on an all-zero working matrix returns the empty list
at once (`while not np.all(S == 0)` is skipped). -/
theorem decompLoop_zero (n f : ℕ) (st : DriverState)
    (hz : isZero st.S = true) :
    decompLoop n (f + 1) st = (.ok [], st) := by
  unfold decompLoop
  rw [if_pos hz]

/-- A partial permutation matrix with a 1 in every row is a full
permutation matrix (the row 1s occupy distinct columns, and by counting
they exhaust all columns). -/
theorem isPermMat_of_subperm_full {n : ℕ} {P : NMat}
    (hsub : IsSubPermMat n P)
    (hfull : ∀ i, i < n → ∃ j, j < n ∧ P.entry i j = 1) :
    IsPermMat n P := by
  obtain ⟨hr, hc, h01, hrowu, hcolu⟩ := hsub
  have hf : ∀ i : Fin n, ∃ j : Fin n, P.entry i j = 1 := by
    intro i
    obtain ⟨j, hj, h1⟩ := hfull i i.isLt
    exact ⟨⟨j, hj⟩, h1⟩
  choose f hfP using hf
  have hinj : Function.Injective f := by
    intro a b hab
    have h2 : P.entry b (f a) = 1 := by
      rw [hab]
      exact hfP b
    exact Fin.ext (hcolu (f a) (f a).isLt a a.isLt b b.isLt (hfP a) h2)
  have hsurj : Function.Surjective f := Finite.surjective_of_injective hinj
  refine ⟨hr, hc, ?_, ?_⟩
  · intro i hi
    refine ⟨f ⟨i, hi⟩, (f ⟨i, hi⟩).isLt, hfP ⟨i, hi⟩, ?_⟩
    intro j' hj' hne
    rcases h01 i hi j' hj' with h0 | h1
    · exact h0
    · exact absurd (hrowu i hi j' hj' (f ⟨i, hi⟩) (f ⟨i, hi⟩).isLt h1
        (hfP ⟨i, hi⟩)) hne
  · intro j hj
    obtain ⟨i, hfi⟩ := hsurj ⟨j, hj⟩
    have hij : P.entry i j = 1 := by
      have h1 := hfP i
      rw [hfi] at h1
      exact h1
    refine ⟨i, i.isLt, hij, ?_⟩
    intro i' hi' hne
    rcases h01 i' hi' j hj with h0 | h1
    · exact h0
    · exact absurd (hcolu j hj i' hi' i i.isLt h1 hij) hne

/-- If the pattern graph of `S` admits a matching covering all `S.rows`
left vertices, then the permutation matrix computed by `decompStep` covers
every row: Hopcroft–Karp returns a maximum matching, so every left vertex
is matched. -/
theorem decompStep_full (S : NMat) (hsq : S.cols = S.rows)
    (q : ℚ) (P S' : NMat) (hstep : decompStep S.rows S = .ok (q, P, S'))
    (M : Finset (ℕ × ℕ)) (hM : IsMatchingFinset (graphOf S) M)
    (hcard : M.card = S.rows) :
    ∀ i, i < S.rows → ∃ j, j < S.rows ∧ P.entry i j = 1 := by
  obtain ⟨σ, hrun, hInv, hmax⟩ := hk_max (graphOf S) (graphOf_wf S hsq)
  obtain ⟨g1, g2, g3, g4⟩ := hInv
  have hmm : hopcroft_karp_matching (graphOf S) =
      some (stripCombine (graphOf S) σ) := by
    unfold hopcroft_karp_matching
    rw [hrun]
    rfl
  set n := S.rows with hn
  set mm := stripCombine (graphOf S) σ with hmmdef
  set Mf : ℕ → Option ℕ :=
    fun u => if u < n then (mm u).map (fun v => v % n) else none with hMfdef
  set P0 := to_permutation_matrix n Mf with hP0def
  unfold decompStep at hstep
  rw [hmm] at hstep
  have hstep2 : (match listMin (((indices n n).filter
        (fun p => decide (P0.entry p.1 p.2 = 1))).map
        (fun p => S.entry p.1 p.2)) with
      | none => (.error .emptyMin : Except Err (ℚ × NMat × NMat))
      | some q0 => .ok (q0, P0, clamp (subtract_scaled S q0 P0))) =
      .ok (q, P, S') := hstep
  have hPP0 : P = P0 := by
    rcases hLM : listMin (((indices n n).filter
        (fun p => decide (P0.entry p.1 p.2 = 1))).map
        (fun p => S.entry p.1 p.2)) with _ | q0
    · rw [hLM] at hstep2
      cases hstep2
    · rw [hLM] at hstep2
      injection hstep2 with h
      injection h with hq h2
      injection h2 with hP hS
      exact hP.symm
  have hleftlen : (graphOf S).left.length = n := by
    show (List.range n).length = n
    exact List.length_range n
  have hclen : matchedCard (graphOf S) σ = n := by
    have h1 := hmax M hM
    have h2 : matchedCard (graphOf S) σ ≤ n := by
      unfold matchedCard
      calc ((graphOf S).left.filter (fun v => σ.lm v ≠ none)).length
          ≤ (graphOf S).left.length := List.length_filter_le _ _
        _ = n := hleftlen
    omega
  have hall : ∀ u, u ∈ (graphOf S).left → σ.lm u ≠ none := by
    intro u hu
    rcases hlmu : σ.lm u with _ | w
    · exfalso
      have hpf : (fun v => decide (σ.lm v ≠ none)) u = false := by
        simp [hlmu]
      have hlt := filter_length_lt (fun v => decide (σ.lm v ≠ none))
        (graphOf S).left u hu hpf
      have hmc : matchedCard (graphOf S) σ < n := by
        unfold matchedCard
        calc ((graphOf S).left.filter (fun v => σ.lm v ≠ none)).length
            < (graphOf S).left.length := hlt
          _ = n := hleftlen
      omega
    · intro hc
      cases hc
  subst hPP0
  intro i hi
  have hil : i ∈ (graphOf S).left := (mem_graphOf_left S i).mpr hi
  have hne := hall i hil
  rcases hlmi : σ.lm i with _ | w
  · exact absurd hlmi hne
  · obtain ⟨j, hj, hw⟩ := (mem_graphOf_right S w).mp (g3 i w hlmi).2.1
    refine ⟨j, hj, ?_⟩
    have hMu : Mf i = (σ.lm i).map (fun x => x % n) := by
      rw [hMfdef]
      simp only [if_pos hi]
      rw [hmmdef, stripCombine_left _ _ hil]
    have hcond : Mf i = some j := by
      rw [hMu, hlmi, hw]
      show some ((n + j) % n) = some j
      rw [Nat.add_mod_left, Nat.mod_eq_of_lt hj]
    rw [hP0def, to_permutation_matrix_entry, if_pos hcond]

/-- helper for the C5 counterexample: from a diagonal working matrix whose
entries all lie within `TOLERANCE` above their minimum `m`, the loop peels
exactly one more pair, with coefficient `m` and a full permutation matrix,
and stops. -/
theorem C5_level2 (D0 S1 : NMat) (a0 a1 a2 m : ℚ)
    (hrS1 : S1.rows = 3) (hcS1 : S1.cols = 3)
    (hnnS1 : ∀ i, i < 3 → ∀ j, j < 3 → 0 ≤ S1.entry i j)
    (s00 : S1.entry 0 0 = a0) (s11 : S1.entry 1 1 = a1)
    (s22 : S1.entry 2 2 = a2)
    (s01 : S1.entry 0 1 = 0) (s02 : S1.entry 0 2 = 0)
    (s10 : S1.entry 1 0 = 0) (s12 : S1.entry 1 2 = 0)
    (s20 : S1.entry 2 0 = 0) (s21 : S1.entry 2 1 = 0)
    (hm0 : m ≤ a0) (hm1 : m ≤ a1) (hm2 : m ≤ a2)
    (hmem : m = a0 ∨ m = a1 ∨ m = a2)
    (hr0 : a0 - m < TOLERANCE) (hr1 : a1 - m < TOLERANCE)
    (hr2 : a2 - m < TOLERANCE)
    (hp0 : 0 < a0) (hp1 : 0 < a1) (hp2 : 0 < a2) :
    ∃ q2 P2 st', decompLoop 3 9 (⟨D0, S1⟩ : DriverState) =
      (.ok [(q2, P2)], st') ∧ q2 = m ∧ IsPermMat 3 P2 := by
  have hsq1 : S1.cols = S1.rows := by rw [hcS1, hrS1]
  have hz1 : isZero S1 = false := by
    cases hb : isZero S1
    · rfl
    · exfalso
      have h0 := (isZero_iff S1).mp hb 0 (by rw [hrS1]; norm_num)
        0 (by rw [hcS1]; norm_num)
      rw [s00] at h0
      exact absurd h0 (ne_of_gt hp0)
  obtain ⟨q2, P2, S2, hstep2, hP012, hcov2, hsub2, hq2pos, hq2le, hq2mem,
    hS2eq, hrS2, hcS2, hval2, hnnS2, hleS2, hclS2, hzS2, hdecS2⟩ :=
    decompStep_spec S1 hsq1 (by rw [hrS1]; exact hnnS1) hz1
  -- the pattern of S1 admits the full diagonal matching
  have hmem3 : ∀ p ∈ ({(0, 3), (1, 4), (2, 5)} : Finset (ℕ × ℕ)),
      p = (0, 3) ∨ p = (1, 4) ∨ p = (2, 5) := by
    intro p hp
    simpa using hp
  have hM1 : IsMatchingFinset (graphOf S1)
      ({(0, 3), (1, 4), (2, 5)} : Finset (ℕ × ℕ)) := by
    refine ⟨?_, ?_, ?_⟩
    · intro p hp
      have h3 : (3 : ℕ) = S1.rows + 0 := by rw [hrS1]
      have h4 : (4 : ℕ) = S1.rows + 1 := by rw [hrS1]
      have h5 : (5 : ℕ) = S1.rows + 2 := by rw [hrS1]
      rcases hmem3 p hp with rfl | rfl | rfl
      · refine ⟨(mem_graphOf_left S1 0).mpr (by rw [hrS1]; norm_num),
          (mem_graphOf_right S1 3).mpr ⟨0, by rw [hrS1]; norm_num, h3⟩, ?_⟩
        show (3 : ℕ) ∈ (graphOf S1).adj 0
        rw [h3]
        exact (adj_graphOf_edge S1 hsq1 (by rw [hrS1]; norm_num)
          (by rw [hrS1]; norm_num)).mpr (by rw [s00]; exact ne_of_gt hp0)
      · refine ⟨(mem_graphOf_left S1 1).mpr (by rw [hrS1]; norm_num),
          (mem_graphOf_right S1 4).mpr ⟨1, by rw [hrS1]; norm_num, h4⟩, ?_⟩
        show (4 : ℕ) ∈ (graphOf S1).adj 1
        rw [h4]
        exact (adj_graphOf_edge S1 hsq1 (by rw [hrS1]; norm_num)
          (by rw [hrS1]; norm_num)).mpr (by rw [s11]; exact ne_of_gt hp1)
      · refine ⟨(mem_graphOf_left S1 2).mpr (by rw [hrS1]; norm_num),
          (mem_graphOf_right S1 5).mpr ⟨2, by rw [hrS1]; norm_num, h5⟩, ?_⟩
        show (5 : ℕ) ∈ (graphOf S1).adj 2
        rw [h5]
        exact (adj_graphOf_edge S1 hsq1 (by rw [hrS1]; norm_num)
          (by rw [hrS1]; norm_num)).mpr (by rw [s22]; exact ne_of_gt hp2)
    · intro p hp p' hp' hfst
      rcases hmem3 p hp with rfl | rfl | rfl <;>
        rcases hmem3 p' hp' with rfl | rfl | rfl <;>
        first
          | rfl
          | exact absurd hfst (by decide)
    · intro p hp p' hp' hsnd
      rcases hmem3 p hp with rfl | rfl | rfl <;>
        rcases hmem3 p' hp' with rfl | rfl | rfl <;>
        first
          | rfl
          | exact absurd hsnd (by decide)
  have hfull2 := decompStep_full S1 hsq1 q2 P2 S2 hstep2
    ({(0, 3), (1, 4), (2, 5)} : Finset (ℕ × ℕ)) hM1 (by rw [hrS1]; decide)
  rw [hrS1] at hstep2 hcov2 hsub2 hq2le hq2mem hrS2 hnnS2 hleS2 hfull2
  have hrS2' : S2.rows = 3 := hrS2
  have hcS2' : S2.cols = 3 := by rw [hcS2, hcS1]
  -- the second permutation matrix is the identity
  obtain ⟨b0, hb0, hQ0⟩ := hfull2 0 (by norm_num)
  obtain ⟨b1, hb1, hQ1⟩ := hfull2 1 (by norm_num)
  obtain ⟨b2, hb2, hQ2⟩ := hfull2 2 (by norm_num)
  have hb0v : b0 = 0 := by
    interval_cases b0
    · rfl
    · exact absurd s01 (hcov2 0 1 hQ0).2.2
    · exact absurd s02 (hcov2 0 2 hQ0).2.2
  subst hb0v
  have hb1v : b1 = 1 := by
    interval_cases b1
    · exact absurd s10 (hcov2 1 0 hQ1).2.2
    · rfl
    · exact absurd s12 (hcov2 1 2 hQ1).2.2
  subst hb1v
  have hb2v : b2 = 2 := by
    interval_cases b2
    · exact absurd s20 (hcov2 2 0 hQ2).2.2
    · exact absurd s21 (hcov2 2 1 hQ2).2.2
    · rfl
  subst hb2v
  have hrowu2 := hsub2.2.2.2.1
  -- the second coefficient is the diagonal minimum
  have hq2ge : m ≤ q2 := by
    obtain ⟨a, ha, b, hb, hPab, hSab⟩ := hq2mem
    interval_cases a
    · have hb' : b = 0 := hrowu2 0 (by norm_num) b hb 0 (by norm_num) hPab hQ0
      subst hb'
      rw [s00] at hSab
      rw [← hSab]
      exact hm0
    · have hb' : b = 1 := hrowu2 1 (by norm_num) b hb 1 (by norm_num) hPab hQ1
      subst hb'
      rw [s11] at hSab
      rw [← hSab]
      exact hm1
    · have hb' : b = 2 := hrowu2 2 (by norm_num) b hb 2 (by norm_num) hPab hQ2
      subst hb'
      rw [s22] at hSab
      rw [← hSab]
      exact hm2
  have hq2le' : q2 ≤ m := by
    rcases hmem with h | h | h
    · have h2 := hq2le 0 (by norm_num) 0 (by norm_num) hQ0
      rw [s00, ← h] at h2
      exact h2
    · have h2 := hq2le 1 (by norm_num) 1 (by norm_num) hQ1
      rw [s11, ← h] at h2
      exact h2
    · have h2 := hq2le 2 (by norm_num) 2 (by norm_num) hQ2
      rw [s22, ← h] at h2
      exact h2
  have hq2v : q2 = m := le_antisymm hq2le' hq2ge
  -- entries of P2 away from the diagonal
  have pz01 : P2.entry 0 1 = 0 :=
    subperm_row_zero hP012 hrowu2 (by norm_num) (by norm_num) hQ0
      (by norm_num) (by norm_num)
  have pz02 : P2.entry 0 2 = 0 :=
    subperm_row_zero hP012 hrowu2 (by norm_num) (by norm_num) hQ0
      (by norm_num) (by norm_num)
  have pz10 : P2.entry 1 0 = 0 :=
    subperm_row_zero hP012 hrowu2 (by norm_num) (by norm_num) hQ1
      (by norm_num) (by norm_num)
  have pz12 : P2.entry 1 2 = 0 :=
    subperm_row_zero hP012 hrowu2 (by norm_num) (by norm_num) hQ1
      (by norm_num) (by norm_num)
  have pz20 : P2.entry 2 0 = 0 :=
    subperm_row_zero hP012 hrowu2 (by norm_num) (by norm_num) hQ2
      (by norm_num) (by norm_num)
  have pz21 : P2.entry 2 1 = 0 :=
    subperm_row_zero hP012 hrowu2 (by norm_num) (by norm_num) hQ2
      (by norm_num) (by norm_num)
  -- the working matrix dies completely
  have t00 : S2.entry 0 0 = 0 := by
    rw [hS2eq, clamped_entry, s00, hQ0, hq2v, mul_one]
    rw [if_pos (by rw [abs_of_nonneg (by linarith)]; linarith)]
  have t11 : S2.entry 1 1 = 0 := by
    rw [hS2eq, clamped_entry, s11, hQ1, hq2v, mul_one]
    rw [if_pos (by rw [abs_of_nonneg (by linarith)]; linarith)]
  have t22 : S2.entry 2 2 = 0 := by
    rw [hS2eq, clamped_entry, s22, hQ2, hq2v, mul_one]
    rw [if_pos (by rw [abs_of_nonneg (by linarith)]; linarith)]
  have t01 : S2.entry 0 1 = 0 := by
    rw [hS2eq, clamped_entry, s01, pz01]
    rw [if_pos (by rw [mul_zero, sub_zero, abs_zero]; exact TOLERANCE_pos)]
  have t02 : S2.entry 0 2 = 0 := by
    rw [hS2eq, clamped_entry, s02, pz02]
    rw [if_pos (by rw [mul_zero, sub_zero, abs_zero]; exact TOLERANCE_pos)]
  have t10 : S2.entry 1 0 = 0 := by
    rw [hS2eq, clamped_entry, s10, pz10]
    rw [if_pos (by rw [mul_zero, sub_zero, abs_zero]; exact TOLERANCE_pos)]
  have t12 : S2.entry 1 2 = 0 := by
    rw [hS2eq, clamped_entry, s12, pz12]
    rw [if_pos (by rw [mul_zero, sub_zero, abs_zero]; exact TOLERANCE_pos)]
  have t20 : S2.entry 2 0 = 0 := by
    rw [hS2eq, clamped_entry, s20, pz20]
    rw [if_pos (by rw [mul_zero, sub_zero, abs_zero]; exact TOLERANCE_pos)]
  have t21 : S2.entry 2 1 = 0 := by
    rw [hS2eq, clamped_entry, s21, pz21]
    rw [if_pos (by rw [mul_zero, sub_zero, abs_zero]; exact TOLERANCE_pos)]
  have hz2 : isZero S2 = true := by
    rw [isZero_iff]
    rw [hrS2', hcS2']
    intro i hi j hj
    interval_cases i <;> interval_cases j <;> assumption
  have hloopS2 : decompLoop 3 8 (⟨D0, S2⟩ : DriverState) =
      (.ok [], ⟨D0, S2⟩) :=
    decompLoop_zero 3 7 ⟨D0, S2⟩ hz2
  have hloopS1 : decompLoop 3 9 (⟨D0, S1⟩ : DriverState) =
      (.ok [(q2, P2)], ⟨D0, S2⟩) :=
    decompLoop_cons 3 8 ⟨D0, S1⟩ q2 P2 S2 hz1 hstep2 [] ⟨D0, S2⟩ hloopS2
  exact ⟨q2, P2, ⟨D0, S2⟩, hloopS1, hq2v,
    isPermMat_of_subperm_full hsub2 hfull2⟩

/-- C5 (amended): every returned coefficient lies in `(0, 1]`.  For the
coefficient sum, the reconstruction bound transfers along row 0 when the
dimension is positive and every returned matrix is a full permutation
matrix: the sum then equals 1 to within `n · TOLERANCE` (one clamping
tolerance per entry of the row).  Without these conditions the sum can miss
1 by more than any tolerance (see the counterexample). -/
theorem C5_coefficients (D : NMat) (hDS : DoublyStochastic D) :
    ∃ l, birkhoff_von_neumann_decomposition D = .ok l ∧
      (∀ p ∈ l, 0 < p.1 ∧ p.1 ≤ 1) ∧
      (0 < D.rows → (∀ p ∈ l, IsPermMat D.rows p.2) →
        |coeffSum l - 1| < D.rows * TOLERANCE) := by
  obtain ⟨hsq, hnn, hrow, hcol⟩ := hDS
  have hle := DS_entry_le_one ⟨hsq, hnn, hrow, hcol⟩
  have hfuel : nonzeroCount D < D.rows * D.rows + 1 := by
    have h1 := nonzeroCount_le D
    rw [← hsq] at h1
    omega
  obtain ⟨l, st', hloop, hlen, hel, hrecon, hzrec, hcl, htl⟩ :=
    decompLoop_spec D.rows (D.rows * D.rows + 1) ⟨D, D⟩ rfl hsq.symm
      (fun i hi j hj => hnn i hi j (by rw [← hsq]; exact hj))
      (fun i hi j hj => hle i hi j (by rw [← hsq]; exact hj))
      hfuel
  refine ⟨l, ?_, ?_, ?_⟩
  · unfold birkhoff_von_neumann_decomposition
    rw [if_pos hsq]
    rw [show decompLoop D.rows (D.rows * D.rows + 1) ⟨D, D⟩ =
      (.ok l, st') from hloop]
  · intro p hp
    exact ⟨(hel p hp).1, (hel p hp).2.1⟩
  · intro hn hperm
    have htotal := reconSum_row_total D.rows hn l hperm
    have hrow0 : ((List.range D.rows).map (D.entry 0 ·)).sum = 1 := by
      have h1 := hrow 0 hn
      unfold rowSum at h1
      rw [← hsq] at h1
      exact h1
    have hdiff : coeffSum l - 1 =
        ((List.range D.rows).map
          (fun j => reconSum l 0 j - D.entry 0 j)).sum := by
      rw [list_range_sum, Finset.sum_sub_distrib, ← list_range_sum,
        ← list_range_sum, htotal, hrow0]
    rw [hdiff]
    refine abs_sum_lt D.rows _ TOLERANCE hn ?_
    intro j hj
    rw [abs_sub_comm]
    exact hrecon 0 hn j hj

theorem C5_coefficients_witness :
    ∃ l, birkhoff_von_neumann_decomposition
        (NMat.mk 2 2 (fun i j => if i = j then 1 else 0)) = .ok l ∧
      (∀ p ∈ l, 0 < p.1 ∧ p.1 ≤ 1) ∧
      (0 < (NMat.mk 2 2 (fun i j => if i = j then 1 else 0)).rows →
        (∀ p ∈ l, IsPermMat
          (NMat.mk 2 2 (fun i j => if i = j then 1 else 0)).rows p.2) →
        |coeffSum l - 1| <
          (NMat.mk 2 2 (fun i j => if i = j then 1 else 0)).rows *
            TOLERANCE) :=
  C5_coefficients (NMat.mk 2 2 (fun i j => if i = j then 1 else 0))
    ⟨rfl,
      by
        intro i hi j hj
        have hi2 : i < 2 := hi
        have hj2 : j < 2 := hj
        interval_cases i <;> interval_cases j <;> simp,
      by
        intro i hi
        have hi2 : i < 2 := hi
        interval_cases i <;> simp [rowSum, List.range_succ],
      by
        intro j hj
        have hj2 : j < 2 := hj
        interval_cases j <;> simp [colSum, List.range_succ]⟩

/-- C5 (counterexample to the frozen claim, and to the repair that only
excludes dimension 0): first, the empty (0 × 0) matrix is doubly stochastic
(all conditions are vacuous), the decomposition returns the empty list, and
the coefficient sum 0 misses 1 by a full unit.  Second, on the concrete
3 × 3 doubly stochastic matrix `C5mat` the decomposition returns normally,
every returned matrix is a full permutation matrix and the dimension is
positive, yet the coefficient sum still misses 1 by at least `TOLERANCE`:
clamping discards more than one tolerance of mass from a row. -/
theorem C5_counterexample :
    (DoublyStochastic (NMat.mk 0 0 (fun _ _ => 0)) ∧
      birkhoff_von_neumann_decomposition (NMat.mk 0 0 (fun _ _ => 0)) =
        .ok [] ∧
      coeffSum ([] : List (ℚ × NMat)) = 0 ∧
      TOLERANCE < |coeffSum ([] : List (ℚ × NMat)) - 1|) ∧
    (DoublyStochastic C5mat ∧ 0 < C5mat.rows ∧
      ∃ l, birkhoff_von_neumann_decomposition C5mat = .ok l ∧
        (∀ p ∈ l, IsPermMat C5mat.rows p.2) ∧
        TOLERANCE ≤ |coeffSum l - 1|) := by
  constructor
  · refine ⟨⟨rfl, ?_, ?_, ?_⟩, ?_, rfl, ?_⟩
    · intro i hi
      exact absurd hi (Nat.not_lt_zero i)
    · intro i hi
      exact absurd hi (Nat.not_lt_zero i)
    · intro j hj
      exact absurd hj (Nat.not_lt_zero j)
    · unfold birkhoff_von_neumann_decomposition
      rw [if_pos rfl]
      show (decompLoop 0 1 ⟨_, _⟩).1 = .ok []
      unfold decompLoop
      rw [if_pos (by decide)]
    · show TOLERANCE < |(0 : ℚ) - 1|
      norm_num [TOLERANCE]
  · have hDS : DoublyStochastic C5mat := by
      refine ⟨rfl, ?_, ?_, ?_⟩
      · intro i hi j hj
        have hi3 : i < 3 := hi
        have hj3 : j < 3 := hj
        interval_cases i <;> interval_cases j <;> norm_num [C5mat]
      · intro i hi
        have hi3 : i < 3 := hi
        interval_cases i <;> norm_num [C5mat, rowSum, List.range_succ]
      · intro j hj
        have hj3 : j < 3 := hj
        interval_cases j <;> norm_num [C5mat, colSum, List.range_succ]
    refine ⟨hDS, by norm_num [C5mat], ?_⟩
    have hnn : ∀ i, i < 3 → ∀ j, j < 3 → 0 ≤ C5mat.entry i j := hDS.2.1
    have e00 : C5mat.entry 0 0 = 1 - 6/2^51 := rfl
    have e01 : C5mat.entry 0 1 = 2/2^51 := rfl
    have e02 : C5mat.entry 0 2 = 4/2^51 := rfl
    have e10 : C5mat.entry 1 0 = 2/2^51 := rfl
    have e11 : C5mat.entry 1 1 = 1 - 6/2^51 := rfl
    have e12 : C5mat.entry 1 2 = 4/2^51 := rfl
    have e20 : C5mat.entry 2 0 = 4/2^51 := rfl
    have e21 : C5mat.entry 2 1 = 4/2^51 := rfl
    have e22 : C5mat.entry 2 2 = 1 - 8/2^51 := rfl
    have hz0 : isZero C5mat = false := by
      cases hb : isZero C5mat
      · rfl
      · exfalso
        have h0 := (isZero_iff C5mat).mp hb 0 (by norm_num [C5mat])
          0 (by norm_num [C5mat])
        rw [e00] at h0
        norm_num at h0
    obtain ⟨q1, P1, S1, hstep1, hP011, hcov1, hsub1, hq1pos, hq1le, hq1mem,
      hS1eq, hrS1, hcS1, hval1, hnnS1, hleS1, hclS1, hzS1, hdecS1⟩ :=
      decompStep_spec C5mat rfl hnn hz0
    have hmm3 : ∀ p ∈ ({(0, 3), (1, 4), (2, 5)} : Finset (ℕ × ℕ)),
        p = (0, 3) ∨ p = (1, 4) ∨ p = (2, 5) := by
      intro p hp
      simpa using hp
    have hM0 : IsMatchingFinset (graphOf C5mat)
        ({(0, 3), (1, 4), (2, 5)} : Finset (ℕ × ℕ)) := by
      refine ⟨?_, ?_, ?_⟩
      · intro p hp
        rcases hmm3 p hp with rfl | rfl | rfl
        · exact ⟨(mem_graphOf_left C5mat 0).mpr (by norm_num [C5mat]),
            (mem_graphOf_right C5mat 3).mpr
              ⟨0, by norm_num [C5mat], by norm_num [C5mat]⟩,
            (by
              show (C5mat.rows + 0 : ℕ) ∈ (graphOf C5mat).adj 0
              exact (adj_graphOf_edge C5mat rfl (by norm_num [C5mat])
                (by norm_num [C5mat])).mpr (by rw [e00]; norm_num))⟩
        · exact ⟨(mem_graphOf_left C5mat 1).mpr (by norm_num [C5mat]),
            (mem_graphOf_right C5mat 4).mpr
              ⟨1, by norm_num [C5mat], by norm_num [C5mat]⟩,
            (by
              show (C5mat.rows + 1 : ℕ) ∈ (graphOf C5mat).adj 1
              exact (adj_graphOf_edge C5mat rfl (by norm_num [C5mat])
                (by norm_num [C5mat])).mpr (by rw [e11]; norm_num))⟩
        · exact ⟨(mem_graphOf_left C5mat 2).mpr (by norm_num [C5mat]),
            (mem_graphOf_right C5mat 5).mpr
              ⟨2, by norm_num [C5mat], by norm_num [C5mat]⟩,
            (by
              show (C5mat.rows + 2 : ℕ) ∈ (graphOf C5mat).adj 2
              exact (adj_graphOf_edge C5mat rfl (by norm_num [C5mat])
                (by norm_num [C5mat])).mpr (by rw [e22]; norm_num))⟩
      · intro p hp p' hp' hfst
        rcases hmm3 p hp with rfl | rfl | rfl <;>
          rcases hmm3 p' hp' with rfl | rfl | rfl <;>
          first
            | rfl
            | exact absurd hfst (by decide)
      · intro p hp p' hp' hsnd
        rcases hmm3 p hp with rfl | rfl | rfl <;>
          rcases hmm3 p' hp' with rfl | rfl | rfl <;>
          first
            | rfl
            | exact absurd hsnd (by decide)
    have hfull1 := decompStep_full C5mat rfl q1 P1 S1 hstep1
      ({(0, 3), (1, 4), (2, 5)} : Finset (ℕ × ℕ)) hM0 (by decide)
    have hr3 : C5mat.rows = 3 := rfl
    rw [hr3] at hstep1 hcov1 hsub1 hq1le hq1mem hrS1 hnnS1 hleS1 hfull1
    have hrS1x : S1.rows = 3 := hrS1
    have hcS1x : S1.cols = 3 := hcS1
    have hrowu := hsub1.2.2.2.1
    have hcolu := hsub1.2.2.2.2
    obtain ⟨j0, hj0lt, hP10⟩ := hfull1 0 (by norm_num)
    obtain ⟨j1, hj1lt, hP11⟩ := hfull1 1 (by norm_num)
    obtain ⟨j2, hj2lt, hP12⟩ := hfull1 2 (by norm_num)
    have hne01 : j0 ≠ j1 := by
      intro hc
      have hA : P1.entry 0 j1 = 1 := by
        rw [← hc]
        exact hP10
      have h := hcolu j1 hj1lt 0 (by norm_num) 1 (by norm_num) hA hP11
      norm_num at h
    have hne02 : j0 ≠ j2 := by
      intro hc
      have hA : P1.entry 0 j2 = 1 := by
        rw [← hc]
        exact hP10
      have h := hcolu j2 hj2lt 0 (by norm_num) 2 (by norm_num) hA hP12
      norm_num at h
    have hne12 : j1 ≠ j2 := by
      intro hc
      have hA : P1.entry 1 j2 = 1 := by
        rw [← hc]
        exact hP11
      have h := hcolu j2 hj2lt 1 (by norm_num) 2 (by norm_num) hA hP12
      norm_num at h
    have hj0m : j0 = 0 ∨ j0 = 1 ∨ j0 = 2 := by omega
    have hj1m : j1 = 0 ∨ j1 = 1 ∨ j1 = 2 := by omega
    have hj2m : j2 = 0 ∨ j2 = 1 ∨ j2 = 2 := by omega
    rcases hj0m with rfl | rfl | rfl <;>
      rcases hj1m with rfl | rfl | rfl <;>
      rcases hj2m with rfl | rfl | rfl
    · exact absurd rfl hne01
    · exact absurd rfl hne01
    · exact absurd rfl hne01
    · exact absurd rfl hne02
    · exact absurd rfl hne12
    · -- branch (0, 1, 2)
      have hq1v : q1 = 1 - 8/2^51 := by
        obtain ⟨a, ha, b, hb, hPab, hSab⟩ := hq1mem
        have hlemin := hq1le 2 (by norm_num) 2 (by norm_num) hP12
        rw [e22] at hlemin
        interval_cases a
        · have hb' : b = 0 := hrowu 0 (by norm_num) b hb 0 (by norm_num) hPab hP10
          subst hb'
          rw [e00] at hSab
          exfalso
          rw [← hSab] at hlemin
          norm_num at hlemin
        · have hb' : b = 1 := hrowu 1 (by norm_num) b hb 1 (by norm_num) hPab hP11
          subst hb'
          rw [e11] at hSab
          exfalso
          rw [← hSab] at hlemin
          norm_num at hlemin
        · have hb' : b = 2 := hrowu 2 (by norm_num) b hb 2 (by norm_num) hPab hP12
          subst hb'
          rw [e22] at hSab
          exact hSab.symm
      have pz01 : P1.entry 0 1 = 0 :=
        subperm_row_zero hP011 hrowu (by norm_num) (by norm_num) hP10
          (by norm_num) (by norm_num)
      have pz02 : P1.entry 0 2 = 0 :=
        subperm_row_zero hP011 hrowu (by norm_num) (by norm_num) hP10
          (by norm_num) (by norm_num)
      have pz10 : P1.entry 1 0 = 0 :=
        subperm_row_zero hP011 hrowu (by norm_num) (by norm_num) hP11
          (by norm_num) (by norm_num)
      have pz12 : P1.entry 1 2 = 0 :=
        subperm_row_zero hP011 hrowu (by norm_num) (by norm_num) hP11
          (by norm_num) (by norm_num)
      have pz20 : P1.entry 2 0 = 0 :=
        subperm_row_zero hP011 hrowu (by norm_num) (by norm_num) hP12
          (by norm_num) (by norm_num)
      have pz21 : P1.entry 2 1 = 0 :=
        subperm_row_zero hP011 hrowu (by norm_num) (by norm_num) hP12
          (by norm_num) (by norm_num)
      have s00v : S1.entry 0 0 = 0 := by
        rw [hS1eq, clamped_entry, e00, hP10, hq1v]
        norm_num [TOLERANCE, abs_lt]
      have s01v : S1.entry 0 1 = 0 := by
        rw [hS1eq, clamped_entry, e01, pz01, hq1v]
        norm_num [TOLERANCE, abs_lt]
      have s02v : S1.entry 0 2 = 0 := by
        rw [hS1eq, clamped_entry, e02, pz02, hq1v]
        norm_num [TOLERANCE, abs_lt]
      have s10v : S1.entry 1 0 = 0 := by
        rw [hS1eq, clamped_entry, e10, pz10, hq1v]
        norm_num [TOLERANCE, abs_lt]
      have s11v : S1.entry 1 1 = 0 := by
        rw [hS1eq, clamped_entry, e11, hP11, hq1v]
        norm_num [TOLERANCE, abs_lt]
      have s12v : S1.entry 1 2 = 0 := by
        rw [hS1eq, clamped_entry, e12, pz12, hq1v]
        norm_num [TOLERANCE, abs_lt]
      have s20v : S1.entry 2 0 = 0 := by
        rw [hS1eq, clamped_entry, e20, pz20, hq1v]
        norm_num [TOLERANCE, abs_lt]
      have s21v : S1.entry 2 1 = 0 := by
        rw [hS1eq, clamped_entry, e21, pz21, hq1v]
        norm_num [TOLERANCE, abs_lt]
      have s22v : S1.entry 2 2 = 0 := by
        rw [hS1eq, clamped_entry, e22, hP12, hq1v]
        norm_num [TOLERANCE, abs_lt]
      have hz1 : isZero S1 = true := by
        rw [isZero_iff]
        rw [hrS1x, hcS1x]
        intro i hi j hj
        interval_cases i <;> interval_cases j <;> assumption
      have hloopS1 : decompLoop 3 9 (⟨C5mat, S1⟩ : DriverState) =
          (.ok [], ⟨C5mat, S1⟩) :=
        decompLoop_zero 3 8 ⟨C5mat, S1⟩ hz1
      have hloop0 : decompLoop 3 10 (⟨C5mat, C5mat⟩ : DriverState) =
          (.ok ((q1, P1) :: []), ⟨C5mat, S1⟩) :=
        decompLoop_cons 3 9 ⟨C5mat, C5mat⟩ q1 P1 S1 hz0 hstep1 []
          ⟨C5mat, S1⟩ hloopS1
      have hrw : birkhoff_von_neumann_decomposition C5mat =
          (decompLoop 3 10 (⟨C5mat, C5mat⟩ : DriverState)).1 := rfl
      refine ⟨[(q1, P1)], by rw [hrw, hloop0], ?_, ?_⟩
      · intro p hp
        rcases List.mem_cons.mp hp with rfl | hp2
        · exact isPermMat_of_subperm_full hsub1 hfull1
        · cases hp2
      · have hcs : coeffSum [(q1, P1)] = q1 + 0 := rfl
        rw [hcs, hq1v]
        rw [abs_of_nonpos (by norm_num)]
        norm_num [TOLERANCE]
    · exact absurd rfl hne02
    · -- branch (0, 2, 1)
      have hq1v : q1 = 4/2^51 := by
        obtain ⟨a, ha, b, hb, hPab, hSab⟩ := hq1mem
        have hlemin := hq1le 1 (by norm_num) 2 (by norm_num) hP11
        rw [e12] at hlemin
        interval_cases a
        · have hb' : b = 0 := hrowu 0 (by norm_num) b hb 0 (by norm_num) hPab hP10
          subst hb'
          rw [e00] at hSab
          exfalso
          rw [← hSab] at hlemin
          norm_num at hlemin
        · have hb' : b = 2 := hrowu 1 (by norm_num) b hb 2 (by norm_num) hPab hP11
          subst hb'
          rw [e12] at hSab
          exact hSab.symm
        · have hb' : b = 1 := hrowu 2 (by norm_num) b hb 1 (by norm_num) hPab hP12
          subst hb'
          rw [e21] at hSab
          exact hSab.symm
      have pz01 : P1.entry 0 1 = 0 :=
        subperm_row_zero hP011 hrowu (by norm_num) (by norm_num) hP10
          (by norm_num) (by norm_num)
      have pz02 : P1.entry 0 2 = 0 :=
        subperm_row_zero hP011 hrowu (by norm_num) (by norm_num) hP10
          (by norm_num) (by norm_num)
      have pz10 : P1.entry 1 0 = 0 :=
        subperm_row_zero hP011 hrowu (by norm_num) (by norm_num) hP11
          (by norm_num) (by norm_num)
      have pz11 : P1.entry 1 1 = 0 :=
        subperm_row_zero hP011 hrowu (by norm_num) (by norm_num) hP11
          (by norm_num) (by norm_num)
      have pz20 : P1.entry 2 0 = 0 :=
        subperm_row_zero hP011 hrowu (by norm_num) (by norm_num) hP12
          (by norm_num) (by norm_num)
      have pz22 : P1.entry 2 2 = 0 :=
        subperm_row_zero hP011 hrowu (by norm_num) (by norm_num) hP12
          (by norm_num) (by norm_num)
      have s00v : S1.entry 0 0 = 1 - 10/2^51 := by
        rw [hS1eq, clamped_entry, e00, hP10, hq1v]
        norm_num [TOLERANCE, abs_lt]
      have s01v : S1.entry 0 1 = 0 := by
        rw [hS1eq, clamped_entry, e01, pz01, hq1v]
        norm_num [TOLERANCE, abs_lt]
      have s02v : S1.entry 0 2 = 0 := by
        rw [hS1eq, clamped_entry, e02, pz02, hq1v]
        norm_num [TOLERANCE, abs_lt]
      have s10v : S1.entry 1 0 = 0 := by
        rw [hS1eq, clamped_entry, e10, pz10, hq1v]
        norm_num [TOLERANCE, abs_lt]
      have s11v : S1.entry 1 1 = 1 - 6/2^51 := by
        rw [hS1eq, clamped_entry, e11, pz11, hq1v]
        norm_num [TOLERANCE, abs_lt]
      have s12v : S1.entry 1 2 = 0 := by
        rw [hS1eq, clamped_entry, e12, hP11, hq1v]
        norm_num [TOLERANCE, abs_lt]
      have s20v : S1.entry 2 0 = 0 := by
        rw [hS1eq, clamped_entry, e20, pz20, hq1v]
        norm_num [TOLERANCE, abs_lt]
      have s21v : S1.entry 2 1 = 0 := by
        rw [hS1eq, clamped_entry, e21, hP12, hq1v]
        norm_num [TOLERANCE, abs_lt]
      have s22v : S1.entry 2 2 = 1 - 8/2^51 := by
        rw [hS1eq, clamped_entry, e22, pz22, hq1v]
        norm_num [TOLERANCE, abs_lt]
      obtain ⟨q2, P2, st', hloopS1, hq2v, hperm2⟩ := C5_level2 C5mat S1
        (1 - 10/2^51) (1 - 6/2^51) (1 - 8/2^51) (1 - 10/2^51)
        hrS1x hcS1x hnnS1 s00v s11v s22v s01v s02v s10v s12v s20v s21v
        (by norm_num) (by norm_num) (by norm_num) (Or.inl rfl)
        (by norm_num [TOLERANCE]) (by norm_num [TOLERANCE])
        (by norm_num [TOLERANCE])
        (by norm_num) (by norm_num) (by norm_num)
      have hloop0 : decompLoop 3 10 (⟨C5mat, C5mat⟩ : DriverState) =
          (.ok ((q1, P1) :: [(q2, P2)]), st') :=
        decompLoop_cons 3 9 ⟨C5mat, C5mat⟩ q1 P1 S1 hz0 hstep1 [(q2, P2)]
          st' hloopS1
      have hrw : birkhoff_von_neumann_decomposition C5mat =
          (decompLoop 3 10 (⟨C5mat, C5mat⟩ : DriverState)).1 := rfl
      refine ⟨[(q1, P1), (q2, P2)], by rw [hrw, hloop0], ?_, ?_⟩
      · intro p hp
        rcases List.mem_cons.mp hp with rfl | hp2
        · exact isPermMat_of_subperm_full hsub1 hfull1
        rcases List.mem_cons.mp hp2 with rfl | hp3
        · exact hperm2
        · cases hp3
      · have hcs : coeffSum [(q1, P1), (q2, P2)] = q1 + (q2 + 0) := rfl
        rw [hcs, hq1v, hq2v]
        rw [abs_of_nonpos (by norm_num)]
        norm_num [TOLERANCE]
    · exact absurd rfl hne12
    · exact absurd rfl hne12
    · exact absurd rfl hne02
    · -- branch (1, 0, 2)
      have hq1v : q1 = 2/2^51 := by
        obtain ⟨a, ha, b, hb, hPab, hSab⟩ := hq1mem
        have hlemin := hq1le 0 (by norm_num) 1 (by norm_num) hP10
        rw [e01] at hlemin
        interval_cases a
        · have hb' : b = 1 := hrowu 0 (by norm_num) b hb 1 (by norm_num) hPab hP10
          subst hb'
          rw [e01] at hSab
          exact hSab.symm
        · have hb' : b = 0 := hrowu 1 (by norm_num) b hb 0 (by norm_num) hPab hP11
          subst hb'
          rw [e10] at hSab
          exact hSab.symm
        · have hb' : b = 2 := hrowu 2 (by norm_num) b hb 2 (by norm_num) hPab hP12
          subst hb'
          rw [e22] at hSab
          exfalso
          rw [← hSab] at hlemin
          norm_num at hlemin
      have pz00 : P1.entry 0 0 = 0 :=
        subperm_row_zero hP011 hrowu (by norm_num) (by norm_num) hP10
          (by norm_num) (by norm_num)
      have pz02 : P1.entry 0 2 = 0 :=
        subperm_row_zero hP011 hrowu (by norm_num) (by norm_num) hP10
          (by norm_num) (by norm_num)
      have pz11 : P1.entry 1 1 = 0 :=
        subperm_row_zero hP011 hrowu (by norm_num) (by norm_num) hP11
          (by norm_num) (by norm_num)
      have pz12 : P1.entry 1 2 = 0 :=
        subperm_row_zero hP011 hrowu (by norm_num) (by norm_num) hP11
          (by norm_num) (by norm_num)
      have pz20 : P1.entry 2 0 = 0 :=
        subperm_row_zero hP011 hrowu (by norm_num) (by norm_num) hP12
          (by norm_num) (by norm_num)
      have pz21 : P1.entry 2 1 = 0 :=
        subperm_row_zero hP011 hrowu (by norm_num) (by norm_num) hP12
          (by norm_num) (by norm_num)
      have s00v : S1.entry 0 0 = 1 - 6/2^51 := by
        rw [hS1eq, clamped_entry, e00, pz00, hq1v]
        norm_num [TOLERANCE, abs_lt]
      have s01v : S1.entry 0 1 = 0 := by
        rw [hS1eq, clamped_entry, e01, hP10, hq1v]
        norm_num [TOLERANCE, abs_lt]
      have s02v : S1.entry 0 2 = 0 := by
        rw [hS1eq, clamped_entry, e02, pz02, hq1v]
        norm_num [TOLERANCE, abs_lt]
      have s10v : S1.entry 1 0 = 0 := by
        rw [hS1eq, clamped_entry, e10, hP11, hq1v]
        norm_num [TOLERANCE, abs_lt]
      have s11v : S1.entry 1 1 = 1 - 6/2^51 := by
        rw [hS1eq, clamped_entry, e11, pz11, hq1v]
        norm_num [TOLERANCE, abs_lt]
      have s12v : S1.entry 1 2 = 0 := by
        rw [hS1eq, clamped_entry, e12, pz12, hq1v]
        norm_num [TOLERANCE, abs_lt]
      have s20v : S1.entry 2 0 = 0 := by
        rw [hS1eq, clamped_entry, e20, pz20, hq1v]
        norm_num [TOLERANCE, abs_lt]
      have s21v : S1.entry 2 1 = 0 := by
        rw [hS1eq, clamped_entry, e21, pz21, hq1v]
        norm_num [TOLERANCE, abs_lt]
      have s22v : S1.entry 2 2 = 1 - 10/2^51 := by
        rw [hS1eq, clamped_entry, e22, hP12, hq1v]
        norm_num [TOLERANCE, abs_lt]
      obtain ⟨q2, P2, st', hloopS1, hq2v, hperm2⟩ := C5_level2 C5mat S1
        (1 - 6/2^51) (1 - 6/2^51) (1 - 10/2^51) (1 - 10/2^51)
        hrS1x hcS1x hnnS1 s00v s11v s22v s01v s02v s10v s12v s20v s21v
        (by norm_num) (by norm_num) (by norm_num) (Or.inr (Or.inr rfl))
        (by norm_num [TOLERANCE]) (by norm_num [TOLERANCE])
        (by norm_num [TOLERANCE])
        (by norm_num) (by norm_num) (by norm_num)
      have hloop0 : decompLoop 3 10 (⟨C5mat, C5mat⟩ : DriverState) =
          (.ok ((q1, P1) :: [(q2, P2)]), st') :=
        decompLoop_cons 3 9 ⟨C5mat, C5mat⟩ q1 P1 S1 hz0 hstep1 [(q2, P2)]
          st' hloopS1
      have hrw : birkhoff_von_neumann_decomposition C5mat =
          (decompLoop 3 10 (⟨C5mat, C5mat⟩ : DriverState)).1 := rfl
      refine ⟨[(q1, P1), (q2, P2)], by rw [hrw, hloop0], ?_, ?_⟩
      · intro p hp
        rcases List.mem_cons.mp hp with rfl | hp2
        · exact isPermMat_of_subperm_full hsub1 hfull1
        rcases List.mem_cons.mp hp2 with rfl | hp3
        · exact hperm2
        · cases hp3
      · have hcs : coeffSum [(q1, P1), (q2, P2)] = q1 + (q2 + 0) := rfl
        rw [hcs, hq1v, hq2v]
        rw [abs_of_nonpos (by norm_num)]
        norm_num [TOLERANCE]
    · exact absurd rfl hne01
    · exact absurd rfl hne01
    · exact absurd rfl hne01
    · -- branch (1, 2, 0)
      have hq1v : q1 = 2/2^51 := by
        obtain ⟨a, ha, b, hb, hPab, hSab⟩ := hq1mem
        have hlemin := hq1le 0 (by norm_num) 1 (by norm_num) hP10
        rw [e01] at hlemin
        interval_cases a
        · have hb' : b = 1 := hrowu 0 (by norm_num) b hb 1 (by norm_num) hPab hP10
          subst hb'
          rw [e01] at hSab
          exact hSab.symm
        · have hb' : b = 2 := hrowu 1 (by norm_num) b hb 2 (by norm_num) hPab hP11
          subst hb'
          rw [e12] at hSab
          exfalso
          rw [← hSab] at hlemin
          norm_num at hlemin
        · have hb' : b = 0 := hrowu 2 (by norm_num) b hb 0 (by norm_num) hPab hP12
          subst hb'
          rw [e20] at hSab
          exfalso
          rw [← hSab] at hlemin
          norm_num at hlemin
      have pz00 : P1.entry 0 0 = 0 :=
        subperm_row_zero hP011 hrowu (by norm_num) (by norm_num) hP10
          (by norm_num) (by norm_num)
      have pz02 : P1.entry 0 2 = 0 :=
        subperm_row_zero hP011 hrowu (by norm_num) (by norm_num) hP10
          (by norm_num) (by norm_num)
      have pz10 : P1.entry 1 0 = 0 :=
        subperm_row_zero hP011 hrowu (by norm_num) (by norm_num) hP11
          (by norm_num) (by norm_num)
      have pz11 : P1.entry 1 1 = 0 :=
        subperm_row_zero hP011 hrowu (by norm_num) (by norm_num) hP11
          (by norm_num) (by norm_num)
      have pz21 : P1.entry 2 1 = 0 :=
        subperm_row_zero hP011 hrowu (by norm_num) (by norm_num) hP12
          (by norm_num) (by norm_num)
      have pz22 : P1.entry 2 2 = 0 :=
        subperm_row_zero hP011 hrowu (by norm_num) (by norm_num) hP12
          (by norm_num) (by norm_num)
      have s00v : S1.entry 0 0 = 1 - 6/2^51 := by
        rw [hS1eq, clamped_entry, e00, pz00, hq1v]
        norm_num [TOLERANCE, abs_lt]
      have s01v : S1.entry 0 1 = 0 := by
        rw [hS1eq, clamped_entry, e01, hP10, hq1v]
        norm_num [TOLERANCE, abs_lt]
      have s02v : S1.entry 0 2 = 0 := by
        rw [hS1eq, clamped_entry, e02, pz02, hq1v]
        norm_num [TOLERANCE, abs_lt]
      have s10v : S1.entry 1 0 = 0 := by
        rw [hS1eq, clamped_entry, e10, pz10, hq1v]
        norm_num [TOLERANCE, abs_lt]
      have s11v : S1.entry 1 1 = 1 - 6/2^51 := by
        rw [hS1eq, clamped_entry, e11, pz11, hq1v]
        norm_num [TOLERANCE, abs_lt]
      have s12v : S1.entry 1 2 = 0 := by
        rw [hS1eq, clamped_entry, e12, hP11, hq1v]
        norm_num [TOLERANCE, abs_lt]
      have s20v : S1.entry 2 0 = 0 := by
        rw [hS1eq, clamped_entry, e20, hP12, hq1v]
        norm_num [TOLERANCE, abs_lt]
      have s21v : S1.entry 2 1 = 0 := by
        rw [hS1eq, clamped_entry, e21, pz21, hq1v]
        norm_num [TOLERANCE, abs_lt]
      have s22v : S1.entry 2 2 = 1 - 8/2^51 := by
        rw [hS1eq, clamped_entry, e22, pz22, hq1v]
        norm_num [TOLERANCE, abs_lt]
      obtain ⟨q2, P2, st', hloopS1, hq2v, hperm2⟩ := C5_level2 C5mat S1
        (1 - 6/2^51) (1 - 6/2^51) (1 - 8/2^51) (1 - 8/2^51)
        hrS1x hcS1x hnnS1 s00v s11v s22v s01v s02v s10v s12v s20v s21v
        (by norm_num) (by norm_num) (by norm_num) (Or.inr (Or.inr rfl))
        (by norm_num [TOLERANCE]) (by norm_num [TOLERANCE])
        (by norm_num [TOLERANCE])
        (by norm_num) (by norm_num) (by norm_num)
      have hloop0 : decompLoop 3 10 (⟨C5mat, C5mat⟩ : DriverState) =
          (.ok ((q1, P1) :: [(q2, P2)]), st') :=
        decompLoop_cons 3 9 ⟨C5mat, C5mat⟩ q1 P1 S1 hz0 hstep1 [(q2, P2)]
          st' hloopS1
      have hrw : birkhoff_von_neumann_decomposition C5mat =
          (decompLoop 3 10 (⟨C5mat, C5mat⟩ : DriverState)).1 := rfl
      refine ⟨[(q1, P1), (q2, P2)], by rw [hrw, hloop0], ?_, ?_⟩
      · intro p hp
        rcases List.mem_cons.mp hp with rfl | hp2
        · exact isPermMat_of_subperm_full hsub1 hfull1
        rcases List.mem_cons.mp hp2 with rfl | hp3
        · exact hperm2
        · cases hp3
      · have hcs : coeffSum [(q1, P1), (q2, P2)] = q1 + (q2 + 0) := rfl
        rw [hcs, hq1v, hq2v]
        rw [abs_of_nonpos (by norm_num)]
        norm_num [TOLERANCE]
    · exact absurd rfl hne02
    · exact absurd rfl hne12
    · exact absurd rfl hne12
    · -- branch (2, 0, 1)
      have hq1v : q1 = 2/2^51 := by
        obtain ⟨a, ha, b, hb, hPab, hSab⟩ := hq1mem
        have hlemin := hq1le 1 (by norm_num) 0 (by norm_num) hP11
        rw [e10] at hlemin
        interval_cases a
        · have hb' : b = 2 := hrowu 0 (by norm_num) b hb 2 (by norm_num) hPab hP10
          subst hb'
          rw [e02] at hSab
          exfalso
          rw [← hSab] at hlemin
          norm_num at hlemin
        · have hb' : b = 0 := hrowu 1 (by norm_num) b hb 0 (by norm_num) hPab hP11
          subst hb'
          rw [e10] at hSab
          exact hSab.symm
        · have hb' : b = 1 := hrowu 2 (by norm_num) b hb 1 (by norm_num) hPab hP12
          subst hb'
          rw [e21] at hSab
          exfalso
          rw [← hSab] at hlemin
          norm_num at hlemin
      have pz00 : P1.entry 0 0 = 0 :=
        subperm_row_zero hP011 hrowu (by norm_num) (by norm_num) hP10
          (by norm_num) (by norm_num)
      have pz01 : P1.entry 0 1 = 0 :=
        subperm_row_zero hP011 hrowu (by norm_num) (by norm_num) hP10
          (by norm_num) (by norm_num)
      have pz11 : P1.entry 1 1 = 0 :=
        subperm_row_zero hP011 hrowu (by norm_num) (by norm_num) hP11
          (by norm_num) (by norm_num)
      have pz12 : P1.entry 1 2 = 0 :=
        subperm_row_zero hP011 hrowu (by norm_num) (by norm_num) hP11
          (by norm_num) (by norm_num)
      have pz20 : P1.entry 2 0 = 0 :=
        subperm_row_zero hP011 hrowu (by norm_num) (by norm_num) hP12
          (by norm_num) (by norm_num)
      have pz22 : P1.entry 2 2 = 0 :=
        subperm_row_zero hP011 hrowu (by norm_num) (by norm_num) hP12
          (by norm_num) (by norm_num)
      have s00v : S1.entry 0 0 = 1 - 6/2^51 := by
        rw [hS1eq, clamped_entry, e00, pz00, hq1v]
        norm_num [TOLERANCE, abs_lt]
      have s01v : S1.entry 0 1 = 0 := by
        rw [hS1eq, clamped_entry, e01, pz01, hq1v]
        norm_num [TOLERANCE, abs_lt]
      have s02v : S1.entry 0 2 = 0 := by
        rw [hS1eq, clamped_entry, e02, hP10, hq1v]
        norm_num [TOLERANCE, abs_lt]
      have s10v : S1.entry 1 0 = 0 := by
        rw [hS1eq, clamped_entry, e10, hP11, hq1v]
        norm_num [TOLERANCE, abs_lt]
      have s11v : S1.entry 1 1 = 1 - 6/2^51 := by
        rw [hS1eq, clamped_entry, e11, pz11, hq1v]
        norm_num [TOLERANCE, abs_lt]
      have s12v : S1.entry 1 2 = 0 := by
        rw [hS1eq, clamped_entry, e12, pz12, hq1v]
        norm_num [TOLERANCE, abs_lt]
      have s20v : S1.entry 2 0 = 0 := by
        rw [hS1eq, clamped_entry, e20, pz20, hq1v]
        norm_num [TOLERANCE, abs_lt]
      have s21v : S1.entry 2 1 = 0 := by
        rw [hS1eq, clamped_entry, e21, hP12, hq1v]
        norm_num [TOLERANCE, abs_lt]
      have s22v : S1.entry 2 2 = 1 - 8/2^51 := by
        rw [hS1eq, clamped_entry, e22, pz22, hq1v]
        norm_num [TOLERANCE, abs_lt]
      obtain ⟨q2, P2, st', hloopS1, hq2v, hperm2⟩ := C5_level2 C5mat S1
        (1 - 6/2^51) (1 - 6/2^51) (1 - 8/2^51) (1 - 8/2^51)
        hrS1x hcS1x hnnS1 s00v s11v s22v s01v s02v s10v s12v s20v s21v
        (by norm_num) (by norm_num) (by norm_num) (Or.inr (Or.inr rfl))
        (by norm_num [TOLERANCE]) (by norm_num [TOLERANCE])
        (by norm_num [TOLERANCE])
        (by norm_num) (by norm_num) (by norm_num)
      have hloop0 : decompLoop 3 10 (⟨C5mat, C5mat⟩ : DriverState) =
          (.ok ((q1, P1) :: [(q2, P2)]), st') :=
        decompLoop_cons 3 9 ⟨C5mat, C5mat⟩ q1 P1 S1 hz0 hstep1 [(q2, P2)]
          st' hloopS1
      have hrw : birkhoff_von_neumann_decomposition C5mat =
          (decompLoop 3 10 (⟨C5mat, C5mat⟩ : DriverState)).1 := rfl
      refine ⟨[(q1, P1), (q2, P2)], by rw [hrw, hloop0], ?_, ?_⟩
      · intro p hp
        rcases List.mem_cons.mp hp with rfl | hp2
        · exact isPermMat_of_subperm_full hsub1 hfull1
        rcases List.mem_cons.mp hp2 with rfl | hp3
        · exact hperm2
        · cases hp3
      · have hcs : coeffSum [(q1, P1), (q2, P2)] = q1 + (q2 + 0) := rfl
        rw [hcs, hq1v, hq2v]
        rw [abs_of_nonpos (by norm_num)]
        norm_num [TOLERANCE]
    · exact absurd rfl hne02
    · -- branch (2, 1, 0)
      have hq1v : q1 = 4/2^51 := by
        obtain ⟨a, ha, b, hb, hPab, hSab⟩ := hq1mem
        have hlemin := hq1le 0 (by norm_num) 2 (by norm_num) hP10
        rw [e02] at hlemin
        interval_cases a
        · have hb' : b = 2 := hrowu 0 (by norm_num) b hb 2 (by norm_num) hPab hP10
          subst hb'
          rw [e02] at hSab
          exact hSab.symm
        · have hb' : b = 1 := hrowu 1 (by norm_num) b hb 1 (by norm_num) hPab hP11
          subst hb'
          rw [e11] at hSab
          exfalso
          rw [← hSab] at hlemin
          norm_num at hlemin
        · have hb' : b = 0 := hrowu 2 (by norm_num) b hb 0 (by norm_num) hPab hP12
          subst hb'
          rw [e20] at hSab
          exact hSab.symm
      have pz00 : P1.entry 0 0 = 0 :=
        subperm_row_zero hP011 hrowu (by norm_num) (by norm_num) hP10
          (by norm_num) (by norm_num)
      have pz01 : P1.entry 0 1 = 0 :=
        subperm_row_zero hP011 hrowu (by norm_num) (by norm_num) hP10
          (by norm_num) (by norm_num)
      have pz10 : P1.entry 1 0 = 0 :=
        subperm_row_zero hP011 hrowu (by norm_num) (by norm_num) hP11
          (by norm_num) (by norm_num)
      have pz12 : P1.entry 1 2 = 0 :=
        subperm_row_zero hP011 hrowu (by norm_num) (by norm_num) hP11
          (by norm_num) (by norm_num)
      have pz21 : P1.entry 2 1 = 0 :=
        subperm_row_zero hP011 hrowu (by norm_num) (by norm_num) hP12
          (by norm_num) (by norm_num)
      have pz22 : P1.entry 2 2 = 0 :=
        subperm_row_zero hP011 hrowu (by norm_num) (by norm_num) hP12
          (by norm_num) (by norm_num)
      have s00v : S1.entry 0 0 = 1 - 6/2^51 := by
        rw [hS1eq, clamped_entry, e00, pz00, hq1v]
        norm_num [TOLERANCE, abs_lt]
      have s01v : S1.entry 0 1 = 0 := by
        rw [hS1eq, clamped_entry, e01, pz01, hq1v]
        norm_num [TOLERANCE, abs_lt]
      have s02v : S1.entry 0 2 = 0 := by
        rw [hS1eq, clamped_entry, e02, hP10, hq1v]
        norm_num [TOLERANCE, abs_lt]
      have s10v : S1.entry 1 0 = 0 := by
        rw [hS1eq, clamped_entry, e10, pz10, hq1v]
        norm_num [TOLERANCE, abs_lt]
      have s11v : S1.entry 1 1 = 1 - 10/2^51 := by
        rw [hS1eq, clamped_entry, e11, hP11, hq1v]
        norm_num [TOLERANCE, abs_lt]
      have s12v : S1.entry 1 2 = 0 := by
        rw [hS1eq, clamped_entry, e12, pz12, hq1v]
        norm_num [TOLERANCE, abs_lt]
      have s20v : S1.entry 2 0 = 0 := by
        rw [hS1eq, clamped_entry, e20, hP12, hq1v]
        norm_num [TOLERANCE, abs_lt]
      have s21v : S1.entry 2 1 = 0 := by
        rw [hS1eq, clamped_entry, e21, pz21, hq1v]
        norm_num [TOLERANCE, abs_lt]
      have s22v : S1.entry 2 2 = 1 - 8/2^51 := by
        rw [hS1eq, clamped_entry, e22, pz22, hq1v]
        norm_num [TOLERANCE, abs_lt]
      obtain ⟨q2, P2, st', hloopS1, hq2v, hperm2⟩ := C5_level2 C5mat S1
        (1 - 6/2^51) (1 - 10/2^51) (1 - 8/2^51) (1 - 10/2^51)
        hrS1x hcS1x hnnS1 s00v s11v s22v s01v s02v s10v s12v s20v s21v
        (by norm_num) (by norm_num) (by norm_num) (Or.inr (Or.inl rfl))
        (by norm_num [TOLERANCE]) (by norm_num [TOLERANCE])
        (by norm_num [TOLERANCE])
        (by norm_num) (by norm_num) (by norm_num)
      have hloop0 : decompLoop 3 10 (⟨C5mat, C5mat⟩ : DriverState) =
          (.ok ((q1, P1) :: [(q2, P2)]), st') :=
        decompLoop_cons 3 9 ⟨C5mat, C5mat⟩ q1 P1 S1 hz0 hstep1 [(q2, P2)]
          st' hloopS1
      have hrw : birkhoff_von_neumann_decomposition C5mat =
          (decompLoop 3 10 (⟨C5mat, C5mat⟩ : DriverState)).1 := rfl
      refine ⟨[(q1, P1), (q2, P2)], by rw [hrw, hloop0], ?_, ?_⟩
      · intro p hp
        rcases List.mem_cons.mp hp with rfl | hp2
        · exact isPermMat_of_subperm_full hsub1 hfull1
        rcases List.mem_cons.mp hp2 with rfl | hp3
        · exact hperm2
        · cases hp3
      · have hcs : coeffSum [(q1, P1), (q2, P2)] = q1 + (q2 + 0) := rfl
        rw [hcs, hq1v, hq2v]
        rw [abs_of_nonpos (by norm_num)]
        norm_num [TOLERANCE]
    · exact absurd rfl hne12
    · exact absurd rfl hne02
    · exact absurd rfl hne01
    · exact absurd rfl hne01
    · exact absurd rfl hne01

/-- C4 (amended): every matrix returned for a square doubly stochastic
input is a partial permutation matrix — all entries 0 or 1, at most one 1
per row and per column.  Clamping can strand a row of the working matrix,
so the matching need not be perfect and a full permutation matrix is not
guaranteed (see the counterexample). -/
theorem C4_subpermutation (D : NMat) (hDS : DoublyStochastic D) :
    ∃ l, birkhoff_von_neumann_decomposition D = .ok l ∧
      ∀ p ∈ l, IsSubPermMat D.rows p.2 := by
  obtain ⟨hsq, hnn, hrow, hcol⟩ := hDS
  have hle := DS_entry_le_one ⟨hsq, hnn, hrow, hcol⟩
  have hfuel : nonzeroCount D < D.rows * D.rows + 1 := by
    have h1 := nonzeroCount_le D
    rw [← hsq] at h1
    omega
  obtain ⟨l, st', hloop, hlen, hel, hrecon, hzrec, hcl, htl⟩ :=
    decompLoop_spec D.rows (D.rows * D.rows + 1) ⟨D, D⟩ rfl hsq.symm
      (fun i hi j hj => hnn i hi j (by rw [← hsq]; exact hj))
      (fun i hi j hj => hle i hi j (by rw [← hsq]; exact hj))
      hfuel
  refine ⟨l, ?_, ?_⟩
  · unfold birkhoff_von_neumann_decomposition
    rw [if_pos hsq]
    rw [show decompLoop D.rows (D.rows * D.rows + 1) ⟨D, D⟩ =
      (.ok l, st') from hloop]
  · intro p hp
    exact (hel p hp).2.2

theorem C4_subpermutation_witness :
    ∃ l, birkhoff_von_neumann_decomposition
        (NMat.mk 2 2 (fun i j => if i = j then 1 else 0)) = .ok l ∧
      ∀ p ∈ l, IsSubPermMat
        (NMat.mk 2 2 (fun i j => if i = j then 1 else 0)).rows p.2 :=
  C4_subpermutation (NMat.mk 2 2 (fun i j => if i = j then 1 else 0))
    ⟨rfl,
      by
        intro i hi j hj
        have hi2 : i < 2 := hi
        have hj2 : j < 2 := hj
        interval_cases i <;> interval_cases j <;> simp,
      by
        intro i hi
        have hi2 : i < 2 := hi
        interval_cases i <;> simp [rowSum, List.range_succ],
      by
        intro j hj
        have hj2 : j < 2 := hj
        interval_cases j <;> simp [colSum, List.range_succ]⟩

/-- helper: the peeling loop returns normally (projection of the master
spec). -/
theorem decompLoop_ok (n f : ℕ) (st : DriverState)
    (hr : st.S.rows = n) (hc : st.S.cols = n)
    (hnn : ∀ i, i < n → ∀ j, j < n → 0 ≤ st.S.entry i j)
    (hle : ∀ i, i < n → ∀ j, j < n → st.S.entry i j ≤ 1)
    (hm : nonzeroCount st.S < f) :
    ∃ l st', decompLoop n f st = (.ok l, st') := by
  obtain ⟨l, st', h, -, -, -, -, -, -⟩ := decompLoop_spec n f st hr hc hnn hle hm
  exact ⟨l, st', h⟩

/-- helper for the C4 counterexample: any working matrix of the shape
reached after the first peeling step in the minimal-coefficient branches
forces the loop to emit a matrix whose row 3 holds no 1 within two more
steps. -/
theorem C4_level2 (D0 S1 : NMat)
    (hrS1 : S1.rows = 4) (hcS1 : S1.cols = 4)
    (hnnS1 : ∀ i, i < 4 → ∀ j, j < 4 → 0 ≤ S1.entry i j)
    (hleS1 : ∀ i, i < 4 → ∀ j, j < 4 → S1.entry i j ≤ 1)
    (hm1 : nonzeroCount S1 < 16)
    (s00 : S1.entry 0 0 = 1 - 9/2^51) (s01 : S1.entry 0 1 = 6/2^51)
    (s02 : S1.entry 0 2 = 0) (s03 : S1.entry 0 3 = 0)
    (s10 : S1.entry 1 0 = 0) (s11 : S1.entry 1 1 = 0) (s13 : S1.entry 1 3 = 0)
    (s21 : S1.entry 2 1 = 0) (s22 : S1.entry 2 2 = 0)
    (s30 : S1.entry 3 0 = 0) (s31 : S1.entry 3 1 = 1 - 9/2^51)
    (s32 : S1.entry 3 2 = 0) (s33 : S1.entry 3 3 = 0)
    (hv12 : 1 - 9/2^51 ≤ S1.entry 1 2) (hv23 : 1 - 9/2^51 ≤ S1.entry 2 3) :
    ∃ l st', decompLoop 4 16 (⟨D0, S1⟩ : DriverState) = (.ok l, st') ∧
      ∃ p ∈ l, ¬ IsPermMat 4 p.2 := by
  have hz1 : isZero S1 = false := by
    cases hb : isZero S1
    · rfl
    · exfalso
      have h0 := (isZero_iff S1).mp hb 0 (by rw [hrS1]; norm_num)
        0 (by rw [hcS1]; norm_num)
      rw [s00] at h0
      norm_num at h0
  obtain ⟨q2, P2, S2, hstep2, hP012, hcov2, hsub2, hq2pos, hq2le, hq2mem,
    hS2eq, hrS2, hcS2, hval2, hnnS2, hleS2, hclS2, hzS2, hdecS2⟩ :=
    decompStep_spec S1 (by rw [hcS1, hrS1]) (by rw [hrS1]; exact hnnS1) hz1
  rw [hrS1] at hstep2 hcov2 hsub2 hq2le hq2mem hrS2 hval2 hnnS2 hleS2
  rw [hrS1] at hclS2 hzS2 hdecS2
  have hrS2' : S2.rows = 4 := hrS2
  have hcS2' : S2.cols = 4 := by rw [hcS2, hcS1]
  have hm2 : nonzeroCount S2 < nonzeroCount S1 :=
    nonzeroCount_lt hrS1 hcS1 hrS2' hcS2' hzS2 hdecS2
  have hle2 : ∀ i, i < 4 → ∀ j, j < 4 → S2.entry i j ≤ 1 :=
    fun i hi j hj => le_trans (hleS2 i hi j hj) (hleS1 i hi j hj)
  by_cases hfull2 : ∀ i, i < 4 → ∃ j, j < 4 ∧ P2.entry i j = 1
  · -- the second matching is a full permutation: it is pinned completely
    have hrowu2 := hsub2.2.2.2.1
    have hcolu2 := hsub2.2.2.2.2
    obtain ⟨a0, ha0, hQ0⟩ := hfull2 0 (by norm_num)
    obtain ⟨a1, ha1, hQ1⟩ := hfull2 1 (by norm_num)
    obtain ⟨a2, ha2, hQ2⟩ := hfull2 2 (by norm_num)
    obtain ⟨a3, ha3, hQ3⟩ := hfull2 3 (by norm_num)
    have ha1v : a1 = 2 := by
      interval_cases a1
      · exact absurd s10 (hcov2 1 0 hQ1).2.2
      · exact absurd s11 (hcov2 1 1 hQ1).2.2
      · rfl
      · exact absurd s13 (hcov2 1 3 hQ1).2.2
    subst ha1v
    have ha3v : a3 = 1 := by
      interval_cases a3
      · exact absurd s30 (hcov2 3 0 hQ3).2.2
      · rfl
      · exact absurd s32 (hcov2 3 2 hQ3).2.2
      · exact absurd s33 (hcov2 3 3 hQ3).2.2
    subst ha3v
    have ha0v : a0 = 0 := by
      interval_cases a0
      · rfl
      · exfalso
        have h := hcolu2 1 (by norm_num) 0 (by norm_num) 3 (by norm_num) hQ0 hQ3
        norm_num at h
      · exact absurd s02 (hcov2 0 2 hQ0).2.2
      · exact absurd s03 (hcov2 0 3 hQ0).2.2
    subst ha0v
    have ha2v : a2 = 3 := by
      interval_cases a2
      · exfalso
        have h := hcolu2 0 (by norm_num) 0 (by norm_num) 2 (by norm_num) hQ0 hQ2
        norm_num at h
      · exact absurd s21 (hcov2 2 1 hQ2).2.2
      · exact absurd s22 (hcov2 2 2 hQ2).2.2
      · rfl
    subst ha2v
    -- the coefficient of the second step
    have hq2v : q2 = 1 - 9/2^51 := by
      obtain ⟨a, ha, b, hb, hPab, hSab⟩ := hq2mem
      have hle00 := hq2le 0 (by norm_num) 0 (by norm_num) hQ0
      rw [s00] at hle00
      interval_cases a
      · have hb' : b = 0 := hrowu2 0 (by norm_num) b hb 0 (by norm_num) hPab hQ0
        subst hb'
        rw [s00] at hSab
        exact hSab.symm
      · have hb' : b = 2 := hrowu2 1 (by norm_num) b hb 2 (by norm_num) hPab hQ1
        subst hb'
        linarith [hSab, hv12]
      · have hb' : b = 3 := hrowu2 2 (by norm_num) b hb 3 (by norm_num) hPab hQ2
        subst hb'
        linarith [hSab, hv23]
      · have hb' : b = 1 := hrowu2 3 (by norm_num) b hb 1 (by norm_num) hPab hQ3
        subst hb'
        rw [s31] at hSab
        exact hSab.symm
    -- the entries of P2 needed to evaluate the next working matrix
    have pz01 : P2.entry 0 1 = 0 :=
      subperm_row_zero hP012 hrowu2 (by norm_num) (by norm_num) hQ0
        (by norm_num) (by norm_num)
    have pz30 : P2.entry 3 0 = 0 :=
      subperm_row_zero hP012 hrowu2 (by norm_num) (by norm_num) hQ3
        (by norm_num) (by norm_num)
    have pz32 : P2.entry 3 2 = 0 :=
      subperm_row_zero hP012 hrowu2 (by norm_num) (by norm_num) hQ3
        (by norm_num) (by norm_num)
    have pz33 : P2.entry 3 3 = 0 :=
      subperm_row_zero hP012 hrowu2 (by norm_num) (by norm_num) hQ3
        (by norm_num) (by norm_num)
    -- the working matrix after the second step: row 3 dies, entry (0,1)
    -- survives
    have t01 : S2.entry 0 1 = 6/2^51 := by
      rw [hS2eq, clamped_entry, s01, pz01, hq2v]
      norm_num [TOLERANCE, abs_lt]
    have t30 : S2.entry 3 0 = 0 := by
      rw [hS2eq, clamped_entry, s30, pz30, hq2v]
      norm_num [TOLERANCE, abs_lt]
    have t31 : S2.entry 3 1 = 0 := by
      rw [hS2eq, clamped_entry, s31, hQ3, hq2v]
      norm_num [TOLERANCE, abs_lt]
    have t32 : S2.entry 3 2 = 0 := by
      rw [hS2eq, clamped_entry, s32, pz32, hq2v]
      norm_num [TOLERANCE, abs_lt]
    have t33 : S2.entry 3 3 = 0 := by
      rw [hS2eq, clamped_entry, s33, pz33, hq2v]
      norm_num [TOLERANCE, abs_lt]
    have hz2 : isZero S2 = false := by
      cases hb : isZero S2
      · rfl
      · exfalso
        have h0 := (isZero_iff S2).mp hb 0 (by rw [hrS2']; norm_num)
          1 (by rw [hcS2']; norm_num)
        rw [t01] at h0
        norm_num at h0
    -- the third step must miss row 3
    obtain ⟨q3, P3, S3, hstep3, hP013, hcov3, hsub3, hq3pos, hq3le, hq3mem,
      hS3eq, hrS3, hcS3, hval3, hnnS3, hleS3, hclS3, hzS3, hdecS3⟩ :=
      decompStep_spec S2 (by rw [hcS2', hrS2']) (by rw [hrS2']; exact hnnS2)
        hz2
    rw [hrS2'] at hstep3 hcov3 hnnS3 hleS3 hzS3 hdecS3 hrS3
    have hrS3' : S3.rows = 4 := hrS3
    have hcS3' : S3.cols = 4 := by rw [hcS3, hcS2']
    have hmiss3 : ∀ j, j < 4 → P3.entry 3 j ≠ 1 := by
      intro j hj h1
      have h := (hcov3 3 j h1).2.2
      interval_cases j
      · exact h t30
      · exact h t31
      · exact h t32
      · exact h t33
    have hm3 : nonzeroCount S3 < nonzeroCount S2 :=
      nonzeroCount_lt hrS2' hcS2' hrS3' hcS3' hzS3 hdecS3
    obtain ⟨l3, st3, hloop3⟩ := decompLoop_ok 4 14 ⟨D0, S3⟩ hrS3' hcS3'
      hnnS3
      (fun i hi j hj => le_trans (hleS3 i hi j hj) (hle2 i hi j hj))
      (by show nonzeroCount S3 < 14; omega)
    have hloop2 : decompLoop 4 15 (⟨D0, S2⟩ : DriverState) =
        (.ok ((q3, P3) :: l3), st3) :=
      decompLoop_cons 4 14 ⟨D0, S2⟩ q3 P3 S3 hz2 hstep3 l3 st3 hloop3
    have hloop1 : decompLoop 4 16 (⟨D0, S1⟩ : DriverState) =
        (.ok ((q2, P2) :: (q3, P3) :: l3), st3) :=
      decompLoop_cons 4 15 ⟨D0, S1⟩ q2 P2 S2 hz1 hstep2 _ st3 hloop2
    exact ⟨(q2, P2) :: (q3, P3) :: l3, st3, hloop1, (q3, P3),
      List.mem_cons_of_mem _ (List.mem_cons_self _ _),
      not_isPermMat_row (show (3:ℕ) < 4 by norm_num) hmiss3⟩
  · -- the second matching already misses a row
    push_neg at hfull2
    obtain ⟨r, hrlt, hmiss⟩ := hfull2
    obtain ⟨l2, st2, hloop2⟩ := decompLoop_ok 4 15 ⟨D0, S2⟩ hrS2' hcS2'
      hnnS2 hle2 (by show nonzeroCount S2 < 15; omega)
    have hloop1 : decompLoop 4 16 (⟨D0, S1⟩ : DriverState) =
        (.ok ((q2, P2) :: l2), st2) :=
      decompLoop_cons 4 15 ⟨D0, S1⟩ q2 P2 S2 hz1 hstep2 l2 st2 hloop2
    exact ⟨(q2, P2) :: l2, st2, hloop1, (q2, P2),
      List.mem_cons_self _ _, not_isPermMat_row hrlt hmiss⟩

/-- C4 (counterexample): a concrete 4 × 4 doubly stochastic matrix on which
the decomposition returns normally, yet some returned pair holds a matrix
that is not a valid permutation matrix: clamping kills an entire row of the
working matrix, so a later matching cannot cover that row. -/
theorem C4_counterexample :
    DoublyStochastic C4mat ∧
    ∃ l, birkhoff_von_neumann_decomposition C4mat = .ok l ∧
      ∃ p ∈ l, ¬ IsPermMat 4 p.2 := by
  have hDS : DoublyStochastic C4mat := by
    refine ⟨rfl, ?_, ?_, ?_⟩
    · intro i hi j hj
      have hi4 : i < 4 := hi
      have hj4 : j < 4 := hj
      interval_cases i <;> interval_cases j <;> norm_num [C4mat]
    · intro i hi
      have hi4 : i < 4 := hi
      interval_cases i <;> norm_num [C4mat, rowSum, List.range_succ]
    · intro j hj
      have hj4 : j < 4 := hj
      interval_cases j <;> norm_num [C4mat, colSum, List.range_succ]
  refine ⟨hDS, ?_⟩
  have hnn : ∀ i, i < 4 → ∀ j, j < 4 → 0 ≤ C4mat.entry i j := hDS.2.1
  have hle : ∀ i, i < 4 → ∀ j, j < 4 → C4mat.entry i j ≤ 1 :=
    fun i hi j hj => DS_entry_le_one hDS i hi j hj
  have e00 : C4mat.entry 0 0 = 1 - 9/2^51 := rfl
  have e01 : C4mat.entry 0 1 = 9/2^51 := rfl
  have e02 : C4mat.entry 0 2 = 0 := rfl
  have e03 : C4mat.entry 0 3 = 0 := rfl
  have e10 : C4mat.entry 1 0 = 0 := rfl
  have e11 : C4mat.entry 1 1 = 0 := rfl
  have e12 : C4mat.entry 1 2 = 1 - 3/2^51 := rfl
  have e13 : C4mat.entry 1 3 = 3/2^51 := rfl
  have e20 : C4mat.entry 2 0 = 6/2^51 := rfl
  have e21 : C4mat.entry 2 1 = 0 := rfl
  have e22 : C4mat.entry 2 2 = 0 := rfl
  have e23 : C4mat.entry 2 3 = 1 - 6/2^51 := rfl
  have e30 : C4mat.entry 3 0 = 3/2^51 := rfl
  have e31 : C4mat.entry 3 1 = 1 - 9/2^51 := rfl
  have e32 : C4mat.entry 3 2 = 3/2^51 := rfl
  have e33 : C4mat.entry 3 3 = 3/2^51 := rfl
  have hz0 : isZero C4mat = false := by
    cases hb : isZero C4mat
    · rfl
    · exfalso
      have h0 := (isZero_iff C4mat).mp hb 0 (by norm_num [C4mat])
        0 (by norm_num [C4mat])
      rw [e00] at h0
      norm_num at h0
  obtain ⟨q1, P1, S1, hstep1, hP011, hcov1, hsub1, hq1pos, hq1le, hq1mem,
    hS1eq, hrS1, hcS1, hval1, hnnS1, hleS1, hclS1, hzS1, hdecS1⟩ :=
    decompStep_spec C4mat rfl hnn hz0
  have hr4 : C4mat.rows = 4 := rfl
  rw [hr4] at hstep1 hcov1 hsub1 hq1le hq1mem hrS1 hval1 hnnS1 hleS1
  rw [hr4] at hclS1 hzS1 hdecS1
  have hrS1' : S1.rows = 4 := hrS1
  have hcS1' : S1.cols = 4 := hcS1
  have hm1 : nonzeroCount S1 < 16 :=
    lt_of_lt_of_le (nonzeroCount_lt hr4 rfl hrS1' hcS1' hzS1 hdecS1)
      (nonzeroCount_le C4mat)
  have hle1 : ∀ i, i < 4 → ∀ j, j < 4 → S1.entry i j ≤ 1 :=
    fun i hi j hj => le_trans (hleS1 i hi j hj) (hle i hi j hj)
  have hrowu := hsub1.2.2.2.1
  have hcolu := hsub1.2.2.2.2
  by_cases hfull1 : ∀ i, i < 4 → ∃ j, j < 4 ∧ P1.entry i j = 1
  · obtain ⟨j0, hj0lt, hP10⟩ := hfull1 0 (by norm_num)
    obtain ⟨j1, hj1lt, hP11⟩ := hfull1 1 (by norm_num)
    obtain ⟨j2, hj2lt, hP12⟩ := hfull1 2 (by norm_num)
    obtain ⟨j3, hj3lt, hP13⟩ := hfull1 3 (by norm_num)
    have hj0m : j0 = 0 ∨ j0 = 1 := by
      interval_cases j0
      · exact Or.inl rfl
      · exact Or.inr rfl
      · exact absurd e02 (hcov1 0 2 hP10).2.2
      · exact absurd e03 (hcov1 0 3 hP10).2.2
    have hj1m : j1 = 2 ∨ j1 = 3 := by
      interval_cases j1
      · exact absurd e10 (hcov1 1 0 hP11).2.2
      · exact absurd e11 (hcov1 1 1 hP11).2.2
      · exact Or.inl rfl
      · exact Or.inr rfl
    have hj2m : j2 = 0 ∨ j2 = 3 := by
      interval_cases j2
      · exact Or.inl rfl
      · exact absurd e21 (hcov1 2 1 hP12).2.2
      · exact absurd e22 (hcov1 2 2 hP12).2.2
      · exact Or.inr rfl
    rcases hj0m with rfl | rfl
    · rcases hj1m with rfl | rfl
      · rcases hj2m with rfl | rfl
        · -- columns 0 of rows 0 and 2 clash
          exfalso
          have h := hcolu 0 (by norm_num) 0 (by norm_num) 2 (by norm_num)
            hP10 hP12
          norm_num at h
        · -- branch (0,0), (1,2), (2,3): the first coefficient is large
          have hne0x : j3 ≠ 0 := by
            intro hc
            have h := hcolu 0 (by norm_num) 3 (by norm_num) 0 (by norm_num)
              (hc ▸ hP13) hP10
            norm_num at h
          have hne2x : j3 ≠ 2 := by
            intro hc
            have h := hcolu 2 (by norm_num) 3 (by norm_num) 1 (by norm_num)
              (hc ▸ hP13) hP11
            norm_num at h
          have hne3x : j3 ≠ 3 := by
            intro hc
            have h := hcolu 3 (by norm_num) 3 (by norm_num) 2 (by norm_num)
              (hc ▸ hP13) hP12
            norm_num at h
          have hj3v : j3 = 1 := by omega
          subst hj3v
          have hq1v : q1 = 1 - 9/2^51 := by
            obtain ⟨a, ha, b, hb, hPab, hSab⟩ := hq1mem
            have hlemin := hq1le 0 (by norm_num) 0 (by norm_num) hP10
            rw [e00] at hlemin
            interval_cases a
            · have hb' : b = 0 := hrowu 0 (by norm_num) b hb 0 (by norm_num) hPab hP10
              subst hb'
              rw [e00] at hSab
              exact hSab.symm
            · have hb' : b = 2 := hrowu 1 (by norm_num) b hb 2 (by norm_num) hPab hP11
              subst hb'
              rw [e12] at hSab
              exfalso
              rw [← hSab] at hlemin
              norm_num at hlemin
            · have hb' : b = 3 := hrowu 2 (by norm_num) b hb 3 (by norm_num) hPab hP12
              subst hb'
              rw [e23] at hSab
              exfalso
              rw [← hSab] at hlemin
              norm_num at hlemin
            · have hb' : b = 1 := hrowu 3 (by norm_num) b hb 1 (by norm_num) hPab hP13
              subst hb'
              rw [e31] at hSab
              exact hSab.symm
          have pz01 : P1.entry 0 1 = 0 :=
            subperm_row_zero hP011 hrowu (by norm_num) (by norm_num) hP10
              (by norm_num) (by norm_num)
          have pz30 : P1.entry 3 0 = 0 :=
            subperm_row_zero hP011 hrowu (by norm_num) (by norm_num) hP13
              (by norm_num) (by norm_num)
          have pz32 : P1.entry 3 2 = 0 :=
            subperm_row_zero hP011 hrowu (by norm_num) (by norm_num) hP13
              (by norm_num) (by norm_num)
          have pz33 : P1.entry 3 3 = 0 :=
            subperm_row_zero hP011 hrowu (by norm_num) (by norm_num) hP13
              (by norm_num) (by norm_num)
          have s01v : S1.entry 0 1 = 9/2^51 := by
            rw [hS1eq, clamped_entry, e01, pz01, hq1v]
            norm_num [TOLERANCE, abs_lt]
          have s30v : S1.entry 3 0 = 0 := by
            rw [hS1eq, clamped_entry, e30, pz30, hq1v]
            norm_num [TOLERANCE, abs_lt]
          have s31v : S1.entry 3 1 = 0 := by
            rw [hS1eq, clamped_entry, e31, hP13, hq1v]
            norm_num [TOLERANCE, abs_lt]
          have s32v : S1.entry 3 2 = 0 := by
            rw [hS1eq, clamped_entry, e32, pz32, hq1v]
            norm_num [TOLERANCE, abs_lt]
          have s33v : S1.entry 3 3 = 0 := by
            rw [hS1eq, clamped_entry, e33, pz33, hq1v]
            norm_num [TOLERANCE, abs_lt]
          have hz1 : isZero S1 = false := by
            cases hb : isZero S1
            · rfl
            · exfalso
              have h0 := (isZero_iff S1).mp hb 0 (by rw [hrS1']; norm_num)
                1 (by rw [hcS1']; norm_num)
              rw [s01v] at h0
              norm_num at h0
          obtain ⟨q2, P2, S2, hstep2, hP012, hcov2, hsub2, hq2pos, hq2le,
            hq2mem, hS2eq, hrS2, hcS2, hval2, hnnS2, hleS2, hclS2, hzS2,
            hdecS2⟩ :=
            decompStep_spec S1 (by rw [hcS1', hrS1'])
              (by rw [hrS1']; exact hnnS1) hz1
          rw [hrS1'] at hstep2 hcov2 hrS2 hnnS2 hleS2 hzS2 hdecS2
          have hrS2' : S2.rows = 4 := hrS2
          have hcS2' : S2.cols = 4 := by rw [hcS2, hcS1']
          have hmiss2 : ∀ j, j < 4 → P2.entry 3 j ≠ 1 := by
            intro j hj h1
            have h := (hcov2 3 j h1).2.2
            interval_cases j
            · exact h s30v
            · exact h s31v
            · exact h s32v
            · exact h s33v
          have hm2 : nonzeroCount S2 < nonzeroCount S1 :=
            nonzeroCount_lt hrS1' hcS1' hrS2' hcS2' hzS2 hdecS2
          obtain ⟨l2, st2, hloop2⟩ := decompLoop_ok 4 15 ⟨C4mat, S2⟩ hrS2'
            hcS2' hnnS2
            (fun i hi j hj => le_trans (hleS2 i hi j hj) (hle1 i hi j hj))
            (by show nonzeroCount S2 < 15; omega)
          have hloop1 : decompLoop 4 16 (⟨C4mat, S1⟩ : DriverState) =
              (.ok ((q2, P2) :: l2), st2) :=
            decompLoop_cons 4 15 ⟨C4mat, S1⟩ q2 P2 S2 hz1 hstep2 l2 st2 hloop2
          have hloop0 : decompLoop 4 17 (⟨C4mat, C4mat⟩ : DriverState) =
              (.ok ((q1, P1) :: (q2, P2) :: l2), st2) :=
            decompLoop_cons 4 16 ⟨C4mat, C4mat⟩ q1 P1 S1 hz0 hstep1 _ st2 hloop1
          refine ⟨(q1, P1) :: (q2, P2) :: l2, ?_, (q2, P2),
            List.mem_cons_of_mem _ (List.mem_cons_self _ _),
            not_isPermMat_row (show (3:ℕ) < 4 by norm_num) hmiss2⟩
          have hrw : birkhoff_von_neumann_decomposition C4mat =
              (decompLoop 4 17 (⟨C4mat, C4mat⟩ : DriverState)).1 := rfl
          rw [hrw, hloop0]
      · rcases hj2m with rfl | rfl
        · -- columns 0 of rows 0 and 2 clash
          exfalso
          have h := hcolu 0 (by norm_num) 0 (by norm_num) 2 (by norm_num)
            hP10 hP12
          norm_num at h
        · -- columns 3 of rows 1 and 2 clash
          exfalso
          have h := hcolu 3 (by norm_num) 1 (by norm_num) 2 (by norm_num)
            hP11 hP12
          norm_num at h
    · rcases hj1m with rfl | rfl
      · rcases hj2m with rfl | rfl
        · -- branch (0,1), (1,2), (2,0), (3,3)
          have hne0x : j3 ≠ 0 := by
            intro hc
            have h := hcolu 0 (by norm_num) 3 (by norm_num) 2 (by norm_num)
              (hc ▸ hP13) hP12
            norm_num at h
          have hne1x : j3 ≠ 1 := by
            intro hc
            have h := hcolu 1 (by norm_num) 3 (by norm_num) 0 (by norm_num)
              (hc ▸ hP13) hP10
            norm_num at h
          have hne2x : j3 ≠ 2 := by
            intro hc
            have h := hcolu 2 (by norm_num) 3 (by norm_num) 1 (by norm_num)
              (hc ▸ hP13) hP11
            norm_num at h
          have hj3v : j3 = 3 := by omega
          subst hj3v
          have hq1v : q1 = 3/2^51 := by
            obtain ⟨a, ha, b, hb, hPab, hSab⟩ := hq1mem
            have hlemin := hq1le 3 (by norm_num) 3 (by norm_num) hP13
            rw [e33] at hlemin
            interval_cases a
            · have hb' : b = 1 := hrowu 0 (by norm_num) b hb 1 (by norm_num) hPab hP10
              subst hb'
              rw [e01] at hSab
              exfalso
              rw [← hSab] at hlemin
              norm_num at hlemin
            · have hb' : b = 2 := hrowu 1 (by norm_num) b hb 2 (by norm_num) hPab hP11
              subst hb'
              rw [e12] at hSab
              exfalso
              rw [← hSab] at hlemin
              norm_num at hlemin
            · have hb' : b = 0 := hrowu 2 (by norm_num) b hb 0 (by norm_num) hPab hP12
              subst hb'
              rw [e20] at hSab
              exfalso
              rw [← hSab] at hlemin
              norm_num at hlemin
            · have hb' : b = 3 := hrowu 3 (by norm_num) b hb 3 (by norm_num) hPab hP13
              subst hb'
              rw [e33] at hSab
              exact hSab.symm
          have pz00 : P1.entry 0 0 = 0 :=
            subperm_row_zero hP011 hrowu (by norm_num) (by norm_num) hP10
              (by norm_num) (by norm_num)
          have pz02 : P1.entry 0 2 = 0 :=
            subperm_row_zero hP011 hrowu (by norm_num) (by norm_num) hP10
              (by norm_num) (by norm_num)
          have pz03 : P1.entry 0 3 = 0 :=
            subperm_row_zero hP011 hrowu (by norm_num) (by norm_num) hP10
              (by norm_num) (by norm_num)
          have pz10 : P1.entry 1 0 = 0 :=
            subperm_row_zero hP011 hrowu (by norm_num) (by norm_num) hP11
              (by norm_num) (by norm_num)
          have pz11 : P1.entry 1 1 = 0 :=
            subperm_row_zero hP011 hrowu (by norm_num) (by norm_num) hP11
              (by norm_num) (by norm_num)
          have pz13 : P1.entry 1 3 = 0 :=
            subperm_row_zero hP011 hrowu (by norm_num) (by norm_num) hP11
              (by norm_num) (by norm_num)
          have pz21 : P1.entry 2 1 = 0 :=
            subperm_row_zero hP011 hrowu (by norm_num) (by norm_num) hP12
              (by norm_num) (by norm_num)
          have pz22 : P1.entry 2 2 = 0 :=
            subperm_row_zero hP011 hrowu (by norm_num) (by norm_num) hP12
              (by norm_num) (by norm_num)
          have pz23 : P1.entry 2 3 = 0 :=
            subperm_row_zero hP011 hrowu (by norm_num) (by norm_num) hP12
              (by norm_num) (by norm_num)
          have pz30 : P1.entry 3 0 = 0 :=
            subperm_row_zero hP011 hrowu (by norm_num) (by norm_num) hP13
              (by norm_num) (by norm_num)
          have pz31 : P1.entry 3 1 = 0 :=
            subperm_row_zero hP011 hrowu (by norm_num) (by norm_num) hP13
              (by norm_num) (by norm_num)
          have pz32 : P1.entry 3 2 = 0 :=
            subperm_row_zero hP011 hrowu (by norm_num) (by norm_num) hP13
              (by norm_num) (by norm_num)
          have s00v : S1.entry 0 0 = 1 - 9/2^51 := by
            rw [hS1eq, clamped_entry, e00, pz00, hq1v]
            norm_num [TOLERANCE, abs_lt]
          have s01v : S1.entry 0 1 = 6/2^51 := by
            rw [hS1eq, clamped_entry, e01, hP10, hq1v]
            norm_num [TOLERANCE, abs_lt]
          have s02v : S1.entry 0 2 = 0 := by
            rw [hS1eq, clamped_entry, e02, pz02, hq1v]
            norm_num [TOLERANCE, abs_lt]
          have s03v : S1.entry 0 3 = 0 := by
            rw [hS1eq, clamped_entry, e03, pz03, hq1v]
            norm_num [TOLERANCE, abs_lt]
          have s10v : S1.entry 1 0 = 0 := by
            rw [hS1eq, clamped_entry, e10, pz10, hq1v]
            norm_num [TOLERANCE, abs_lt]
          have s11v : S1.entry 1 1 = 0 := by
            rw [hS1eq, clamped_entry, e11, pz11, hq1v]
            norm_num [TOLERANCE, abs_lt]
          have s12v : S1.entry 1 2 = 1 - 6/2^51 := by
            rw [hS1eq, clamped_entry, e12, hP11, hq1v]
            norm_num [TOLERANCE, abs_lt]
          have s13v : S1.entry 1 3 = 0 := by
            rw [hS1eq, clamped_entry, e13, pz13, hq1v]
            norm_num [TOLERANCE, abs_lt]
          have s21v : S1.entry 2 1 = 0 := by
            rw [hS1eq, clamped_entry, e21, pz21, hq1v]
            norm_num [TOLERANCE, abs_lt]
          have s22v : S1.entry 2 2 = 0 := by
            rw [hS1eq, clamped_entry, e22, pz22, hq1v]
            norm_num [TOLERANCE, abs_lt]
          have s23v : S1.entry 2 3 = 1 - 6/2^51 := by
            rw [hS1eq, clamped_entry, e23, pz23, hq1v]
            norm_num [TOLERANCE, abs_lt]
          have s30v : S1.entry 3 0 = 0 := by
            rw [hS1eq, clamped_entry, e30, pz30, hq1v]
            norm_num [TOLERANCE, abs_lt]
          have s31v : S1.entry 3 1 = 1 - 9/2^51 := by
            rw [hS1eq, clamped_entry, e31, pz31, hq1v]
            norm_num [TOLERANCE, abs_lt]
          have s32v : S1.entry 3 2 = 0 := by
            rw [hS1eq, clamped_entry, e32, pz32, hq1v]
            norm_num [TOLERANCE, abs_lt]
          have s33v : S1.entry 3 3 = 0 := by
            rw [hS1eq, clamped_entry, e33, hP13, hq1v]
            norm_num [TOLERANCE, abs_lt]
          have hv12 : 1 - 9/2^51 ≤ S1.entry 1 2 :=
            le_trans (show (1:ℚ) - 9/2^51 ≤ 1 - 6/2^51 by norm_num) s12v.ge
          have hv23 : 1 - 9/2^51 ≤ S1.entry 2 3 :=
            le_trans (show (1:ℚ) - 9/2^51 ≤ 1 - 6/2^51 by norm_num) s23v.ge
          obtain ⟨l', st', hloopS1, p, hp, hnp⟩ := C4_level2 C4mat S1 hrS1'
            hcS1' hnnS1 hle1 hm1 s00v s01v s02v s03v s10v s11v s13v s21v
            s22v s30v s31v s32v s33v hv12 hv23
          have hloop0 : decompLoop 4 17 (⟨C4mat, C4mat⟩ : DriverState) =
              (.ok ((q1, P1) :: l'), st') :=
            decompLoop_cons 4 16 ⟨C4mat, C4mat⟩ q1 P1 S1 hz0 hstep1 l' st' hloopS1
          refine ⟨(q1, P1) :: l', ?_, p, List.mem_cons_of_mem _ hp, hnp⟩
          have hrw : birkhoff_von_neumann_decomposition C4mat =
              (decompLoop 4 17 (⟨C4mat, C4mat⟩ : DriverState)).1 := rfl
          rw [hrw, hloop0]
        · -- branch (0,1), (1,2), (2,3), (3,0)
          have hne1x : j3 ≠ 1 := by
            intro hc
            have h := hcolu 1 (by norm_num) 3 (by norm_num) 0 (by norm_num)
              (hc ▸ hP13) hP10
            norm_num at h
          have hne2x : j3 ≠ 2 := by
            intro hc
            have h := hcolu 2 (by norm_num) 3 (by norm_num) 1 (by norm_num)
              (hc ▸ hP13) hP11
            norm_num at h
          have hne3x : j3 ≠ 3 := by
            intro hc
            have h := hcolu 3 (by norm_num) 3 (by norm_num) 2 (by norm_num)
              (hc ▸ hP13) hP12
            norm_num at h
          have hj3v : j3 = 0 := by omega
          subst hj3v
          have hq1v : q1 = 3/2^51 := by
            obtain ⟨a, ha, b, hb, hPab, hSab⟩ := hq1mem
            have hlemin := hq1le 3 (by norm_num) 0 (by norm_num) hP13
            rw [e30] at hlemin
            interval_cases a
            · have hb' : b = 1 := hrowu 0 (by norm_num) b hb 1 (by norm_num) hPab hP10
              subst hb'
              rw [e01] at hSab
              exfalso
              rw [← hSab] at hlemin
              norm_num at hlemin
            · have hb' : b = 2 := hrowu 1 (by norm_num) b hb 2 (by norm_num) hPab hP11
              subst hb'
              rw [e12] at hSab
              exfalso
              rw [← hSab] at hlemin
              norm_num at hlemin
            · have hb' : b = 3 := hrowu 2 (by norm_num) b hb 3 (by norm_num) hPab hP12
              subst hb'
              rw [e23] at hSab
              exfalso
              rw [← hSab] at hlemin
              norm_num at hlemin
            · have hb' : b = 0 := hrowu 3 (by norm_num) b hb 0 (by norm_num) hPab hP13
              subst hb'
              rw [e30] at hSab
              exact hSab.symm
          have pz00 : P1.entry 0 0 = 0 :=
            subperm_row_zero hP011 hrowu (by norm_num) (by norm_num) hP10
              (by norm_num) (by norm_num)
          have pz02 : P1.entry 0 2 = 0 :=
            subperm_row_zero hP011 hrowu (by norm_num) (by norm_num) hP10
              (by norm_num) (by norm_num)
          have pz03 : P1.entry 0 3 = 0 :=
            subperm_row_zero hP011 hrowu (by norm_num) (by norm_num) hP10
              (by norm_num) (by norm_num)
          have pz10 : P1.entry 1 0 = 0 :=
            subperm_row_zero hP011 hrowu (by norm_num) (by norm_num) hP11
              (by norm_num) (by norm_num)
          have pz11 : P1.entry 1 1 = 0 :=
            subperm_row_zero hP011 hrowu (by norm_num) (by norm_num) hP11
              (by norm_num) (by norm_num)
          have pz13 : P1.entry 1 3 = 0 :=
            subperm_row_zero hP011 hrowu (by norm_num) (by norm_num) hP11
              (by norm_num) (by norm_num)
          have pz21 : P1.entry 2 1 = 0 :=
            subperm_row_zero hP011 hrowu (by norm_num) (by norm_num) hP12
              (by norm_num) (by norm_num)
          have pz22 : P1.entry 2 2 = 0 :=
            subperm_row_zero hP011 hrowu (by norm_num) (by norm_num) hP12
              (by norm_num) (by norm_num)
          have pz31 : P1.entry 3 1 = 0 :=
            subperm_row_zero hP011 hrowu (by norm_num) (by norm_num) hP13
              (by norm_num) (by norm_num)
          have pz32 : P1.entry 3 2 = 0 :=
            subperm_row_zero hP011 hrowu (by norm_num) (by norm_num) hP13
              (by norm_num) (by norm_num)
          have pz33 : P1.entry 3 3 = 0 :=
            subperm_row_zero hP011 hrowu (by norm_num) (by norm_num) hP13
              (by norm_num) (by norm_num)
          have s00v : S1.entry 0 0 = 1 - 9/2^51 := by
            rw [hS1eq, clamped_entry, e00, pz00, hq1v]
            norm_num [TOLERANCE, abs_lt]
          have s01v : S1.entry 0 1 = 6/2^51 := by
            rw [hS1eq, clamped_entry, e01, hP10, hq1v]
            norm_num [TOLERANCE, abs_lt]
          have s02v : S1.entry 0 2 = 0 := by
            rw [hS1eq, clamped_entry, e02, pz02, hq1v]
            norm_num [TOLERANCE, abs_lt]
          have s03v : S1.entry 0 3 = 0 := by
            rw [hS1eq, clamped_entry, e03, pz03, hq1v]
            norm_num [TOLERANCE, abs_lt]
          have s10v : S1.entry 1 0 = 0 := by
            rw [hS1eq, clamped_entry, e10, pz10, hq1v]
            norm_num [TOLERANCE, abs_lt]
          have s11v : S1.entry 1 1 = 0 := by
            rw [hS1eq, clamped_entry, e11, pz11, hq1v]
            norm_num [TOLERANCE, abs_lt]
          have s12v : S1.entry 1 2 = 1 - 6/2^51 := by
            rw [hS1eq, clamped_entry, e12, hP11, hq1v]
            norm_num [TOLERANCE, abs_lt]
          have s13v : S1.entry 1 3 = 0 := by
            rw [hS1eq, clamped_entry, e13, pz13, hq1v]
            norm_num [TOLERANCE, abs_lt]
          have s21v : S1.entry 2 1 = 0 := by
            rw [hS1eq, clamped_entry, e21, pz21, hq1v]
            norm_num [TOLERANCE, abs_lt]
          have s22v : S1.entry 2 2 = 0 := by
            rw [hS1eq, clamped_entry, e22, pz22, hq1v]
            norm_num [TOLERANCE, abs_lt]
          have s23v : S1.entry 2 3 = 1 - 9/2^51 := by
            rw [hS1eq, clamped_entry, e23, hP12, hq1v]
            norm_num [TOLERANCE, abs_lt]
          have s30v : S1.entry 3 0 = 0 := by
            rw [hS1eq, clamped_entry, e30, hP13, hq1v]
            norm_num [TOLERANCE, abs_lt]
          have s31v : S1.entry 3 1 = 1 - 9/2^51 := by
            rw [hS1eq, clamped_entry, e31, pz31, hq1v]
            norm_num [TOLERANCE, abs_lt]
          have s32v : S1.entry 3 2 = 0 := by
            rw [hS1eq, clamped_entry, e32, pz32, hq1v]
            norm_num [TOLERANCE, abs_lt]
          have s33v : S1.entry 3 3 = 0 := by
            rw [hS1eq, clamped_entry, e33, pz33, hq1v]
            norm_num [TOLERANCE, abs_lt]
          have hv12 : 1 - 9/2^51 ≤ S1.entry 1 2 :=
            le_trans (show (1:ℚ) - 9/2^51 ≤ 1 - 6/2^51 by norm_num) s12v.ge
          have hv23 : 1 - 9/2^51 ≤ S1.entry 2 3 :=
            le_trans (show (1:ℚ) - 9/2^51 ≤ 1 - 9/2^51 by norm_num) s23v.ge
          obtain ⟨l', st', hloopS1, p, hp, hnp⟩ := C4_level2 C4mat S1 hrS1'
            hcS1' hnnS1 hle1 hm1 s00v s01v s02v s03v s10v s11v s13v s21v
            s22v s30v s31v s32v s33v hv12 hv23
          have hloop0 : decompLoop 4 17 (⟨C4mat, C4mat⟩ : DriverState) =
              (.ok ((q1, P1) :: l'), st') :=
            decompLoop_cons 4 16 ⟨C4mat, C4mat⟩ q1 P1 S1 hz0 hstep1 l' st' hloopS1
          refine ⟨(q1, P1) :: l', ?_, p, List.mem_cons_of_mem _ hp, hnp⟩
          have hrw : birkhoff_von_neumann_decomposition C4mat =
              (decompLoop 4 17 (⟨C4mat, C4mat⟩ : DriverState)).1 := rfl
          rw [hrw, hloop0]
      · rcases hj2m with rfl | rfl
        · -- branch (0,1), (1,3), (2,0), (3,2)
          have hne0x : j3 ≠ 0 := by
            intro hc
            have h := hcolu 0 (by norm_num) 3 (by norm_num) 2 (by norm_num)
              (hc ▸ hP13) hP12
            norm_num at h
          have hne1x : j3 ≠ 1 := by
            intro hc
            have h := hcolu 1 (by norm_num) 3 (by norm_num) 0 (by norm_num)
              (hc ▸ hP13) hP10
            norm_num at h
          have hne3x : j3 ≠ 3 := by
            intro hc
            have h := hcolu 3 (by norm_num) 3 (by norm_num) 1 (by norm_num)
              (hc ▸ hP13) hP11
            norm_num at h
          have hj3v : j3 = 2 := by omega
          subst hj3v
          have hq1v : q1 = 3/2^51 := by
            obtain ⟨a, ha, b, hb, hPab, hSab⟩ := hq1mem
            have hlemin := hq1le 1 (by norm_num) 3 (by norm_num) hP11
            rw [e13] at hlemin
            interval_cases a
            · have hb' : b = 1 := hrowu 0 (by norm_num) b hb 1 (by norm_num) hPab hP10
              subst hb'
              rw [e01] at hSab
              exfalso
              rw [← hSab] at hlemin
              norm_num at hlemin
            · have hb' : b = 3 := hrowu 1 (by norm_num) b hb 3 (by norm_num) hPab hP11
              subst hb'
              rw [e13] at hSab
              exact hSab.symm
            · have hb' : b = 0 := hrowu 2 (by norm_num) b hb 0 (by norm_num) hPab hP12
              subst hb'
              rw [e20] at hSab
              exfalso
              rw [← hSab] at hlemin
              norm_num at hlemin
            · have hb' : b = 2 := hrowu 3 (by norm_num) b hb 2 (by norm_num) hPab hP13
              subst hb'
              rw [e32] at hSab
              exact hSab.symm
          have pz00 : P1.entry 0 0 = 0 :=
            subperm_row_zero hP011 hrowu (by norm_num) (by norm_num) hP10
              (by norm_num) (by norm_num)
          have pz02 : P1.entry 0 2 = 0 :=
            subperm_row_zero hP011 hrowu (by norm_num) (by norm_num) hP10
              (by norm_num) (by norm_num)
          have pz03 : P1.entry 0 3 = 0 :=
            subperm_row_zero hP011 hrowu (by norm_num) (by norm_num) hP10
              (by norm_num) (by norm_num)
          have pz10 : P1.entry 1 0 = 0 :=
            subperm_row_zero hP011 hrowu (by norm_num) (by norm_num) hP11
              (by norm_num) (by norm_num)
          have pz11 : P1.entry 1 1 = 0 :=
            subperm_row_zero hP011 hrowu (by norm_num) (by norm_num) hP11
              (by norm_num) (by norm_num)
          have pz12 : P1.entry 1 2 = 0 :=
            subperm_row_zero hP011 hrowu (by norm_num) (by norm_num) hP11
              (by norm_num) (by norm_num)
          have pz21 : P1.entry 2 1 = 0 :=
            subperm_row_zero hP011 hrowu (by norm_num) (by norm_num) hP12
              (by norm_num) (by norm_num)
          have pz22 : P1.entry 2 2 = 0 :=
            subperm_row_zero hP011 hrowu (by norm_num) (by norm_num) hP12
              (by norm_num) (by norm_num)
          have pz23 : P1.entry 2 3 = 0 :=
            subperm_row_zero hP011 hrowu (by norm_num) (by norm_num) hP12
              (by norm_num) (by norm_num)
          have pz30 : P1.entry 3 0 = 0 :=
            subperm_row_zero hP011 hrowu (by norm_num) (by norm_num) hP13
              (by norm_num) (by norm_num)
          have pz31 : P1.entry 3 1 = 0 :=
            subperm_row_zero hP011 hrowu (by norm_num) (by norm_num) hP13
              (by norm_num) (by norm_num)
          have pz33 : P1.entry 3 3 = 0 :=
            subperm_row_zero hP011 hrowu (by norm_num) (by norm_num) hP13
              (by norm_num) (by norm_num)
          have s00v : S1.entry 0 0 = 1 - 9/2^51 := by
            rw [hS1eq, clamped_entry, e00, pz00, hq1v]
            norm_num [TOLERANCE, abs_lt]
          have s01v : S1.entry 0 1 = 6/2^51 := by
            rw [hS1eq, clamped_entry, e01, hP10, hq1v]
            norm_num [TOLERANCE, abs_lt]
          have s02v : S1.entry 0 2 = 0 := by
            rw [hS1eq, clamped_entry, e02, pz02, hq1v]
            norm_num [TOLERANCE, abs_lt]
          have s03v : S1.entry 0 3 = 0 := by
            rw [hS1eq, clamped_entry, e03, pz03, hq1v]
            norm_num [TOLERANCE, abs_lt]
          have s10v : S1.entry 1 0 = 0 := by
            rw [hS1eq, clamped_entry, e10, pz10, hq1v]
            norm_num [TOLERANCE, abs_lt]
          have s11v : S1.entry 1 1 = 0 := by
            rw [hS1eq, clamped_entry, e11, pz11, hq1v]
            norm_num [TOLERANCE, abs_lt]
          have s12v : S1.entry 1 2 = 1 - 3/2^51 := by
            rw [hS1eq, clamped_entry, e12, pz12, hq1v]
            norm_num [TOLERANCE, abs_lt]
          have s13v : S1.entry 1 3 = 0 := by
            rw [hS1eq, clamped_entry, e13, hP11, hq1v]
            norm_num [TOLERANCE, abs_lt]
          have s21v : S1.entry 2 1 = 0 := by
            rw [hS1eq, clamped_entry, e21, pz21, hq1v]
            norm_num [TOLERANCE, abs_lt]
          have s22v : S1.entry 2 2 = 0 := by
            rw [hS1eq, clamped_entry, e22, pz22, hq1v]
            norm_num [TOLERANCE, abs_lt]
          have s23v : S1.entry 2 3 = 1 - 6/2^51 := by
            rw [hS1eq, clamped_entry, e23, pz23, hq1v]
            norm_num [TOLERANCE, abs_lt]
          have s30v : S1.entry 3 0 = 0 := by
            rw [hS1eq, clamped_entry, e30, pz30, hq1v]
            norm_num [TOLERANCE, abs_lt]
          have s31v : S1.entry 3 1 = 1 - 9/2^51 := by
            rw [hS1eq, clamped_entry, e31, pz31, hq1v]
            norm_num [TOLERANCE, abs_lt]
          have s32v : S1.entry 3 2 = 0 := by
            rw [hS1eq, clamped_entry, e32, hP13, hq1v]
            norm_num [TOLERANCE, abs_lt]
          have s33v : S1.entry 3 3 = 0 := by
            rw [hS1eq, clamped_entry, e33, pz33, hq1v]
            norm_num [TOLERANCE, abs_lt]
          have hv12 : 1 - 9/2^51 ≤ S1.entry 1 2 :=
            le_trans (show (1:ℚ) - 9/2^51 ≤ 1 - 3/2^51 by norm_num) s12v.ge
          have hv23 : 1 - 9/2^51 ≤ S1.entry 2 3 :=
            le_trans (show (1:ℚ) - 9/2^51 ≤ 1 - 6/2^51 by norm_num) s23v.ge
          obtain ⟨l', st', hloopS1, p, hp, hnp⟩ := C4_level2 C4mat S1 hrS1'
            hcS1' hnnS1 hle1 hm1 s00v s01v s02v s03v s10v s11v s13v s21v
            s22v s30v s31v s32v s33v hv12 hv23
          have hloop0 : decompLoop 4 17 (⟨C4mat, C4mat⟩ : DriverState) =
              (.ok ((q1, P1) :: l'), st') :=
            decompLoop_cons 4 16 ⟨C4mat, C4mat⟩ q1 P1 S1 hz0 hstep1 l' st' hloopS1
          refine ⟨(q1, P1) :: l', ?_, p, List.mem_cons_of_mem _ hp, hnp⟩
          have hrw : birkhoff_von_neumann_decomposition C4mat =
              (decompLoop 4 17 (⟨C4mat, C4mat⟩ : DriverState)).1 := rfl
          rw [hrw, hloop0]
        · -- columns 3 of rows 1 and 2 clash
          exfalso
          have h := hcolu 3 (by norm_num) 1 (by norm_num) 2 (by norm_num)
            hP11 hP12
          norm_num at h
  · push_neg at hfull1
    obtain ⟨i0, hi0, hmiss⟩ := hfull1
    obtain ⟨l1, st1, hloop1⟩ := decompLoop_ok 4 16 ⟨C4mat, S1⟩ hrS1' hcS1'
      hnnS1 hle1 (by show nonzeroCount S1 < 16; omega)
    have hloop0 : decompLoop 4 17 (⟨C4mat, C4mat⟩ : DriverState) =
        (.ok ((q1, P1) :: l1), st1) :=
      decompLoop_cons 4 16 ⟨C4mat, C4mat⟩ q1 P1 S1 hz0 hstep1 l1 st1 hloop1
    refine ⟨(q1, P1) :: l1, ?_, (q1, P1), List.mem_cons_self _ _,
      not_isPermMat_row hi0 hmiss⟩
    have hrw : birkhoff_von_neumann_decomposition C4mat =
        (decompLoop 4 17 (⟨C4mat, C4mat⟩ : DriverState)).1 := rfl
    rw [hrw, hloop0]

end Birkhoff

